import Mathlib

/-!
# Resolution prover `res`

A shallow embedding of `internal/clause/clause.go` (literals, clauses, the pairwise
`Resolve` step, the parser, the printer and the saturation driver `Res`), of
`internal/utils/utils.go` (`Abs`, `UnsignedSort`) and of `main.go`.

* `Literal` is a Go `int`.  The code computes with literals only through unary minus,
  which on a 64-bit `int` wraps at the least value; `negLit` is that operation.
* `Clause` wraps `map[Literal]struct{}`: a finite set of keys.  Go leaves the order in
  which `range` visits a map unspecified, so every loop over a map takes the enumeration
  of the keys from a `KeyOrder`, an arbitrary choice of one duplicate-free listing per map.
* Methods that mutate their receiver return the new value of the receiver.
-/

set_option autoImplicit false

namespace clause

/-! ## Machine integers -/

/-- Go `int` on 64-bit targets: the integers of `[-2^63, 2^63)`. -/
def IsInt64 (x : Int) : Prop := -9223372036854775808 ≤ x ∧ x < 9223372036854775808

instance (x : Int) : Decidable (IsInt64 x) := by unfold IsInt64; infer_instance

/-- Two's-complement reduction of an integer to 64 bits: `((x + 2^63) mod 2^64) - 2^63`. -/
def wrap64 (x : Int) : Int :=
  (x + 9223372036854775808) % 18446744073709551616 - 9223372036854775808

/-! ## Literals -/

/-- `type Literal int`. -/
abbrev Literal := Int

/-- `const ErrorLiteral Literal = 0`. -/
def ErrorLiteral : Literal := 0

/-- Go's unary minus on a `Literal`: `-l`, wrapping at the least `int`. -/
def negLit (l : Literal) : Literal := wrap64 (-l)

/-! ## Clauses -/

/-- `type Clause struct { literals map[Literal]struct{} }`: the set of keys of the map. -/
abbrev Clause := Finset Literal

/-- `func New() *Clause`. -/
def New : Clause := ∅

/-- `func (c *Clause) Contains(l Literal) bool`. -/
def Clause.Contains (c : Clause) (l : Literal) : Bool := decide (l ∈ c)

/-- `func (c *Clause) IsEmpty() bool`: `len(c.literals) == 0`. -/
def Clause.IsEmpty (c : Clause) : Bool := decide (c.card = 0)

/-- `func (c *Clause) Size() int`: `len(c.literals)`. -/
def Clause.Size (c : Clause) : Nat := c.card

/-- `func (c *Clause) Insert(l Literal) bool`: the receiver after the call, and the
returned boolean. -/
def Clause.Insert (c : Clause) (l : Literal) : Clause × Bool :=
  if c.Contains (negLit l) then
    (c.erase (negLit l), false)
  else if !c.Contains l then
    (insert l c, true)
  else
    (c, false)

/-- One admissible behaviour of `range` over the maps: for every map a listing of its
keys, each key once. -/
structure KeyOrder where
  /-- The order in which the keys of a map are visited. -/
  keys : Clause → List Literal
  /-- Every key is visited once. -/
  nodup : ∀ c, (keys c).Nodup
  /-- Exactly the keys are visited. -/
  mem_keys : ∀ c l, l ∈ keys c ↔ l ∈ c

/-- The loop `for key := range ... { temp.Insert(key) }` over a given listing of keys. -/
def insertKeys (keys : List Literal) (temp : Clause) : Clause :=
  keys.foldl (fun t key => (Clause.Insert t key).1) temp

/-- `func (c *Clause) Copy() *Clause`. -/
def Clause.Copy (o : KeyOrder) (c : Clause) : Clause :=
  insertKeys (o.keys c) New

/-- The loop of `Resolve` over a listing of the receiver's keys; `none` is the `nil`
clause. -/
def resolveLoop : List Literal → Clause → Bool → Option Clause × Bool
  | [], temp, found => (some temp, found)
  | key :: rest, temp, found =>
    let size := Clause.Size temp
    let temp' := (Clause.Insert temp key).1
    if Clause.Size temp' < size then
      if found then (none, false)
      else resolveLoop rest temp' true
    else resolveLoop rest temp' found

/-- `func (c *Clause) Resolve(other Clause) (*Clause, bool)`. -/
def Clause.Resolve (o : KeyOrder) (c other : Clause) : Option Clause × Bool :=
  resolveLoop (o.keys c) (Clause.Copy o other) false

/-- `func (c *Clause) Equals(other Clause) bool`. -/
def Clause.Equals (o : KeyOrder) (c other : Clause) : Bool :=
  if Clause.Size c ≠ Clause.Size other then false
  else (o.keys c).all (fun l => Clause.Contains other l)

/-- The listing of the keys in ascending order, one concrete `KeyOrder`. -/
def sortedKeys (c : Clause) : List Literal :=
  Quot.liftOn c.val (fun l => l.insertionSort (· ≤ ·)) (by
    intro a b h
    exact List.eq_of_perm_of_sorted
      ((List.perm_insertionSort _ a).trans (h.trans (List.perm_insertionSort _ b).symm))
      (List.sorted_insertionSort _ a) (List.sorted_insertionSort _ b))

/-- Enumeration of every map in ascending key order. -/
def sortedOrder : KeyOrder where
  keys := sortedKeys
  nodup := by
    intro c
    obtain ⟨l, hl⟩ := Quot.exists_rep c.val
    have hp : (sortedKeys c).Perm l := by
      unfold sortedKeys
      rw [← hl]
      exact List.perm_insertionSort _ l
    have hn : c.val.Nodup := c.nodup
    rw [← hl] at hn
    exact hp.nodup_iff.mpr hn
  mem_keys := by
    intro c x
    obtain ⟨l, hl⟩ := Quot.exists_rep c.val
    have hp : (sortedKeys c).Perm l := by
      unfold sortedKeys
      rw [← hl]
      exact List.perm_insertionSort _ l
    rw [hp.mem_iff, ← Finset.mem_val, ← hl]
    exact Iff.rfl

/-- Enumeration of every map in descending key order. -/
def reverseOrder : KeyOrder where
  keys := fun c => (sortedOrder.keys c).reverse
  nodup := fun c => List.nodup_reverse.mpr (sortedOrder.nodup c)
  mem_keys := fun c l => List.mem_reverse.trans (sortedOrder.mem_keys c l)

/-- No two distinct members of the clause are each other's negation. -/
def Clause.NoComplPair (c : Clause) : Prop :=
  ∀ k ∈ c, negLit k ≠ k → negLit k ∉ c

instance (c : Clause) : Decidable (Clause.NoComplPair c) := by
  unfold Clause.NoComplPair; infer_instance

/-- Every member of the clause is a Go `int`. -/
def Clause.Typed (c : Clause) : Prop := ∀ k ∈ c, IsInt64 k

instance (c : Clause) : Decidable (Clause.Typed c) := by
  unfold Clause.Typed; infer_instance

/-! ## Complementary literals and resolvents -/

/-- A listing of keys without repetition, of Go `int`s, in which no two distinct keys are
each other's negation. -/
def KeysOK (keys : List Literal) : Prop :=
  keys.Nodup ∧ (∀ x ∈ keys, IsInt64 x) ∧ ∀ x ∈ keys, ∀ y ∈ keys, negLit x = y → x = y

/-- The literals of `a` whose negation is a member of `b`. -/
def complLits (a b : Clause) : Finset Literal := a.filter (fun z => negLit z ∈ b)

/-- The members of either clause whose negation is not a member of the other. -/
def resolvent (a b : Clause) : Clause :=
  a.filter (fun z => negLit z ∉ b) ∪ b.filter (fun z => negLit z ∉ a)

/-! ## The saturation driver -/

/-- How a run of the loops of `Res` stands: it has executed `return b`, it has panicked on
an index out of range, or it goes on with the current value of `set`. -/
inductive Step where
  | ret (b : Bool)
  | panic
  | next (set : List Clause)

instance : DecidableEq Step := fun a b =>
  match a, b with
  | Step.ret x, Step.ret y =>
    if h : x = y then isTrue (congrArg Step.ret h)
    else isFalse (fun e => h (Step.ret.inj e))
  | Step.next x, Step.next y =>
    if h : x = y then isTrue (congrArg Step.next h)
    else isFalse (fun e => h (Step.next.inj e))
  | Step.panic, Step.panic => isTrue rfl
  | Step.ret _, Step.panic => isFalse (fun e => Step.noConfusion e)
  | Step.ret _, Step.next _ => isFalse (fun e => Step.noConfusion e)
  | Step.panic, Step.ret _ => isFalse (fun e => Step.noConfusion e)
  | Step.panic, Step.next _ => isFalse (fun e => Step.noConfusion e)
  | Step.next _, Step.ret _ => isFalse (fun e => Step.noConfusion e)
  | Step.next _, Step.panic => isFalse (fun e => Step.noConfusion e)

/-- How a call of `Res` ends: with a returned verdict or with a run-time panic. -/
inductive Outcome where
  | verdict (b : Bool)
  | panic
  deriving DecidableEq

/-- The body of the inner loop of `Res` for indices `i ≠ k`. -/
def resBody (o : KeyOrder) (set : List Clause) (i k : Nat) : Step :=
  match set[i]?, set[k]? with
  | some a, some b =>
    match Clause.Resolve o a b with
    | (some c, true) =>
      if set.any (fun s => Clause.Equals o c s) then Step.next set
      else if Clause.IsEmpty c then Step.ret true
      else Step.next (set ++ [c])
    | _ => Step.next set
  | _, _ => Step.panic

/-- The inner loop `for k := ...; k >= index; k--` of `Res`, from `k = n - 1` downwards.
At `k = -1` the guard `k >= index` holds for a negative `index` only, `i == k` fails and
`set[k]` is out of range. -/
def innerLoop (o : KeyOrder) (index : Int) (i : Nat) : Nat → List Clause → Step
  | 0, set => if index ≤ -1 then Step.panic else Step.next set
  | n + 1, set =>
    if (n : Int) < index then Step.next set
    else if i = n then innerLoop o index i n set
    else
      match resBody o set i n with
      | Step.next set' => innerLoop o index i n set'
      | r => r

/-- The outer loop `for i := ...; i >= 0; i--` of `Res`, from `i = n - 1` downwards; the
inner loop starts at the current `len(set) - 1`. -/
def outerLoop (o : KeyOrder) (index : Int) : Nat → List Clause → Step
  | 0, set => Step.next set
  | n + 1, set =>
    match set[n]? with
    | none => Step.panic
    | some a =>
      if Clause.IsEmpty a then Step.ret true
      else
        match innerLoop o index n set.length set with
        | Step.next set' => outerLoop o index n set'
        | r => r

/-- `func Res(set []Clause, index int) bool`, with a bound on the depth of the recursion:
`none` when the bound is reached. -/
def Res (o : KeyOrder) : Nat → List Clause → Int → Option Outcome
  | 0, _, _ => none
  | fuel + 1, set, index =>
    let size := set.length
    match outerLoop o index size set with
    | Step.ret b => some (Outcome.verdict b)
    | Step.panic => some Outcome.panic
    | Step.next set' =>
      if (set'.drop size).any Clause.IsEmpty then some (Outcome.verdict true)
      else if size = set'.length then some (Outcome.verdict false)
      else Res o fuel set' size

/-! ## Derivations by resolution -/

/-- The sequence `set'` is `set` followed by clauses each of which was, when appended, the
resolvent with flag true of two clauses standing in the sequence, and equal to none of
them. -/
inductive Ext (o : KeyOrder) : List Clause → List Clause → Prop
  | refl (set : List Clause) : Ext o set set
  | snoc {set set' : List Clause} (a b c : Clause) : Ext o set set' → a ∈ set' → b ∈ set' →
      Clause.Resolve o a b = (some c, true) → c ∉ set' → Ext o set (set' ++ [c])

/-- The empty clause stands in some extension of the sequence. -/
def Refuted (o : KeyOrder) (set : List Clause) : Prop :=
  ∃ set', Ext o set set' ∧ (∅ : Clause) ∈ set'

/-- The pair of indices has been dealt with: a resolvent with flag true of the clauses at
`i` and `k` stands in the sequence. -/
def Handled (o : KeyOrder) (set : List Clause) (i k : Nat) : Prop :=
  ∀ a b c, set[i]? = some a → set[k]? = some b →
    Clause.Resolve o a b = (some c, true) → c ∈ set

/-! ## Literals of a sequence -/

/-- The literals that occur in the clauses of a sequence. -/
def lits (set : List Clause) : Finset Literal :=
  set.foldr (fun c acc => c ∪ acc) ∅

/-! ## Propositional semantics -/

/-- A code that denotes a literal: not the sentinel, and with its complement `-l` a Go
`int` as well. -/
def IsLitCode (l : Literal) : Prop :=
  l ≠ 0 ∧ -9223372036854775808 < l ∧ l < 9223372036854775808

instance (l : Literal) : Decidable (IsLitCode l) := by unfold IsLitCode; infer_instance

/-- The members of the clause are literal codes, and no complement of a member is a
member. -/
def Clause.Valid (c : Clause) : Prop := ∀ l ∈ c, IsLitCode l ∧ -l ∉ c

instance (c : Clause) : Decidable (Clause.Valid c) := by
  unfold Clause.Valid; infer_instance

/-- Truth value of a literal under an assignment `v` of truth values to the variables
(the positive codes): code `k > 0` is variable `k`, code `-k` its negation. -/
def litTrue (v : Int → Bool) (l : Literal) : Bool :=
  if 0 < l then v l else !(v (-l))

/-- The assignment makes at least one literal of the clause true. -/
def Clause.Sat (v : Int → Bool) (c : Clause) : Prop := ∃ l ∈ c, litTrue v l = true

/-- Some truth assignment makes at least one literal of every clause true. -/
def Satisfiable (S : List Clause) : Prop :=
  ∃ v : Int → Bool, ∀ c ∈ S, Clause.Sat v c

/-! ## Saturation -/

/-- The variables (absolute values of the codes) that occur in a set of clauses. -/
def varsOf (T : Finset Clause) : Finset Nat := T.biUnion (fun c => c.image Int.natAbs)

/-- Closed under resolution on a single complementary pair. -/
def Saturated (T : Finset Clause) : Prop :=
  ∀ a ∈ T, ∀ b ∈ T, (complLits a b).card = 1 → resolvent a b ∈ T

/-! ## Clauses built through the public operations -/

/-- The clauses obtained from `New()` by `Insert` with an argument allowed by `ok`, by
`Copy` and by `Resolve` (either flag). -/
inductive Built (o : KeyOrder) (ok : Literal → Prop) : Clause → Prop
  | new : Built o ok New
  | insert (c : Clause) (l : Literal) : Built o ok c → IsInt64 l → ok l →
      Built o ok (Clause.Insert c l).1
  | copy (c : Clause) : Built o ok c → Built o ok (Clause.Copy o c)
  | resolve (a b c : Clause) (flag : Bool) : Built o ok a → Built o ok b →
      Clause.Resolve o a b = (some c, flag) → Built o ok c

/-! ## Pointers to clauses -/

/-- The maps allocated so far; a `*Clause` is the index of its map in the store. -/
abbrev Store := List Clause

/-- `c.Insert(l)` through the pointer `p`: the store after the call and the returned
boolean; `none` for a pointer to no clause. -/
def Store.Insert (h : Store) (p : Nat) (l : Literal) : Option (Store × Bool) :=
  (h[p]?).map (fun c => (h.set p (Clause.Insert c l).1, (Clause.Insert c l).2))

/-- `c.Copy()` through the pointer `p`: `New()` allocates a map at the next free index,
the keys of `c` are inserted into it, and its pointer is returned. -/
def Store.Copy (o : KeyOrder) (h : Store) (p : Nat) : Option (Store × Nat) :=
  (h[p]?).map (fun c =>
    ((o.keys c).foldl
      (fun h' key =>
        match Store.Insert h' h.length key with
        | some r => r.1
        | none => h')
      (h ++ [New]),
     h.length))

/-! ## Strings and the literal codec -/

/-- A Go string: its sequence of bytes. -/
abbrev Str := List Nat

/-- `var lit2Str = []byte{'A', ..., 'Z'}`. -/
def lit2Str : List Nat :=
  [65, 66, 67, 68, 69, 70, 71, 72, 73, 74, 75, 76, 77, 78, 79, 80, 81, 82, 83, 84, 85, 86,
    87, 88, 89, 90]

/-- `func Lit2Str(l Literal) string`; `"?"` is the byte 63 and `"-"` the byte 45. -/
def Lit2Str (l : Literal) : Str :=
  if l = ErrorLiteral then [63]
  else
    let s : Str := if l < 0 then [45] else []
    let l₁ : Literal := if l < 0 then negLit l else l
    if l₁ < 1 ∨ l₁ > (lit2Str.length : Int) then [63]
    else s ++ [lit2Str.getD (l₁ - 1).toNat 0]

/-- `strings.ToUpper` of the Go standard library on a string of one byte `b`: an ASCII
lower-case letter is replaced by its upper-case letter, any other ASCII byte is kept, and
a byte from 0x80 on, which is not valid UTF-8 by itself, becomes the three bytes of
U+FFFD. -/
def toUpperOneByte (b : Nat) : Str :=
  if b < 128 then
    if 97 ≤ b ∧ b ≤ 122 then [b - 32] else [b]
  else [239, 191, 189]

/-- `func Str2Lit(s string) Literal`. -/
def Str2Lit (s : Str) : Literal :=
  if s.length = 0 ∨ s.length > 2 then ErrorLiteral
  else if s.length = 2 ∧ s[0]? ≠ some 45 then ErrorLiteral
  else
    let signed : Bool := decide (s.length = 2)
    let s₁ : Str := if s.length = 2 then s.drop 1 else s
    match s₁ with
    | [b] =>
      let l : Int := ((toUpperOneByte b).headD 0 : Nat)
      if l < 65 ∨ l > 90 then ErrorLiteral
      else
        let result : Literal := l - 65 + 1
        if signed then negLit result else result
    | _ => ErrorLiteral

/-- An ASCII letter `A`..`Z` or `a`..`z`. -/
def IsLetter (b : Nat) : Prop := (65 ≤ b ∧ b ≤ 90) ∨ (97 ≤ b ∧ b ≤ 122)

instance (b : Nat) : Decidable (IsLetter b) := by unfold IsLetter; infer_instance

/-- Index of a letter in the alphabet, `A`/`a` = 0, ..., `Z`/`z` = 25. -/
def letterIndex (b : Nat) : Nat := if 97 ≤ b then b - 97 else b - 65

/-- The upper-case form of an ASCII byte. -/
def asciiUpper (b : Nat) : Nat := if 97 ≤ b ∧ b ≤ 122 then b - 32 else b

/-- A valid external name: one letter, or `-` followed by one letter. -/
def IsName (v : Str) : Prop := ∃ c, IsLetter c ∧ (v = [c] ∨ v = [45, c])

/-! ## Parsing -/

/-- `strings.Split(s, sep)` of the Go standard library for a separator of one byte: the
pieces of `s` between the separators. -/
def Split (sep : Nat) : Str → List Str
  | [] => [[]]
  | b :: rest =>
    if b = sep then [] :: Split sep rest
    else
      match Split sep rest with
      | piece :: pieces => (b :: piece) :: pieces
      | [] => [[b]]

/-- `utf8.RuneError`, U+FFFD. -/
def RuneError : Nat := 65533

/-- `utf8.DecodeRuneInString`: the first rune of the string and its width in bytes; an
empty string gives `(RuneError, 0)` and an invalid encoding `(RuneError, 1)`. -/
def decodeRune : Str → Nat × Nat
  | [] => (RuneError, 0)
  | s0 :: t =>
    if s0 < 128 then (s0, 1)
    else if s0 < 194 then (RuneError, 1)
    else if s0 < 224 then
      match t with
      | s1 :: _ =>
        if 128 ≤ s1 ∧ s1 ≤ 191 then ((s0 % 32) * 64 + s1 % 64, 2) else (RuneError, 1)
      | [] => (RuneError, 1)
    else if s0 < 240 then
      match t with
      | s1 :: s2 :: _ =>
        if (if s0 = 224 then 160 else 128) ≤ s1 ∧ s1 ≤ (if s0 = 237 then 159 else 191) ∧
            128 ≤ s2 ∧ s2 ≤ 191 then
          ((s0 % 16) * 4096 + (s1 % 64) * 64 + s2 % 64, 3)
        else (RuneError, 1)
      | _ => (RuneError, 1)
    else if s0 < 245 then
      match t with
      | s1 :: s2 :: s3 :: _ =>
        if (if s0 = 240 then 144 else 128) ≤ s1 ∧ s1 ≤ (if s0 = 244 then 143 else 191) ∧
            128 ≤ s2 ∧ s2 ≤ 191 ∧ 128 ≤ s3 ∧ s3 ≤ 191 then
          ((s0 % 8) * 262144 + (s1 % 64) * 4096 + (s2 % 64) * 64 + s3 % 64, 4)
        else (RuneError, 1)
      | _ => (RuneError, 1)
    else (RuneError, 1)

/-- `utf8.RuneStart`: the byte is not a continuation byte. -/
def isRuneStart (b : Nat) : Bool := !(decide (128 ≤ b ∧ b ≤ 191))

/-- The backward scan of `utf8.DecodeLastRuneInString` for the start of the last rune:
`for start--; start >= lim; start-- { if RuneStart(s[start]) { break } }`, entered with
the value of `start` after the first decrement. -/
def scanRuneStart (s : Str) (lim : Int) : Nat → Int → Int
  | 0, start => start
  | n + 1, start =>
    if start < lim then start
    else if isRuneStart (s.getD start.toNat 0) then start
    else scanRuneStart s lim n (start - 1)

/-- `utf8.DecodeLastRuneInString`: the last rune of the string and its width. -/
def decodeLastRune (s : Str) : Nat × Nat :=
  if s.length = 0 then (RuneError, 0)
  else if s.getD (s.length - 1) 0 < 128 then (s.getD (s.length - 1) 0, 1)
  else
    let lim : Int := if (s.length : Int) - 4 < 0 then 0 else (s.length : Int) - 4
    let start : Int := scanRuneStart s lim 4 ((s.length : Int) - 2)
    let start₁ : Nat := if start < 0 then 0 else start.toNat
    let rs := decodeRune (s.drop start₁)
    if start₁ + rs.2 ≠ s.length then (RuneError, 1) else rs

/-- `unicode.IsSpace`: the Unicode white space. -/
def IsSpace (r : Nat) : Bool :=
  if r ≤ 255 then
    decide (r = 9 ∨ r = 10 ∨ r = 11 ∨ r = 12 ∨ r = 13 ∨ r = 32 ∨ r = 133 ∨ r = 160)
  else
    decide (r = 5760 ∨ (8192 ≤ r ∧ r ≤ 8202) ∨ r = 8232 ∨ r = 8233 ∨ r = 8239 ∨ r = 8287 ∨
      r = 12288)

/-- The table `asciiSpace` of package `strings`: tab, line feed, vertical tab, form feed,
carriage return and space. -/
def asciiSpace (c : Nat) : Bool :=
  decide (c = 9 ∨ c = 10 ∨ c = 11 ∨ c = 12 ∨ c = 13 ∨ c = 32)

/-- `strings.TrimLeftFunc(s, unicode.IsSpace)`: the runes are dropped from the left while
they are white space; the first argument bounds the number of runes. -/
def trimLeftSpace : Nat → Str → Str
  | 0, _ => []
  | n + 1, s =>
    match s with
    | [] => []
    | _ :: _ =>
      if IsSpace (decodeRune s).1 then trimLeftSpace n (s.drop (decodeRune s).2) else s

/-- `lastIndexFunc(s, unicode.IsSpace, false)` of package `strings`, from index `i`
downwards: the index of the last rune that is not white space, `none` for -1. -/
def lastIndexNotSpace (s : Str) : Nat → Nat → Option Nat
  | 0, _ => none
  | n + 1, i =>
    if i = 0 then none
    else if IsSpace (decodeLastRune (s.take i)).1 = false then
      some (i - (decodeLastRune (s.take i)).2)
    else lastIndexNotSpace s n (i - (decodeLastRune (s.take i)).2)

/-- `strings.TrimRightFunc(s, unicode.IsSpace)`. -/
def trimRightSpace (s : Str) : Str :=
  match lastIndexNotSpace s (s.length + 1) s.length with
  | some i =>
    if s.getD i 0 ≥ 128 then s.take (i + (decodeRune (s.drop i)).2) else s.take (i + 1)
  | none => []

/-- The second loop of `strings.TrimSpace`, on the reversed `s[start:stop]`: ASCII white
space is dropped from the right, a byte from 0x80 on hands over to `TrimRightFunc`. -/
def trimSpaceStopRev : Str → Str
  | [] => []
  | c :: t =>
    if c ≥ 128 then trimRightSpace (c :: t).reverse
    else if asciiSpace c then trimSpaceStopRev t
    else (c :: t).reverse

/-- The first loop of `strings.TrimSpace`: ASCII white space is dropped from the left, a
byte from 0x80 on hands over to `TrimFunc` on the rest. -/
def trimSpaceStart : Str → Str
  | [] => []
  | c :: t =>
    if c ≥ 128 then trimRightSpace (trimLeftSpace (c :: t).length (c :: t))
    else if asciiSpace c then trimSpaceStart t
    else trimSpaceStopRev (c :: t).reverse

/-- `strings.TrimSpace` of the Go standard library: the string without its leading and
trailing white space, as defined by Unicode. -/
def TrimSpace (s : Str) : Str := trimSpaceStart s

/-- The errors of `Parse`, with the text `v` that the message quotes. -/
inductive ParseError where
  | emptyInput
  | wrongFormat (v : Str)
  | unknownSymbol (v : Str)
  deriving DecidableEq

instance : DecidableEq (Except ParseError Clause) := fun a b =>
  match a, b with
  | Except.ok x, Except.ok y =>
    if h : x = y then isTrue (congrArg Except.ok h)
    else isFalse (fun e => h (Except.ok.inj e))
  | Except.error x, Except.error y =>
    if h : x = y then isTrue (congrArg Except.error h)
    else isFalse (fun e => h (Except.error.inj e))
  | Except.ok _, Except.error _ => isFalse (fun e => Except.noConfusion e)
  | Except.error _, Except.ok _ => isFalse (fun e => Except.noConfusion e)

/-- The body of the loop of `Parse` for one piece `item` of the input, on the clause `c`
built so far. -/
def parseItem (c : Clause) (item : Str) : Except ParseError Clause :=
  let v := TrimSpace item
  if v.length = 0 ∨ v.length > 2 ∨ (v.length = 2 ∧ v[0]? ≠ some 45) then
    Except.error (ParseError.wrongFormat v)
  else
    let signed : Bool := decide (v.length = 2 ∧ v[0]? = some 45)
    let v₁ : Str := if signed then v.drop 1 else v
    if v₁.length ≠ 1 then Except.error (ParseError.wrongFormat v₁)
    else
      let l := Str2Lit v₁
      if l = ErrorLiteral then Except.error (ParseError.unknownSymbol v₁)
      else Except.ok (Clause.Insert c (if signed then negLit l else l)).1

/-- The loop `for _, v := range strings.Split(s, ",")` of `Parse`. -/
def parseLoop : List Str → Clause → Except ParseError Clause
  | [], c => Except.ok c
  | item :: rest, c =>
    match parseItem c item with
    | Except.ok c₁ => parseLoop rest c₁
    | Except.error e => Except.error e

/-- `func Parse(s string) (*Clause, error)`; the comma is the byte 44. -/
def Parse (s : Str) : Except ParseError Clause :=
  if s.length = 0 then Except.error ParseError.emptyInput
  else parseLoop (Split 44 s) New

/-- `strings.Join(items, sep)` for a separator of one byte. -/
def Join (sep : Nat) : List Str → Str
  | [] => []
  | [x] => x
  | x :: y :: rest => x ++ sep :: Join sep (y :: rest)

/-- Following the grammar of the specification: an item is optional ASCII white space, a
valid name (an optional `-` and exactly one letter), and optional ASCII white space. -/
def IsItem (it : Str) : Prop :=
  ∃ ws₁ v ws₂ : Str, it = ws₁ ++ v ++ ws₂ ∧ (∀ b ∈ ws₁, asciiSpace b = true) ∧
    (∀ b ∈ ws₂, asciiSpace b = true) ∧ IsName v

/-- Following the grammar of the specification: a non-empty comma-separated list of
items. -/
def InClauseGrammar (s : Str) : Prop :=
  ∃ items : List Str, items ≠ [] ∧ (∀ it ∈ items, IsItem it) ∧ s = Join 44 items

/-! ## Package `utils` -/

/-- `func Abs(x int) int`; the unary minus wraps at the least `int`. -/
def Abs (x : Int) : Int := if x < 0 then wrap64 (-x) else x

/-- The inner loop of `UnsignedSort` and the store `values[j+1] = key` after it.  The
number is `j + 1`, so `0` stands for `j = -1`; `none` is an index out of range. -/
def sortInner (key : Int) : Nat → List Int → Option (List Int)
  | 0, values => if 0 < values.length then some (values.set 0 key) else none
  | j + 1, values =>
    match values[j]? with
    | none => none
    | some x =>
      if Abs x > Abs key then
        if j + 1 < values.length then sortInner key j (values.set (j + 1) x) else none
      else if j + 1 < values.length then some (values.set (j + 1) key) else none

/-- The outer loop `for i := 1; i < len(values); i++` of `UnsignedSort`, at index `i` with
`n = len(values) - i` indices to go (the length of the slice never changes). -/
def sortOuter : Nat → Nat → List Int → Option (List Int)
  | 0, _, values => some values
  | n + 1, i, values =>
    match values[i]? with
    | none => none
    | some key =>
      match sortInner key i values with
      | none => none
      | some values' => sortOuter n (i + 1) values'

/-- `func UnsignedSort(values []int)`: the slice after the call; `none` is a run-time
panic. -/
def UnsignedSort (values : List Int) : Option (List Int) :=
  sortOuter (values.length - 1) 1 values

/-- Insertion of `key` into a list kept in descending order of `Abs`, behind the elements
of strictly greater `Abs` (specification of one round of `UnsignedSort`, on the reversed
sorted part). -/
def insertDesc (key : Int) : List Int → List Int
  | [] => [key]
  | a :: rest => if Abs a > Abs key then a :: insertDesc key rest else key :: a :: rest

/-- Insertion sort by `Abs`, the reference for `UnsignedSort`. -/
def sortByAbs (values : List Int) : List Int :=
  (values.foldl (fun acc key => insertDesc key acc) []).reverse

/-! ## The printer -/

/-- The loop `for i, l := range values` of `String`: `n` is `len(values)`, `i` the index
of the next value, `s` the string built so far. -/
def stringLoop (n : Nat) : Nat → List Int → Str → Str
  | _, [], s => s
  | i, l :: rest, s =>
    let s₁ := s ++ Lit2Str l
    stringLoop n (i + 1) rest (if i + 1 < n then s₁ ++ [44, 32] else s₁)

/-- `func (c *Clause) String() string`; `values` is filled in the order in which `range`
visits the map.  `none` is a run-time panic. -/
def Clause.String (o : KeyOrder) (c : Clause) : Option Str :=
  match UnsignedSort (o.keys c) with
  | none => none
  | some values => some (stringLoop values.length 0 values [123] ++ [125])

/-! ## The driver without the frontier -/

/-- The naive saturation driver: the procedure of `Res` with the frontier always 0, so
that every pass resolves all ordered pairs `(i, k)` with `i ≠ k`; the recursive call is
`Res(set, 0)` in place of `Res(set, size)`.  `none` when the bound on the depth of the
recursion is reached. -/
def ResNaive (o : KeyOrder) : Nat → List Clause → Option Outcome
  | 0, _ => none
  | fuel + 1, set =>
    let size := set.length
    match outerLoop o 0 size set with
    | Step.ret b => some (Outcome.verdict b)
    | Step.panic => some Outcome.panic
    | Step.next set' =>
      if (set'.drop size).any Clause.IsEmpty then some (Outcome.verdict true)
      else if size = set'.length then some (Outcome.verdict false)
      else ResNaive o fuel set'

/-! ## Error texts -/

/-- The hexadecimal digit `lowerhex[d]` of package `strconv`. -/
def lowerhex (d : Nat) : Nat := if d < 10 then 48 + d else 87 + d

/-- `strconv.IsPrint`: the runes up to U+00FF are decided in the function itself; for the
other runes the function searches the tables of package `strconv`, which stand here as the
parameter `printable`. -/
def IsPrint (printable : Nat → Bool) (r : Nat) : Bool :=
  if r ≤ 255 then
    if 32 ≤ r ∧ r ≤ 126 then true
    else if 161 ≤ r ∧ r ≤ 255 then decide (r ≠ 173)
    else false
  else printable r

/-- `utf8.ValidRune`: up to U+10FFFF and not a surrogate. -/
def ValidRune (r : Nat) : Bool := decide (r < 55296 ∨ (57343 < r ∧ r ≤ 1114111))

/-- `utf8.AppendRune`: the UTF-8 encoding of the rune, that of U+FFFD for a rune that is
not valid. -/
def AppendRune (r : Nat) : Str :=
  if r ≤ 127 then [r]
  else if r ≤ 2047 then [192 + r / 64, 128 + r % 64]
  else if r > 1114111 ∨ (55296 ≤ r ∧ r ≤ 57343) then [239, 191, 189]
  else if r ≤ 65535 then [224 + r / 4096, 128 + r / 64 % 64, 128 + r % 64]
  else [240 + r / 262144, 128 + r / 4096 % 64, 128 + r / 64 % 64, 128 + r % 64]

/-- `appendEscapedRune` of package `strconv` as `Quote` calls it: the quote is `"`, and
the output is neither restricted to ASCII nor to graphic characters. -/
def appendEscapedRune (printable : Nat → Bool) (r : Nat) : Str :=
  if r = 34 ∨ r = 92 then [92, r]
  else if IsPrint printable r then AppendRune r
  else if r = 7 then [92, 97]
  else if r = 8 then [92, 98]
  else if r = 12 then [92, 102]
  else if r = 10 then [92, 110]
  else if r = 13 then [92, 114]
  else if r = 9 then [92, 116]
  else if r = 11 then [92, 118]
  else if r < 32 ∨ r = 127 then [92, 120, lowerhex (r / 16), lowerhex (r % 16)]
  else
    let r₁ := if ValidRune r then r else RuneError
    if r₁ < 65536 then
      [92, 117, lowerhex (r₁ / 4096 % 16), lowerhex (r₁ / 256 % 16),
        lowerhex (r₁ / 16 % 16), lowerhex (r₁ % 16)]
    else
      [92, 85, lowerhex (r₁ / 268435456 % 16), lowerhex (r₁ / 16777216 % 16),
        lowerhex (r₁ / 1048576 % 16), lowerhex (r₁ / 65536 % 16),
        lowerhex (r₁ / 4096 % 16), lowerhex (r₁ / 256 % 16), lowerhex (r₁ / 16 % 16),
        lowerhex (r₁ % 16)]

/-- The loop of `appendQuotedWith` of package `strconv` over the runes of the string: a
byte that starts no valid encoding is written as `\x` and two hexadecimal digits, every
other rune by `appendEscapedRune`.  The number bounds the iterations; the length of the
string is enough, since every iteration consumes at least one byte. -/
def quoteLoop (printable : Nat → Bool) : Nat → Str → Str
  | 0, _ => []
  | _ + 1, [] => []
  | n + 1, s0 :: t =>
    let d : Nat × Nat := if 128 ≤ s0 then decodeRune (s0 :: t) else (s0, 1)
    (if d.2 = 1 ∧ d.1 = RuneError then [92, 120, lowerhex (s0 / 16), lowerhex (s0 % 16)]
      else appendEscapedRune printable d.1) ++
      quoteLoop printable n ((s0 :: t).drop d.2)

/-- The verb `%q` of package `fmt` on a string, which is `strconv.Quote`: the string as a
Go string literal in double quotes. -/
def Quote (printable : Nat → Bool) (s : Str) : Str :=
  [34] ++ quoteLoop printable s.length s ++ [34]

/-- The format `"wrong clause format: "` of the errors of `Parse`, before its `%q`. -/
def wrongFormatText : Str :=
  [119, 114, 111, 110, 103, 32, 99, 108, 97, 117, 115, 101, 32, 102, 111, 114, 109, 97,
    116, 58, 32]

/-- The format `"unknown symbol: "` of the errors of `Parse`, before its `%q`. -/
def unknownSymbolText : Str :=
  [117, 110, 107, 110, 111, 119, 110, 32, 115, 121, 109, 98, 111, 108, 58, 32]

/-- The text `err.Error()` of an error returned by `Parse`, as `fmt.Errorf` builds it. -/
def ParseError.Error (printable : Nat → Bool) : ParseError → Str
  | ParseError.emptyInput =>
    [105, 110, 112, 117, 116, 32, 105, 115, 32, 101, 109, 112, 116, 121]
  | ParseError.wrongFormat v => wrongFormatText ++ Quote printable v
  | ParseError.unknownSymbol v => unknownSymbolText ++ Quote printable v

/-! ## The command line -/

/-- How a run of the program ends. -/
inductive Run where
  /-- No positional argument: `flag.Usage()` writes the usage text to standard error,
  then `os.Exit(0)`. -/
  | usage
  /-- The argument `arg` does not parse: a diagnostic with `arg` and the error goes to
  standard error, then `os.Exit(1)`. -/
  | parseFailure (arg : Str) (err : ParseError)
  /-- The call `fmt.Println(line)` was made and `main` returned. -/
  | printed (line : Str)
  /-- A run-time panic in `Res`. -/
  | panicked
  deriving DecidableEq

/-- The bytes written to standard output. -/
def Run.stdout : Run → Str
  | Run.printed line => line ++ [10]
  | _ => []

/-- The exit status of the process (2 is the status of a Go program that panics). -/
def Run.exitCode : Run → Nat
  | Run.usage => 0
  | Run.parseFailure _ _ => 1
  | Run.printed _ => 0
  | Run.panicked => 2

/-- The loop of `main` over the positional arguments: the sequence `set` after it, or the
first argument that does not parse with its error. -/
def parseArgs : List Str → List Clause → Except (Str × ParseError) (List Clause)
  | [], set => Except.ok set
  | arg :: rest, set =>
    match Parse arg with
    | Except.error err => Except.error (arg, err)
    | Except.ok c => parseArgs rest (set ++ [c])

/-- `func main()`, on the list `flag.Args()` of positional arguments; `none` when the
bound `fuel` on the depth of the recursion of `Res` is reached. -/
def main (o : KeyOrder) (fuel : Nat) (args : List Str) : Option Run :=
  if args.length = 0 then some Run.usage
  else
    match parseArgs args [] with
    | Except.error (arg, err) => some (Run.parseFailure arg err)
    | Except.ok set =>
      match Res o fuel set 0 with
      | none => none
      | some Outcome.panic => some Run.panicked
      | some (Outcome.verdict result) =>
        if result then some (Run.printed [91, 32, 93])
        else some (Run.printed [91, 120, 93])



/-! # Theorems -/

/-! ## Negation of machine integers -/

theorem wrap64_neg_of_ne_min (l : Int) (h : -9223372036854775808 < l)
    (h' : l < 9223372036854775808) : wrap64 (-l) = -l := by
  unfold wrap64
  omega

theorem wrap64_neg_neg (l : Int) (h : -9223372036854775808 ≤ l)
    (h' : l < 9223372036854775808) : wrap64 (-wrap64 (-l)) = l := by
  unfold wrap64
  omega

theorem wrap64_neg_eq_self (l : Int) (h : -9223372036854775808 ≤ l)
    (h' : l < 9223372036854775808) :
    wrap64 (-l) = l ↔ l = 0 ∨ l = -9223372036854775808 := by
  unfold wrap64
  omega

theorem negLit_of_ne_min {l : Literal} (h : IsInt64 l) (hm : l ≠ -9223372036854775808) :
    negLit l = -l :=
  wrap64_neg_of_ne_min l (lt_of_le_of_ne h.1 (Ne.symm hm)) h.2

theorem negLit_min : negLit (-9223372036854775808) = -9223372036854775808 := by
  decide

theorem isInt64_negLit (l : Literal) : IsInt64 (negLit l) := by
  unfold IsInt64 negLit wrap64
  omega

theorem negLit_negLit {l : Literal} (h : IsInt64 l) : negLit (negLit l) = l :=
  wrap64_neg_neg l h.1 h.2

theorem negLit_inj {a b : Literal} (ha : IsInt64 a) (hb : IsInt64 b)
    (h : negLit a = negLit b) : a = b := by
  rw [← negLit_negLit ha, ← negLit_negLit hb, h]

theorem negLit_eq_self_iff {l : Literal} (h : IsInt64 l) :
    negLit l = l ↔ l = 0 ∨ l = -9223372036854775808 :=
  wrap64_neg_eq_self l h.1 h.2

/-! ## `Insert` -/

@[simp] theorem Contains_eq_true (c : Clause) (l : Literal) :
    Clause.Contains c l = true ↔ l ∈ c := by
  simp [Clause.Contains]

@[simp] theorem Contains_eq_false (c : Clause) (l : Literal) :
    Clause.Contains c l = false ↔ l ∉ c := by
  simp [Clause.Contains]

theorem Insert_of_neg_mem {c : Clause} {l : Literal} (h : negLit l ∈ c) :
    Clause.Insert c l = (c.erase (negLit l), false) := by
  simp [Clause.Insert, h]

theorem Insert_of_mem {c : Clause} {l : Literal} (h : negLit l ∉ c) (h' : l ∈ c) :
    Clause.Insert c l = (c, false) := by
  simp [Clause.Insert, h, h']

theorem Insert_of_not_mem {c : Clause} {l : Literal} (h : negLit l ∉ c) (h' : l ∉ c) :
    Clause.Insert c l = (insert l c, true) := by
  simp [Clause.Insert, h, h']

theorem Insert_subset (c : Clause) (l : Literal) :
    (Clause.Insert c l).1 ⊆ insert l c := by
  by_cases h : negLit l ∈ c
  · rw [Insert_of_neg_mem h]
    exact (Finset.erase_subset _ _).trans (Finset.subset_insert _ _)
  · by_cases h' : l ∈ c
    · rw [Insert_of_mem h h']
      exact Finset.subset_insert _ _
    · rw [Insert_of_not_mem h h']

theorem Insert_typed {c : Clause} {l : Literal} (hc : Clause.Typed c) (hl : IsInt64 l) :
    Clause.Typed (Clause.Insert c l).1 := by
  intro k hk
  have := Insert_subset c l hk
  rcases Finset.mem_insert.mp this with rfl | h
  · exact hl
  · exact hc k h

theorem Insert_noComplPair {c : Clause} {l : Literal} (hc : Clause.NoComplPair c)
    (ht : Clause.Typed c) (hl : IsInt64 l) :
    Clause.NoComplPair (Clause.Insert c l).1 := by
  by_cases h : negLit l ∈ c
  · rw [Insert_of_neg_mem h]
    intro k hk hne hmem
    exact hc k (Finset.mem_of_mem_erase hk) hne (Finset.mem_of_mem_erase hmem)
  · by_cases h' : l ∈ c
    · rw [Insert_of_mem h h']
      exact hc
    · rw [Insert_of_not_mem h h']
      intro k hk hne hmem
      rcases Finset.mem_insert.mp hk with rfl | hk
      · rcases Finset.mem_insert.mp hmem with heq | hmem
        · exact hne heq
        · exact h hmem
      · rcases Finset.mem_insert.mp hmem with heq | hmem
        · apply h
          rw [← heq, negLit_negLit (ht k hk)]
          exact hk
        · exact hc k hk hne hmem

theorem insertKeys_cons (key : Literal) (rest : List Literal) (temp : Clause) :
    insertKeys (key :: rest) temp = insertKeys rest (Clause.Insert temp key).1 := rfl

theorem insertKeys_invariant (keys : List Literal) (temp : Clause)
    (hk : ∀ l ∈ keys, IsInt64 l) (ht : Clause.Typed temp) (hc : Clause.NoComplPair temp) :
    Clause.Typed (insertKeys keys temp) ∧ Clause.NoComplPair (insertKeys keys temp) := by
  induction keys generalizing temp with
  | nil => exact ⟨ht, hc⟩
  | cons key rest ih =>
    rw [insertKeys_cons]
    have hkey : IsInt64 key := hk key (List.mem_cons_self _ _)
    exact ih _ (fun l hl => hk l (List.mem_cons_of_mem _ hl)) (Insert_typed ht hkey)
      (Insert_noComplPair hc ht hkey)

theorem noComplPair_int {c : Clause} (ht : Clause.Typed c) (hc : Clause.NoComplPair c)
    (k : Int) (hk : k ≠ 0) : ¬ (k ∈ c ∧ -k ∈ c) := by
  rintro ⟨h1, h2⟩
  have t1 : IsInt64 k := ht k h1
  have t2 : IsInt64 (-k) := ht (-k) h2
  have hmin : k ≠ -9223372036854775808 := by
    intro h
    unfold IsInt64 at t2
    omega
  have hneg : negLit k = -k := negLit_of_ne_min t1 hmin
  have hne : negLit k ≠ k := by
    rw [hneg]
    intro h
    have h' : -k = k := h
    omega
  exact hc k h1 hne (hneg ▸ h2)

/-! ## `Copy`, `Equals` and the loop of `Resolve` -/

theorem KeysOK.tail {x : Literal} {rest : List Literal} (h : KeysOK (x :: rest)) :
    KeysOK rest :=
  ⟨(List.nodup_cons.mp h.1).2, fun y hy => h.2.1 y (List.mem_cons_of_mem _ hy),
    fun y hy z hz => h.2.2 y (List.mem_cons_of_mem _ hy) z (List.mem_cons_of_mem _ hz)⟩

theorem KeysOK.neg_head_not_mem {x : Literal} {rest : List Literal}
    (h : KeysOK (x :: rest)) : negLit x ∉ rest := by
  intro hm
  have := h.2.2 x (List.mem_cons_self _ _) (negLit x) (List.mem_cons_of_mem _ hm) rfl
  exact (List.nodup_cons.mp h.1).1 (this ▸ hm)

theorem KeysOK.neg_ne_head {x y : Literal} {rest : List Literal}
    (h : KeysOK (x :: rest)) (hy : y ∈ rest) : negLit y ≠ x := by
  intro he
  have := h.2.2 y (List.mem_cons_of_mem _ hy) x (List.mem_cons_self _ _) he
  exact (List.nodup_cons.mp h.1).1 (this ▸ hy)

theorem KeysOK.neg_ne_neg_head {x y : Literal} {rest : List Literal}
    (h : KeysOK (x :: rest)) (hy : y ∈ rest) : negLit y ≠ negLit x := by
  intro he
  have := negLit_inj (h.2.1 y (List.mem_cons_of_mem _ hy)) (h.2.1 x (List.mem_cons_self _ _)) he
  exact (List.nodup_cons.mp h.1).1 (this ▸ hy)

theorem keysOK_keys (o : KeyOrder) {c : Clause} (ht : Clause.Typed c)
    (hc : Clause.NoComplPair c) : KeysOK (o.keys c) := by
  refine ⟨o.nodup c, fun x hx => ht x ((o.mem_keys c x).mp hx), ?_⟩
  intro x hx y hy hxy
  have hx' := (o.mem_keys c x).mp hx
  have hy' := (o.mem_keys c y).mp hy
  by_contra hne
  have h1 : negLit x ≠ x := fun h => hne (h.symm.trans hxy)
  exact hc x hx' h1 (hxy ▸ hy')

theorem insertKeys_eq_union (keys : List Literal) (temp : Clause) (hk : KeysOK keys)
    (hn : ∀ x ∈ keys, negLit x ∉ temp) : insertKeys keys temp = temp ∪ keys.toFinset := by
  induction keys generalizing temp with
  | nil => simp [insertKeys]
  | cons x rest ih =>
    rw [insertKeys_cons]
    have hx : negLit x ∉ temp := hn x (List.mem_cons_self _ _)
    have hstep : (Clause.Insert temp x).1 = insert x temp := by
      by_cases h' : x ∈ temp
      · rw [Insert_of_mem hx h', Finset.insert_eq_of_mem h']
      · rw [Insert_of_not_mem hx h']
    rw [hstep, ih _ hk.tail]
    · ext z
      simp only [Finset.mem_union, Finset.mem_insert, List.mem_toFinset, List.mem_cons]
      tauto
    · intro y hy hmem
      rcases Finset.mem_insert.mp hmem with h | h
      · exact hk.neg_ne_head hy h
      · exact hn y (List.mem_cons_of_mem _ hy) h

theorem Copy_eq (o : KeyOrder) {c : Clause} (ht : Clause.Typed c)
    (hc : Clause.NoComplPair c) : Clause.Copy o c = c := by
  unfold Clause.Copy
  rw [insertKeys_eq_union _ _ (keysOK_keys o ht hc) (fun x _ => by simp [New])]
  ext z
  simp [New, o.mem_keys]

theorem Equals_eq_true (o : KeyOrder) (c other : Clause) :
    Clause.Equals o c other = true ↔ c = other := by
  unfold Clause.Equals Clause.Size
  constructor
  · intro h
    by_cases hs : c.card = other.card
    · simp only [hs, ne_eq, not_true_eq_false, if_false, List.all_eq_true,
        Contains_eq_true] at h
      have hsub : c ⊆ other := fun x hx => h x ((o.mem_keys c x).mpr hx)
      exact Finset.eq_of_subset_of_card_le hsub (le_of_eq hs.symm)
    · simp [hs] at h
  · rintro rfl
    simp [o.mem_keys]

theorem resolveLoop_eq (keys : List Literal) (temp : Clause) (found : Bool)
    (hk : KeysOK keys) (ht : Clause.Typed temp) :
    resolveLoop keys temp found =
      if 2 ≤ (keys.filter (fun x => decide (negLit x ∈ temp))).length +
          (if found then 1 else 0) then (none, false)
      else (some (resolvent keys.toFinset temp),
        found || decide (0 < (keys.filter (fun x => decide (negLit x ∈ temp))).length)) := by
  induction keys generalizing temp found with
  | nil =>
    simp only [resolveLoop, List.filter_nil, List.length_nil, Nat.zero_add, resolvent,
      List.toFinset_nil, Finset.filter_empty, Finset.empty_union, Finset.not_mem_empty,
      not_false_eq_true, Finset.filter_True, Nat.lt_irrefl, decide_False, Bool.or_false]
    cases found <;> simp
  | cons x rest ih =>
    have hx : IsInt64 x := hk.2.1 x (List.mem_cons_self _ _)
    have hxr : x ∉ rest := (List.nodup_cons.mp hk.1).1
    have hnr : negLit x ∉ rest := hk.neg_head_not_mem
    -- the collapses met later do not depend on this step
    have hfilter : ∀ temp' : Clause, (∀ y ∈ rest, negLit y ∈ temp' ↔ negLit y ∈ temp) →
        rest.filter (fun y => decide (negLit y ∈ temp')) =
          rest.filter (fun y => decide (negLit y ∈ temp)) := by
      intro temp' h
      apply List.filter_congr
      intro y hy
      simp only [h y hy]
    unfold resolveLoop
    by_cases h1 : negLit x ∈ temp
    · -- a complementary pair collapses
      have hI : (Clause.Insert temp x).1 = temp.erase (negLit x) := by
        rw [Insert_of_neg_mem h1]
      have hsize : Clause.Size (temp.erase (negLit x)) < Clause.Size temp := by
        unfold Clause.Size
        exact Finset.card_erase_lt_of_mem h1
      have hf := hfilter (temp.erase (negLit x)) (fun y hy => by
        rw [Finset.mem_erase]
        exact ⟨fun h => h.2, fun h => ⟨hk.neg_ne_neg_head hy, h⟩⟩)
      have hset : resolvent rest.toFinset (temp.erase (negLit x)) =
          resolvent (x :: rest).toFinset temp := by
        ext z
        simp only [resolvent, Finset.mem_union, Finset.mem_filter, List.mem_toFinset,
          Finset.mem_erase, List.mem_cons, not_and, not_or]
        constructor
        · rintro (⟨hz, hn⟩ | ⟨⟨hne, hz⟩, hn⟩)
          · refine Or.inl ⟨Or.inr hz, ?_⟩
            intro hm
            exact hn (hk.neg_ne_neg_head hz) hm
          · refine Or.inr ⟨hz, ?_, hn⟩
            intro he
            apply hne
            rw [← he, negLit_negLit (ht z hz)]
        · rintro (⟨hz | hz, hn⟩ | ⟨hz, hne, hn⟩)
          · exact absurd h1 (hz ▸ hn)
          · exact Or.inl ⟨hz, fun _ hm => hn hm⟩
          · refine Or.inr ⟨⟨?_, hz⟩, hn⟩
            intro he
            apply hne
            rw [he, negLit_negLit hx]
      simp only [hI, hsize, if_true]
      cases found
      · simp only [Bool.false_eq_true, if_false]
        rw [ih _ true hk.tail (fun k hk' => ht k (Finset.mem_of_mem_erase hk')), hf, hset]
        simp [List.filter_cons, h1]
      · simp only [if_true]
        simp [List.filter_cons, h1]
    · -- nothing collapses
      have hI : (Clause.Insert temp x).1 = insert x temp := by
        by_cases h' : x ∈ temp
        · rw [Insert_of_mem h1 h', Finset.insert_eq_of_mem h']
        · rw [Insert_of_not_mem h1 h']
      have hsize : ¬ Clause.Size (insert x temp) < Clause.Size temp := by
        unfold Clause.Size
        exact Nat.not_lt.mpr (Finset.card_le_card (Finset.subset_insert _ _))
      have hf := hfilter (insert x temp) (fun y hy => by
        rw [Finset.mem_insert]
        exact ⟨fun h => h.resolve_left (hk.neg_ne_head hy), fun h => Or.inr h⟩)
      have hset : resolvent rest.toFinset (insert x temp) =
          resolvent (x :: rest).toFinset temp := by
        ext z
        simp only [resolvent, Finset.mem_union, Finset.mem_filter, List.mem_toFinset,
          Finset.mem_insert, List.mem_cons, not_or]
        constructor
        · rintro (⟨hz, hn⟩ | ⟨hz | hz, hn⟩)
          · exact Or.inl ⟨Or.inr hz, hn.2⟩
          · exact Or.inl ⟨Or.inl hz, hz ▸ h1⟩
          · refine Or.inr ⟨hz, ?_, hn⟩
            intro he
            apply h1
            rw [← he, negLit_negLit (ht z hz)]
            exact hz
        · rintro (⟨hz | hz, hn⟩ | ⟨hz, hne, hn⟩)
          · exact Or.inr ⟨Or.inl hz, hz ▸ hnr⟩
          · exact Or.inl ⟨hz, hk.neg_ne_head hz, hn⟩
          · exact Or.inr ⟨Or.inr hz, hn⟩
      simp only [hI, hsize, if_false]
      rw [ih _ found hk.tail (fun k hk' => by
        rcases Finset.mem_insert.mp hk' with rfl | h
        · exact hx
        · exact ht k h), hf, hset]
      simp [List.filter_cons, h1]

theorem Resolve_eq (o : KeyOrder) {a b : Clause} (hta : Clause.Typed a)
    (ha : Clause.NoComplPair a) (htb : Clause.Typed b) (hb : Clause.NoComplPair b) :
    Clause.Resolve o a b =
      if 2 ≤ (complLits a b).card then (none, false)
      else (some (resolvent a b), decide ((complLits a b).card = 1)) := by
  unfold Clause.Resolve
  rw [Copy_eq o htb hb, resolveLoop_eq _ _ _ (keysOK_keys o hta ha) htb]
  have hcard : ((o.keys a).filter (fun x => decide (negLit x ∈ b))).length =
      (complLits a b).card := by
    rw [← List.toFinset_card_of_nodup ((o.nodup a).filter _)]
    congr 1
    ext z
    simp [complLits, o.mem_keys]
  have hfin : (o.keys a).toFinset = a := by
    ext z
    simp [o.mem_keys]
  rw [hcard, hfin]
  by_cases h2 : 2 ≤ (complLits a b).card
  · simp [h2]
  · have : (0 < (complLits a b).card) = ((complLits a b).card = 1) := by
      apply propext
      omega
    simp [h2, this]

/-! ## Claims about `Insert` -/

/-- C9: `Insert` follows the three-case rule.  With `-l` the negation the code computes:
(1) when `-l` is a member the call leaves the clause with `-l` removed and nothing added,
and returns false; (2) otherwise, when `l` is a member, the clause is unchanged and the
call returns false; (3) otherwise `l` is added to the members and the call returns true;
and the call returns true exactly when the size has grown by one.  This holds for every
literal, zero included. -/
theorem Insert_three_case_rule (c : Clause) (l : Literal) :
    (Clause.Contains c (negLit l) = true →
      Clause.Insert c l = (c.erase (negLit l), false)) ∧
    (Clause.Contains c (negLit l) = false → Clause.Contains c l = true →
      Clause.Insert c l = (c, false)) ∧
    (Clause.Contains c (negLit l) = false → Clause.Contains c l = false →
      Clause.Insert c l = (insert l c, true)) ∧
    ((Clause.Insert c l).2 = true ↔
      Clause.Size (Clause.Insert c l).1 = Clause.Size c + 1) := by
  refine ⟨fun h => Insert_of_neg_mem (by simpa using h),
    fun h h' => Insert_of_mem (by simpa using h) (by simpa using h'),
    fun h h' => Insert_of_not_mem (by simpa using h) (by simpa using h'), ?_⟩
  by_cases h : negLit l ∈ c
  · rw [Insert_of_neg_mem h]
    have := Finset.card_erase_of_mem h
    simp only [Clause.Size]
    constructor
    · intro hf; cases hf
    · intro hs; omega
  · by_cases h' : l ∈ c
    · rw [Insert_of_mem h h']
      simp [Clause.Size]
    · rw [Insert_of_not_mem h h']
      simp [Clause.Size, Finset.card_insert_of_not_mem h']

/-- Witness for C9 on the clause {A, B} and the literal -A. -/
theorem Insert_three_case_rule_witness :
    Clause.Insert ({1, 2} : Clause) (-1) = (({1, 2} : Clause).erase (negLit (-1)), false) :=
  (Insert_three_case_rule {1, 2} (-1)).1 (by decide)

/-- C10 (invariant I1): inserting any finite sequence of literals, one at a time, into an
empty clause gives a clause with no complementary pair: there is no code `k ≠ 0` with
both `k` and `-k` members, and no two distinct members are each other's negation. -/
theorem insert_sequence_no_complementary_pair (ls : List Literal)
    (hls : ∀ l ∈ ls, IsInt64 l) :
    (∀ k : Literal, k ≠ 0 → ¬ (k ∈ insertKeys ls New ∧ -k ∈ insertKeys ls New)) ∧
    Clause.NoComplPair (insertKeys ls New) := by
  have h := insertKeys_invariant ls New hls (fun k hk => by simp [New] at hk)
    (fun k hk => by simp [New] at hk)
  exact ⟨noComplPair_int h.1 h.2, h.2⟩

/-- Witness for C10 on the insertions A, -B, -A, B, C. -/
theorem insert_sequence_no_complementary_pair_witness :
    (∀ l ∈ [(1 : Literal), -2, -1, 2, 3], IsInt64 l) ∧
    ((∀ k : Literal, k ≠ 0 → ¬ (k ∈ insertKeys [1, -2, -1, 2, 3] New ∧
        -k ∈ insertKeys [1, -2, -1, 2, 3] New)) ∧
      Clause.NoComplPair (insertKeys [1, -2, -1, 2, 3] New)) :=
  ⟨by decide, insert_sequence_no_complementary_pair [1, -2, -1, 2, 3] (by decide)⟩

/-! ## Claims about `Resolve` -/

theorem resolvent_comm (a b : Clause) : resolvent a b = resolvent b a := by
  unfold resolvent
  exact Finset.union_comm _ _

theorem complLits_card_comm {a b : Clause} (hta : Clause.Typed a) (htb : Clause.Typed b) :
    (complLits a b).card = (complLits b a).card := by
  have himg : complLits b a = (complLits a b).image negLit := by
    ext z
    simp only [complLits, Finset.mem_filter, Finset.mem_image]
    constructor
    · rintro ⟨hz, hn⟩
      exact ⟨negLit z, ⟨hn, by rw [negLit_negLit (htb z hz)]; exact hz⟩,
        negLit_negLit (htb z hz)⟩
    · rintro ⟨x, ⟨hx, hn⟩, rfl⟩
      exact ⟨hn, by rw [negLit_negLit (hta x hx)]; exact hx⟩
  rw [himg, Finset.card_image_of_injOn]
  intro x hx y hy hxy
  simp only [complLits, Finset.coe_filter, Set.mem_setOf_eq] at hx hy
  exact negLit_inj (hta x hx.1) (hta y hy.1) hxy

theorem resolvent_single {a b : Clause} (hta : Clause.Typed a)
    (ha : Clause.NoComplPair a) (htb : Clause.Typed b) (hb : Clause.NoComplPair b)
    {l : Literal} (hl : l ∈ a) (hlb : negLit l ∈ b)
    (huniq : ∀ x ∈ a, negLit x ∈ b → x = l) :
    resolvent a b = (a ∪ b) \ {l, negLit l} := by
  ext z
  simp only [resolvent, Finset.mem_union, Finset.mem_filter, Finset.mem_sdiff,
    Finset.mem_insert, Finset.mem_singleton, not_or]
  constructor
  · rintro (⟨hz, hn⟩ | ⟨hz, hn⟩)
    · refine ⟨Or.inl hz, fun h => hn (h ▸ hlb), ?_⟩
      intro h
      by_cases hs : negLit l = l
      · exact hn (by rw [h, hs]; exact hlb)
      · exact ha l hl hs (h ▸ hz)
    · refine ⟨Or.inr hz, ?_, ?_⟩
      · intro h
        by_cases hs : negLit l = l
        · exact hn (by rw [h, hs]; exact hl)
        · exact hb (negLit l) hlb (by rw [negLit_negLit (hta l hl)]; exact fun e => hs e.symm)
            (by rw [negLit_negLit (hta l hl)]; exact h ▸ hz)
      · intro h
        exact hn (by rw [h, negLit_negLit (hta l hl)]; exact hl)
  · rintro ⟨hz | hz, h1, h2⟩
    · exact Or.inl ⟨hz, fun hn => h1 (huniq z hz hn)⟩
    · refine Or.inr ⟨hz, fun hn => h2 ?_⟩
      have := huniq (negLit z) hn (by rw [negLit_negLit (htb z hz)]; exact hz)
      rw [← this, negLit_negLit (htb z hz)]

/-- C4 (single-pair resolution): when neither clause contains a complementary pair and
exactly one literal `l` of `a` has its negation in `b`, `a.Resolve(b)` returns the flag
true and the clause whose members are those of `a` and `b` without `l` and `-l`. -/
theorem Resolve_single_pair (o : KeyOrder) (a b : Clause) (hta : Clause.Typed a)
    (ha : Clause.NoComplPair a) (htb : Clause.Typed b) (hb : Clause.NoComplPair b)
    (l : Literal) (hl : l ∈ a) (hlb : negLit l ∈ b)
    (huniq : ∀ x ∈ a, negLit x ∈ b → x = l) :
    Clause.Resolve o a b = (some ((a ∪ b) \ {l, negLit l}), true) := by
  have hD : complLits a b = {l} := by
    ext z
    simp only [complLits, Finset.mem_filter, Finset.mem_singleton]
    exact ⟨fun h => huniq z h.1 h.2, fun h => h ▸ ⟨hl, hlb⟩⟩
  rw [Resolve_eq o hta ha htb hb, hD, resolvent_single hta ha htb hb hl hlb huniq]
  simp

/-- Witness for C4: resolving {A, -B} with {B, C} gives {A, C} and true. -/
theorem Resolve_single_pair_witness :
    Clause.Resolve sortedOrder ({1, -2} : Clause) ({2, 3} : Clause) =
      (some ((({1, -2} : Clause) ∪ ({2, 3} : Clause)) \ {-2, negLit (-2)}), true) :=
  Resolve_single_pair sortedOrder {1, -2} {2, 3} (by decide) (by decide) (by decide)
    (by decide) (-2) (by decide) (by decide) (by decide)

/-- C5 (no-pair resolution): when neither clause contains a complementary pair and no
literal of `a` has its negation in `b`, `a.Resolve(b)` returns the flag false and the
clause whose members are those of `a` together with those of `b`. -/
theorem Resolve_no_pair (o : KeyOrder) (a b : Clause) (hta : Clause.Typed a)
    (ha : Clause.NoComplPair a) (htb : Clause.Typed b) (hb : Clause.NoComplPair b)
    (hnone : ∀ x ∈ a, negLit x ∉ b) :
    Clause.Resolve o a b = (some (a ∪ b), false) := by
  have hD : complLits a b = ∅ := by
    ext z
    simp only [complLits, Finset.mem_filter, Finset.not_mem_empty, iff_false, not_and]
    exact hnone z
  have hres : resolvent a b = a ∪ b := by
    ext z
    simp only [resolvent, Finset.mem_union, Finset.mem_filter]
    constructor
    · rintro (h | h)
      · exact Or.inl h.1
      · exact Or.inr h.1
    · rintro (h | h)
      · exact Or.inl ⟨h, hnone z h⟩
      · refine Or.inr ⟨h, fun hn => hnone _ hn ?_⟩
        rw [negLit_negLit (htb z h)]
        exact h
  rw [Resolve_eq o hta ha htb hb, hD, hres]
  simp

/-- Witness for C5: resolving {A, B} with {C, D} gives the union and false. -/
theorem Resolve_no_pair_witness :
    Clause.Resolve sortedOrder ({1, 2} : Clause) ({3, 4} : Clause) =
      (some (({1, 2} : Clause) ∪ ({3, 4} : Clause)), false) :=
  Resolve_no_pair sortedOrder {1, 2} {3, 4} (by decide) (by decide) (by decide)
    (by decide) (by decide)

/-- C6 (multi-pair rejection): when neither clause contains a complementary pair,
`a.Resolve(b)` returns `(nil, false)` if two distinct literals of `a` have their negation
in `b`, and it returns a nil clause only in that case. -/
theorem Resolve_multi_pair (o : KeyOrder) (a b : Clause) (hta : Clause.Typed a)
    (ha : Clause.NoComplPair a) (htb : Clause.Typed b) (hb : Clause.NoComplPair b) :
    ((∃ l₁ ∈ a, ∃ l₂ ∈ a, l₁ ≠ l₂ ∧ negLit l₁ ∈ b ∧ negLit l₂ ∈ b) →
      Clause.Resolve o a b = (none, false)) ∧
    ((Clause.Resolve o a b).1 = none →
      ∃ l₁ ∈ a, ∃ l₂ ∈ a, l₁ ≠ l₂ ∧ negLit l₁ ∈ b ∧ negLit l₂ ∈ b) := by
  have hiff : 2 ≤ (complLits a b).card ↔
      ∃ l₁ ∈ a, ∃ l₂ ∈ a, l₁ ≠ l₂ ∧ negLit l₁ ∈ b ∧ negLit l₂ ∈ b := by
    rw [show (2 ≤ (complLits a b).card) = (1 < (complLits a b).card) from rfl,
      Finset.one_lt_card_iff]
    simp only [complLits, Finset.mem_filter]
    constructor
    · rintro ⟨x, y, ⟨hx, hxb⟩, ⟨hy, hyb⟩, hne⟩
      exact ⟨x, hx, y, hy, hne, hxb, hyb⟩
    · rintro ⟨x, hx, y, hy, hne, hxb, hyb⟩
      exact ⟨x, y, ⟨hx, hxb⟩, ⟨hy, hyb⟩, hne⟩
  rw [Resolve_eq o hta ha htb hb]
  constructor
  · intro h
    rw [if_pos (hiff.mpr h)]
  · intro h
    by_cases h2 : 2 ≤ (complLits a b).card
    · exact hiff.mp h2
    · rw [if_neg h2] at h
      cases h

/-- Witness for C6: resolving {A, B} with {-A, -B} gives `(nil, false)`. -/
theorem Resolve_multi_pair_witness :
    Clause.Resolve sortedOrder ({1, 2} : Clause) ({-1, -2} : Clause) = (none, false) :=
  (Resolve_multi_pair sortedOrder {1, 2} {-1, -2} (by decide) (by decide) (by decide)
    (by decide)).1 ⟨1, by decide, 2, by decide, by decide, by decide, by decide⟩

/-- C7 (symmetry): when neither clause contains a complementary pair, `a.Resolve(b)` and
`b.Resolve(a)` return the same flag and are both nil or both non-nil, and two non-nil
results have the same members, so `Equals` holds between them. -/
theorem Resolve_symmetric (o : KeyOrder) (a b : Clause) (hta : Clause.Typed a)
    (ha : Clause.NoComplPair a) (htb : Clause.Typed b) (hb : Clause.NoComplPair b) :
    (Clause.Resolve o a b).2 = (Clause.Resolve o b a).2 ∧
    ((Clause.Resolve o a b).1 = none ↔ (Clause.Resolve o b a).1 = none) ∧
    ∀ r r', (Clause.Resolve o a b).1 = some r → (Clause.Resolve o b a).1 = some r' →
      Clause.Equals o r r' = true ∧ ∀ l, Clause.Contains r l = Clause.Contains r' l := by
  have h : Clause.Resolve o a b = Clause.Resolve o b a := by
    rw [Resolve_eq o hta ha htb hb, Resolve_eq o htb hb hta ha,
      complLits_card_comm hta htb, resolvent_comm a b]
  rw [h]
  refine ⟨rfl, Iff.rfl, ?_⟩
  intro r r' h1 h2
  have : r = r' := Option.some.inj (h1.symm.trans h2)
  subst this
  exact ⟨(Equals_eq_true o r r).mpr rfl, fun _ => rfl⟩

/-- Witness for C7 on {A, -B} and {B, C}. -/
theorem Resolve_symmetric_witness :
    (Clause.Resolve sortedOrder ({1, -2} : Clause) ({2, 3} : Clause)).2 =
      (Clause.Resolve sortedOrder ({2, 3} : Clause) ({1, -2} : Clause)).2 :=
  (Resolve_symmetric sortedOrder {1, -2} {2, 3} (by decide) (by decide) (by decide)
    (by decide)).1

/-- C8 (order independence): when neither clause contains a complementary pair, any two
enumeration orders of the maps give the same outcome of `Resolve`: the same flag, the
same nil-ness and, when non-nil, a clause with the same members. -/
theorem Resolve_order_independent (o o' : KeyOrder) (a b : Clause)
    (hta : Clause.Typed a) (ha : Clause.NoComplPair a) (htb : Clause.Typed b)
    (hb : Clause.NoComplPair b) :
    Clause.Resolve o a b = Clause.Resolve o' a b := by
  rw [Resolve_eq o hta ha htb hb, Resolve_eq o' hta ha htb hb]

/-- Witness for C8 on {A, -B} and {B, C}. -/
theorem Resolve_order_independent_witness :
    Clause.Resolve sortedOrder ({1, -2} : Clause) ({2, 3} : Clause) =
      Clause.Resolve reverseOrder ({1, -2} : Clause) ({2, 3} : Clause) :=
  Resolve_order_independent sortedOrder reverseOrder {1, -2} {2, 3} (by decide) (by decide)
    (by decide) (by decide)

/-! ## The passes of the driver -/

theorem Ext.trans {o : KeyOrder} {s₁ s₂ s₃ : List Clause} (h₁ : Ext o s₁ s₂)
    (h₂ : Ext o s₂ s₃) : Ext o s₁ s₃ := by
  induction h₂ with
  | refl => exact h₁
  | snoc a b c _ ha hb hr hc ih => exact Ext.snoc a b c ih ha hb hr hc

theorem Ext.exists_append {o : KeyOrder} {s₁ s₂ : List Clause} (h : Ext o s₁ s₂) :
    ∃ t, s₁ ++ t = s₂ := by
  induction h with
  | refl => exact ⟨[], List.append_nil _⟩
  | snoc a b c _ _ _ _ _ ih =>
    obtain ⟨t, rfl⟩ := ih
    exact ⟨t ++ [c], (List.append_assoc _ _ _).symm⟩

theorem Ext.length_le {o : KeyOrder} {s₁ s₂ : List Clause} (h : Ext o s₁ s₂) :
    s₁.length ≤ s₂.length := by
  obtain ⟨t, rfl⟩ := h.exists_append
  simp

theorem Ext.mem {o : KeyOrder} {s₁ s₂ : List Clause} (h : Ext o s₁ s₂) {c : Clause}
    (hc : c ∈ s₁) : c ∈ s₂ := by
  obtain ⟨t, rfl⟩ := h.exists_append
  exact List.mem_append_left _ hc

theorem Ext.getElem? {o : KeyOrder} {s₁ s₂ : List Clause} (h : Ext o s₁ s₂) {i : Nat}
    {a : Clause} (hi : s₁[i]? = some a) : s₂[i]? = some a := by
  obtain ⟨t, rfl⟩ := h.exists_append
  have hlt : i < s₁.length := by
    by_contra hge
    rw [List.getElem?_eq_none (Nat.le_of_not_lt hge)] at hi
    cases hi
  rw [List.getElem?_append_left hlt]
  exact hi

theorem Ext.getElem?_back {o : KeyOrder} {s₁ s₂ : List Clause} (h : Ext o s₁ s₂) {i : Nat}
    (hlt : i < s₁.length) {a : Clause} (hi : s₂[i]? = some a) : s₁[i]? = some a := by
  obtain ⟨t, rfl⟩ := h.exists_append
  rw [List.getElem?_append_left hlt] at hi
  exact hi

theorem Ext.eq_of_length {o : KeyOrder} {s₁ s₂ : List Clause} (h : Ext o s₁ s₂)
    (hl : s₁.length = s₂.length) : s₂ = s₁ := by
  obtain ⟨t, rfl⟩ := h.exists_append
  have : t = [] := by
    rw [List.length_append] at hl
    exact List.length_eq_zero.mp (by omega)
  rw [this, List.append_nil]

theorem Refuted.of_later {o : KeyOrder} {s₁ s₂ : List Clause} (h : Ext o s₁ s₂)
    (hr : Refuted o s₂) : Refuted o s₁ := by
  obtain ⟨s₃, h₃, he⟩ := hr
  exact ⟨s₃, h.trans h₃, he⟩

theorem Handled.mono {o : KeyOrder} {s₁ s₂ : List Clause} (h : Ext o s₁ s₂) {i k : Nat}
    (hi : i < s₁.length) (hk : k < s₁.length) (hh : Handled o s₁ i k) :
    Handled o s₂ i k := by
  intro a b c ha hb hr
  exact h.mem (hh a b c (h.getElem?_back hi ha) (h.getElem?_back hk hb) hr)

theorem any_Equals_eq_true (o : KeyOrder) (c : Clause) (set : List Clause) :
    set.any (fun s => Clause.Equals o c s) = true ↔ c ∈ set := by
  simp only [List.any_eq_true, Equals_eq_true]
  constructor
  · rintro ⟨s, hs, rfl⟩
    exact hs
  · intro h
    exact ⟨c, h, rfl⟩

theorem IsEmpty_eq_true (c : Clause) : Clause.IsEmpty c = true ↔ c = ∅ := by
  simp [Clause.IsEmpty]

/-- What an execution of the body of the inner loop does. -/
theorem resBody_spec (o : KeyOrder) (set : List Clause) (i k : Nat) (a b : Clause)
    (hi : set[i]? = some a) (hk : set[k]? = some b) :
    (∃ set', resBody o set i k = Step.next set' ∧ Ext o set set' ∧
      ∀ c, Clause.Resolve o a b = (some c, true) → c ∈ set') ∨
    (resBody o set i k = Step.ret true ∧ Refuted o set) := by
  have ha : a ∈ set := List.getElem?_mem hi
  have hb : b ∈ set := List.getElem?_mem hk
  unfold resBody
  simp only [hi, hk]
  rcases hres : Clause.Resolve o a b with ⟨_ | c, _ | _⟩
  · exact Or.inl ⟨set, rfl, Ext.refl set, fun c h => by cases h⟩
  · exact Or.inl ⟨set, rfl, Ext.refl set, fun c h => by cases h⟩
  · exact Or.inl ⟨set, rfl, Ext.refl set, fun c h => by cases h⟩
  · by_cases hex : set.any (fun s => Clause.Equals o c s) = true
    · refine Or.inl ⟨set, by simp only [hex, if_true], Ext.refl set, ?_⟩
      intro c' h
      cases h
      exact (any_Equals_eq_true o c set).mp hex
    · have hnot : c ∉ set := fun h => hex ((any_Equals_eq_true o c set).mpr h)
      have hext : Ext o set (set ++ [c]) := Ext.snoc a b c (Ext.refl set) ha hb hres hnot
      by_cases hemp : Clause.IsEmpty c = true
      · refine Or.inr ⟨by simp [hex, hemp], set ++ [c], hext, ?_⟩
        rw [(IsEmpty_eq_true c).mp hemp]
        simp
      · refine Or.inl ⟨set ++ [c], by simp [hex, hemp], hext, ?_⟩
        intro c' h
        cases h
        simp

/-- What a run of the inner loop does, for an index `i` in range. -/
theorem innerLoop_spec (o : KeyOrder) (index : Int) (i : Nat) (n : Nat) (set : List Clause)
    (hi : i < set.length) (hn : n ≤ set.length) :
    (∃ set', innerLoop o index i n set = Step.next set' ∧ Ext o set set' ∧
      ∀ k : Nat, index ≤ k → k < n → k ≠ i → Handled o set' i k) ∨
    (innerLoop o index i n set = Step.ret true ∧ Refuted o set) ∨
    (innerLoop o index i n set = Step.panic ∧ index < 0) := by
  induction n generalizing set with
  | zero =>
    unfold innerLoop
    by_cases h : index ≤ -1
    · exact Or.inr (Or.inr ⟨by simp only [h, if_true], by omega⟩)
    · exact Or.inl ⟨set, by simp only [h, if_false], Ext.refl set,
        fun k _ hk => absurd hk (Nat.not_lt_zero k)⟩
  | succ n ih =>
    unfold innerLoop
    by_cases h1 : (n : Int) < index
    · refine Or.inl ⟨set, by simp only [h1, if_true], Ext.refl set, ?_⟩
      intro k hk1 hk2 _
      omega
    · simp only [h1, if_false]
      by_cases h2 : i = n
      · simp only [h2, if_true]
        rcases ih set (h2 ▸ hi) (Nat.le_of_succ_le hn) with ⟨set', he, hext, hh⟩ | h | h
        · refine Or.inl ⟨set', h2 ▸ he, hext, ?_⟩
          intro k hk1 hk2 hk3
          have : k < n := by omega
          exact h2 ▸ hh k hk1 this (h2 ▸ hk3)
        · exact Or.inr (Or.inl (h2 ▸ h))
        · exact Or.inr (Or.inr (h2 ▸ h))
      · simp only [h2, if_false]
        have hnlt : n < set.length := hn
        obtain ⟨a, ha⟩ : ∃ a, set[i]? = some a := ⟨set[i], List.getElem?_eq_getElem hi⟩
        obtain ⟨b, hb⟩ : ∃ b, set[n]? = some b := ⟨set[n], List.getElem?_eq_getElem hnlt⟩
        rcases resBody_spec o set i n a b ha hb with ⟨set₁, he₁, hext₁, hh₁⟩ | ⟨he₁, hr₁⟩
        · rw [he₁]
          simp only []
          have hi₁ : i < set₁.length := Nat.lt_of_lt_of_le hi hext₁.length_le
          have hn₁ : n ≤ set₁.length := Nat.le_trans (Nat.le_of_succ_le hn) hext₁.length_le
          rcases ih set₁ hi₁ hn₁ with ⟨set', he, hext, hh⟩ | ⟨he, hr⟩ | h
          · refine Or.inl ⟨set', he, hext₁.trans hext, ?_⟩
            intro k hk1 hk2 hk3
            by_cases hkn : k = n
            · subst hkn
              have : Handled o set₁ i k := by
                intro a' b' c ha' hb' hr
                have e1 : a' = a := Option.some.inj ((hext₁.getElem? ha).symm.trans ha').symm
                have e2 : b' = b := Option.some.inj ((hext₁.getElem? hb).symm.trans hb').symm
                subst e1 e2
                exact hh₁ c hr
              exact this.mono hext hi₁ (Nat.lt_of_lt_of_le hnlt hext₁.length_le)
            · exact hh k hk1 (by omega) hk3
          · exact Or.inr (Or.inl ⟨he, hr.of_later hext₁⟩)
          · exact Or.inr (Or.inr h)
        · rw [he₁]
          exact Or.inr (Or.inl ⟨rfl, hr₁⟩)

/-- What a run of the outer loop does. -/
theorem outerLoop_spec (o : KeyOrder) (index : Int) (n : Nat) (set : List Clause)
    (hn : n ≤ set.length) :
    (∃ set', outerLoop o index n set = Step.next set' ∧ Ext o set set' ∧
      (∀ i k : Nat, i < n → index ≤ k → k < set.length → k ≠ i → Handled o set' i k) ∧
      (∀ i : Nat, i < n → set[i]? ≠ some ∅)) ∨
    (outerLoop o index n set = Step.ret true ∧ Refuted o set) ∨
    (outerLoop o index n set = Step.panic ∧ index < 0) := by
  induction n generalizing set with
  | zero =>
    exact Or.inl ⟨set, rfl, Ext.refl set, fun i k hi => absurd hi (Nat.not_lt_zero i),
      fun i hi => absurd hi (Nat.not_lt_zero i)⟩
  | succ n ih =>
    have hnlt : n < set.length := hn
    have ha : set[n]? = some set[n] := List.getElem?_eq_getElem hnlt
    unfold outerLoop
    simp only [ha]
    by_cases hemp : Clause.IsEmpty set[n] = true
    · refine Or.inr (Or.inl ⟨by simp only [hemp, if_true], set, Ext.refl set, ?_⟩)
      rw [← (IsEmpty_eq_true _).mp hemp]
      exact List.getElem_mem _
    · simp only [hemp, if_false]
      rcases innerLoop_spec o index n set.length set hnlt (Nat.le_refl _) with
        ⟨set₁, he₁, hext₁, hh₁⟩ | ⟨he₁, hr₁⟩ | ⟨he₁, hneg⟩
      · rw [he₁]
        simp only []
        have hn₁ : n ≤ set₁.length := Nat.le_trans (Nat.le_of_succ_le hn) hext₁.length_le
        rcases ih set₁ hn₁ with ⟨set', he, hext, hh, hne⟩ | ⟨he, hr⟩ | h
        · refine Or.inl ⟨set', he, hext₁.trans hext, ?_, ?_⟩
          · intro i k hi hk1 hk2 hk3
            by_cases hin : i = n
            · subst hin
              exact (hh₁ k hk1 hk2 hk3).mono hext (Nat.lt_of_lt_of_le hnlt hext₁.length_le)
                (Nat.lt_of_lt_of_le hk2 hext₁.length_le)
            · exact hh i k (by omega) hk1 (Nat.lt_of_lt_of_le hk2 hext₁.length_le) hk3
          · intro i hi
            by_cases hin : i = n
            · subst hin
              rw [ha]
              intro h
              exact hemp ((IsEmpty_eq_true _).mpr (Option.some.inj h))
            · intro h
              exact hne i (by omega) (hext₁.getElem? h)
        · exact Or.inr (Or.inl ⟨he, hr.of_later hext₁⟩)
        · exact Or.inr (Or.inr h)
      · rw [he₁]
        exact Or.inr (Or.inl ⟨rfl, hr₁⟩)
      · rw [he₁]
        exact Or.inr (Or.inr ⟨rfl, hneg⟩)

/-! ## Termination of the driver -/

theorem mem_lits (set : List Clause) (l : Literal) : l ∈ lits set ↔ ∃ c ∈ set, l ∈ c := by
  induction set with
  | nil => simp [lits]
  | cons c rest ih =>
    have : lits (c :: rest) = c ∪ lits rest := rfl
    rw [this, Finset.mem_union, ih]
    simp

theorem subset_lits {set : List Clause} {c : Clause} (hc : c ∈ set) : c ⊆ lits set :=
  fun l hl => (mem_lits set l).mpr ⟨c, hc, hl⟩

theorem insertKeys_subset (keys : List Literal) (temp : Clause) :
    insertKeys keys temp ⊆ temp ∪ keys.toFinset := by
  induction keys generalizing temp with
  | nil => simp [insertKeys]
  | cons x rest ih =>
    rw [insertKeys_cons]
    intro z hz
    have h1 := ih _ hz
    rcases Finset.mem_union.mp h1 with h | h
    · have h2 := Insert_subset temp x h
      rcases Finset.mem_insert.mp h2 with rfl | h3
      · simp
      · exact Finset.mem_union_left _ h3
    · simp only [Finset.mem_union, List.mem_toFinset, List.mem_cons]
      exact Or.inr (Or.inr (List.mem_toFinset.mp h))

theorem resolveLoop_subset (keys : List Literal) (temp : Clause) (found : Bool)
    (c : Clause) (flag : Bool) (h : resolveLoop keys temp found = (some c, flag)) :
    c ⊆ temp ∪ keys.toFinset := by
  induction keys generalizing temp found with
  | nil =>
    simp only [resolveLoop, Prod.mk.injEq, Option.some.injEq] at h
    rw [← h.1]
    simp
  | cons x rest ih =>
    have hstep : ∀ f, resolveLoop rest (Clause.Insert temp x).1 f = (some c, flag) →
        c ⊆ temp ∪ (x :: rest).toFinset := by
      intro f hf z hz
      rcases Finset.mem_union.mp (ih _ f hf hz) with h1 | h1
      · rcases Finset.mem_insert.mp (Insert_subset temp x h1) with rfl | h3
        · simp
        · exact Finset.mem_union_left _ h3
      · simp only [Finset.mem_union, List.mem_toFinset, List.mem_cons]
        exact Or.inr (Or.inr (List.mem_toFinset.mp h1))
    unfold resolveLoop at h
    simp only at h
    split at h
    · split at h
      · cases h
      · exact hstep _ h
    · exact hstep _ h

theorem Resolve_subset (o : KeyOrder) (a b c : Clause) (flag : Bool)
    (h : Clause.Resolve o a b = (some c, flag)) : c ⊆ a ∪ b := by
  unfold Clause.Resolve at h
  intro z hz
  rcases Finset.mem_union.mp (resolveLoop_subset _ _ _ c flag h hz) with h1 | h1
  · have := insertKeys_subset (o.keys b) New h1
    simp only [New, Finset.empty_union, List.mem_toFinset, o.mem_keys] at this
    exact Finset.mem_union_right _ this
  · simp only [List.mem_toFinset, o.mem_keys] at h1
    exact Finset.mem_union_left _ h1

/-- An extension appends pairwise different clauses, none of them in the sequence before,
all built from literals of the sequence. -/
theorem Ext.exists_new {o : KeyOrder} {set set' : List Clause} (h : Ext o set set') :
    ∃ new : List Clause, set' = set ++ new ∧ new.Nodup ∧ (∀ c ∈ new, c ∉ set) ∧
      ∀ c ∈ new, c ⊆ lits set := by
  induction h with
  | refl => exact ⟨[], by simp, List.nodup_nil, by simp, by simp⟩
  | snoc a b c _ ha hb hr hc ih =>
    obtain ⟨new, rfl, hnd, hns, hsub⟩ := ih
    have hall : ∀ d ∈ set ++ new, d ⊆ lits set := by
      intro d hd
      rcases List.mem_append.mp hd with h | h
      · exact subset_lits h
      · exact hsub d h
    refine ⟨new ++ [c], by simp, ?_, ?_, ?_⟩
    · rw [List.nodup_append]
      refine ⟨hnd, List.nodup_singleton c, ?_⟩
      intro d hd hd'
      rw [List.mem_singleton] at hd'
      subst hd'
      exact hc (List.mem_append_right _ hd)
    · intro d hd
      rcases List.mem_append.mp hd with h | h
      · exact hns d h
      · rw [List.mem_singleton] at h
        subst h
        exact fun h' => hc (List.mem_append_left _ h')
    · intro d hd
      rcases List.mem_append.mp hd with h | h
      · exact hsub d h
      · rw [List.mem_singleton] at h
        subst h
        exact (Resolve_subset o a b d true hr).trans
          (Finset.union_subset (hall a ha) (hall b hb))

theorem Ext.subset_of_subset {o : KeyOrder} {set set' : List Clause} (h : Ext o set set')
    {U : Finset Literal} (hU : ∀ c ∈ set, c ⊆ U) : ∀ c ∈ set', c ⊆ U := by
  obtain ⟨new, rfl, _, _, hsub⟩ := h.exists_new
  intro c hc
  rcases List.mem_append.mp hc with h | h
  · exact hU c h
  · intro l hl
    obtain ⟨d, hd, hld⟩ := (mem_lits set l).mp (hsub c h hl)
    exact hU d hd hld

theorem Ext.card_toFinset {o : KeyOrder} {set set' : List Clause} (h : Ext o set set') :
    set'.toFinset.card = set.toFinset.card + (set'.length - set.length) := by
  obtain ⟨new, rfl, hnd, hns, _⟩ := h.exists_new
  rw [List.toFinset_append, Finset.card_union_of_disjoint, List.toFinset_card_of_nodup hnd]
  · simp
  · rw [Finset.disjoint_left]
    intro c hc hc'
    exact hns c (List.mem_toFinset.mp hc') (List.mem_toFinset.mp hc)

theorem card_toFinset_le_pow (set : List Clause) (U : Finset Literal)
    (hU : ∀ c ∈ set, c ⊆ U) : set.toFinset.card ≤ 2 ^ U.card := by
  rw [← Finset.card_powerset]
  apply Finset.card_le_card
  intro c hc
  exact Finset.mem_powerset.mpr (hU c (List.mem_toFinset.mp hc))

/-- Unfolding of one call of `Res` with the outcome of its pass at hand. -/
theorem Res_succ_next (o : KeyOrder) (fuel : Nat) (set set' : List Clause) (index : Int)
    (h : outerLoop o index set.length set = Step.next set') :
    Res o (fuel + 1) set index =
      if (set'.drop set.length).any Clause.IsEmpty then some (Outcome.verdict true)
      else if set.length = set'.length then some (Outcome.verdict false)
      else Res o fuel set' set.length := by
  simp only [Res, h]

theorem Res_succ_ret (o : KeyOrder) (fuel : Nat) (set : List Clause) (index : Int)
    (b : Bool) (h : outerLoop o index set.length set = Step.ret b) :
    Res o (fuel + 1) set index = some (Outcome.verdict b) := by
  simp only [Res, h]

theorem Res_total_aux (o : KeyOrder) (U : Finset Literal) (m : Nat) :
    ∀ (set : List Clause) (index : Int), 0 ≤ index → (∀ c ∈ set, c ⊆ U) →
      2 ^ U.card - set.toFinset.card ≤ m →
      ∃ b, ∀ fuel, m < fuel → Res o fuel set index = some (Outcome.verdict b) := by
  induction m with
  | zero =>
    intro set index hidx hU hm
    rcases outerLoop_spec o index set.length set (Nat.le_refl _) with
      ⟨set', he, hext, _, _⟩ | ⟨he, _⟩ | ⟨_, hneg⟩
    · by_cases hemp : (set'.drop set.length).any Clause.IsEmpty = true
      · refine ⟨true, fun fuel hf => ?_⟩
        obtain ⟨f, rfl⟩ : ∃ f, fuel = f + 1 := ⟨fuel - 1, by omega⟩
        rw [Res_succ_next o f set set' index he, if_pos hemp]
      · have hlen : set.length = set'.length := by
          have h1 := hext.card_toFinset
          have h2 := card_toFinset_le_pow set' U (hext.subset_of_subset hU)
          have h3 := hext.length_le
          omega
        refine ⟨false, fun fuel hf => ?_⟩
        obtain ⟨f, rfl⟩ : ∃ f, fuel = f + 1 := ⟨fuel - 1, by omega⟩
        rw [Res_succ_next o f set set' index he, if_neg hemp, if_pos hlen]
    · refine ⟨true, fun fuel hf => ?_⟩
      obtain ⟨f, rfl⟩ : ∃ f, fuel = f + 1 := ⟨fuel - 1, by omega⟩
      exact Res_succ_ret o f set index true he
    · omega
  | succ m ih =>
    intro set index hidx hU hm
    rcases outerLoop_spec o index set.length set (Nat.le_refl _) with
      ⟨set', he, hext, _, _⟩ | ⟨he, _⟩ | ⟨_, hneg⟩
    · by_cases hemp : (set'.drop set.length).any Clause.IsEmpty = true
      · refine ⟨true, fun fuel hf => ?_⟩
        obtain ⟨f, rfl⟩ : ∃ f, fuel = f + 1 := ⟨fuel - 1, by omega⟩
        rw [Res_succ_next o f set set' index he, if_pos hemp]
      · by_cases hlen : set.length = set'.length
        · refine ⟨false, fun fuel hf => ?_⟩
          obtain ⟨f, rfl⟩ : ∃ f, fuel = f + 1 := ⟨fuel - 1, by omega⟩
          rw [Res_succ_next o f set set' index he, if_neg hemp, if_pos hlen]
        · have h1 := hext.card_toFinset
          have h2 := card_toFinset_le_pow set' U (hext.subset_of_subset hU)
          have h3 := hext.length_le
          obtain ⟨b, hb⟩ := ih set' set.length (Int.ofNat_nonneg _)
            (hext.subset_of_subset hU) (by omega)
          refine ⟨b, fun fuel hf => ?_⟩
          obtain ⟨f, rfl⟩ : ∃ f, fuel = f + 1 := ⟨fuel - 1, by omega⟩
          rw [Res_succ_next o f set set' index he, if_neg hemp, if_neg hlen]
          exact hb f (by omega)
    · refine ⟨true, fun fuel hf => ?_⟩
      obtain ⟨f, rfl⟩ : ∃ f, fuel = f + 1 := ⟨fuel - 1, by omega⟩
      exact Res_succ_ret o f set index true he
    · omega

/-- The driver returns a verdict, the same for every bound on the depth of the recursion
above `2 ^ (number of literals of the sequence)`. -/
theorem Res_total (o : KeyOrder) (set : List Clause) (index : Int) (hidx : 0 ≤ index) :
    ∃ b, ∀ fuel, 2 ^ (lits set).card < fuel →
      Res o fuel set index = some (Outcome.verdict b) := by
  obtain ⟨b, hb⟩ := Res_total_aux o (lits set) (2 ^ (lits set).card) set index hidx
    (fun c hc => subset_lits hc) (Nat.sub_le _ _)
  exact ⟨b, hb⟩

/-- C3 (termination): for every sequence and every frontier index `f ≥ 0` the driver
returns a verdict within `2 ^ n + 1` nested calls, `n` the number of literals occurring in
the sequence; and a pass that runs to its end leaves the sequence followed by new clauses
that are pairwise different, different from the clauses before them and built only from
literals of the sequence, the recursive call being made, on that longer sequence with the
old length as frontier, only when some clause was appended. -/
theorem Res_terminates (o : KeyOrder) (S : List Clause) (f : Int) (hf : 0 ≤ f) :
    (∃ b, ∀ fuel, 2 ^ (lits S).card < fuel → Res o fuel S f = some (Outcome.verdict b)) ∧
    ∀ S', outerLoop o f S.length S = Step.next S' →
      (∃ new : List Clause, S' = S ++ new ∧ new.Nodup ∧ (∀ c ∈ new, c ∉ S) ∧
        (∀ c ∈ new, ∀ l ∈ c, ∃ d ∈ S, l ∈ d) ∧
        (S.length ≠ S'.length → S.length < S'.length)) ∧
      ∀ fuel, Res o (fuel + 1) S f =
        if (S'.drop S.length).any Clause.IsEmpty then some (Outcome.verdict true)
        else if S.length = S'.length then some (Outcome.verdict false)
        else Res o fuel S' S.length := by
  refine ⟨Res_total o S f hf, ?_⟩
  intro S' hS'
  refine ⟨?_, fun fuel => Res_succ_next o fuel S S' f hS'⟩
  rcases outerLoop_spec o f S.length S (Nat.le_refl _) with
    ⟨set', he, hext, _, _⟩ | ⟨he, _⟩ | ⟨he, _⟩
  · have : set' = S' := by
      rw [he] at hS'
      cases hS'
      rfl
    subst this
    obtain ⟨new, hnew, hnd, hns, hsub⟩ := hext.exists_new
    refine ⟨new, hnew, hnd, hns, fun c hc l hl => (mem_lits S l).mp (hsub c hc hl), ?_⟩
    intro hne
    exact lt_of_le_of_ne hext.length_le hne
  · rw [he] at hS'
    cases hS'
  · rw [he] at hS'
    cases hS'

/-- Witness for C3 on the clauses {A}, {-A, B}, {-B} with frontier 0. -/
theorem Res_terminates_witness :
    ∃ b, ∀ fuel, 2 ^ (lits [{1}, {-1, 2}, {-2}]).card < fuel →
      Res sortedOrder fuel [{1}, {-1, 2}, {-2}] 0 = some (Outcome.verdict b) :=
  (Res_terminates sortedOrder [{1}, {-1, 2}, {-2}] 0 (by decide)).1

/-! ## Propositional semantics -/

theorem IsLitCode.isInt64 {l : Literal} (h : IsLitCode l) : IsInt64 l :=
  ⟨le_of_lt h.2.1, h.2.2⟩

theorem IsLitCode.negLit_eq {l : Literal} (h : IsLitCode l) : negLit l = -l :=
  wrap64_neg_of_ne_min l h.2.1 h.2.2

theorem IsLitCode.neg_ne_self {l : Int} (h : IsLitCode l) : -l ≠ l := by
  have h0 : l ≠ 0 := h.1
  omega

theorem litTrue_neg (v : Int → Bool) {l : Int} (h : l ≠ 0) :
    litTrue v (-l) = !litTrue v l := by
  unfold litTrue
  by_cases hp : 0 < l
  · have hn : ¬ 0 < -l := by omega
    simp [hp, hn]
  · have hn : 0 < -l := by omega
    simp [hp, hn]

theorem Clause.Valid.typed {c : Clause} (h : Clause.Valid c) : Clause.Typed c :=
  fun l hl => (h l hl).1.isInt64

theorem Clause.Valid.noComplPair {c : Clause} (h : Clause.Valid c) :
    Clause.NoComplPair c := by
  intro l hl _ hn
  rw [(h l hl).1.negLit_eq] at hn
  exact (h l hl).2 hn

theorem complLits_self {a : Clause} (h : Clause.Valid a) : complLits a a = ∅ := by
  ext z
  simp only [complLits, Finset.mem_filter, Finset.not_mem_empty, iff_false, not_and]
  intro hz hn
  rw [(h z hz).1.negLit_eq] at hn
  exact (h z hz).2 hn

theorem resolvent_valid {a b : Clause} (ha : Clause.Valid a) (hb : Clause.Valid b) :
    Clause.Valid (resolvent a b) := by
  intro l hl
  simp only [resolvent, Finset.mem_union, Finset.mem_filter] at hl ⊢
  rcases hl with ⟨hla, hnb⟩ | ⟨hlb, hna⟩
  · refine ⟨(ha l hla).1, ?_⟩
    rw [(ha l hla).1.negLit_eq] at hnb
    rintro (⟨h, _⟩ | ⟨h, _⟩)
    · exact (ha l hla).2 h
    · exact hnb h
  · refine ⟨(hb l hlb).1, ?_⟩
    rw [(hb l hlb).1.negLit_eq] at hna
    rintro (⟨h, _⟩ | ⟨h, _⟩)
    · exact hna h
    · exact (hb l hlb).2 h

/-- On valid clauses a result of `Resolve` with flag true is the resolvent on the single
complementary pair. -/
theorem Resolve_valid (o : KeyOrder) {a b c : Clause} (ha : Clause.Valid a)
    (hb : Clause.Valid b) :
    Clause.Resolve o a b = (some c, true) ↔
      (complLits a b).card = 1 ∧ c = resolvent a b := by
  rw [Resolve_eq o ha.typed ha.noComplPair hb.typed hb.noComplPair]
  by_cases h2 : 2 ≤ (complLits a b).card
  · rw [if_pos h2]
    constructor
    · intro h
      cases h
    · rintro ⟨h, _⟩
      omega
  · rw [if_neg h2]
    simp only [Prod.mk.injEq, Option.some.injEq, decide_eq_true_eq]
    constructor
    · rintro ⟨h, h'⟩
      exact ⟨h', h.symm⟩
    · rintro ⟨h, h'⟩
      exact ⟨h'.symm, h⟩

theorem Resolve_comm_valid (o : KeyOrder) {a b : Clause} (ha : Clause.Valid a)
    (hb : Clause.Valid b) : Clause.Resolve o a b = Clause.Resolve o b a := by
  rw [Resolve_eq o ha.typed ha.noComplPair hb.typed hb.noComplPair,
    Resolve_eq o hb.typed hb.noComplPair ha.typed ha.noComplPair,
    complLits_card_comm ha.typed hb.typed, resolvent_comm a b]

theorem Ext.valid {o : KeyOrder} {set set' : List Clause} (h : Ext o set set')
    (hv : ∀ c ∈ set, Clause.Valid c) : ∀ c ∈ set', Clause.Valid c := by
  induction h with
  | refl => exact hv
  | snoc a b c _ ha hb hr _ ih =>
    intro d hd
    rcases List.mem_append.mp hd with h | h
    · exact ih d h
    · rw [List.mem_singleton] at h
      subst h
      rw [((Resolve_valid o (ih a ha) (ih b hb)).mp hr).2]
      exact resolvent_valid (ih a ha) (ih b hb)

/-- One resolution step is semantically sound. -/
theorem resolvent_sat {a b : Clause} (hb : Clause.Valid b)
    (hcard : (complLits a b).card = 1) (v : Int → Bool) (hva : Clause.Sat v a)
    (hvb : Clause.Sat v b) : Clause.Sat v (resolvent a b) := by
  obtain ⟨p, hp⟩ := Finset.card_eq_one.mp hcard
  have hmem : ∀ z, z ∈ a → negLit z ∈ b → z = p := by
    intro z hz hn
    have : z ∈ complLits a b := by
      simp only [complLits, Finset.mem_filter]
      exact ⟨hz, hn⟩
    rw [hp] at this
    exact Finset.mem_singleton.mp this
  obtain ⟨x, hxa, hx⟩ := hva
  obtain ⟨y, hyb, hy⟩ := hvb
  by_cases hxb : negLit x ∈ b
  · by_cases hya : negLit y ∈ a
    · -- both witnesses are the complementary pair: impossible
      exfalso
      have hxp := hmem x hxa hxb
      have h2 := hmem (negLit y) hya (by rw [negLit_negLit (hb y hyb).1.isInt64]; exact hyb)
      have hyx : x = -y := by rw [hxp, ← h2, (hb y hyb).1.negLit_eq]
      rw [hyx, litTrue_neg v (hb y hyb).1.1, hy] at hx
      cases hx
    · refine ⟨y, ?_, hy⟩
      simp only [resolvent, Finset.mem_union, Finset.mem_filter]
      exact Or.inr ⟨hyb, hya⟩
  · refine ⟨x, ?_, hx⟩
    simp only [resolvent, Finset.mem_union, Finset.mem_filter]
    exact Or.inl ⟨hxa, hxb⟩

theorem Ext.sat {o : KeyOrder} {set set' : List Clause} (h : Ext o set set')
    (hv : ∀ c ∈ set, Clause.Valid c) (v : Int → Bool) (hs : ∀ c ∈ set, Clause.Sat v c) :
    ∀ c ∈ set', Clause.Sat v c := by
  induction h with
  | refl => exact hs
  | snoc a b c hext ha hb hr _ ih =>
    intro d hd
    rcases List.mem_append.mp hd with h | h
    · exact ih d h
    · rw [List.mem_singleton] at h
      subst h
      have hva := hext.valid hv a ha
      have hvb := hext.valid hv b hb
      obtain ⟨hcard, hc⟩ := (Resolve_valid o hva hvb).mp hr
      rw [hc]
      exact resolvent_sat hvb hcard v (ih a ha) (ih b hb)

theorem not_sat_empty (v : Int → Bool) : ¬ Clause.Sat v ∅ := by
  rintro ⟨l, hl, _⟩
  exact absurd hl (Finset.not_mem_empty l)

theorem Refuted.not_satisfiable {o : KeyOrder} {S : List Clause} (h : Refuted o S)
    (hv : ∀ c ∈ S, Clause.Valid c) : ¬ Satisfiable S := by
  rintro ⟨v, hs⟩
  obtain ⟨S', hext, hemp⟩ := h
  exact not_sat_empty v (hext.sat hv v hs ∅ hemp)

theorem Res_succ_panic (o : KeyOrder) (fuel : Nat) (set : List Clause) (index : Int)
    (h : outerLoop o index set.length set = Step.panic) :
    Res o (fuel + 1) set index = some Outcome.panic := by
  simp only [Res, h]

/-- A verdict true of the driver comes with a derivation of the empty clause. -/
theorem Res_true_refuted (o : KeyOrder) (fuel : Nat) :
    ∀ (set : List Clause) (index : Int),
      Res o fuel set index = some (Outcome.verdict true) → Refuted o set := by
  induction fuel with
  | zero =>
    intro set index h
    simp [Res] at h
  | succ fuel ih =>
    intro set index h
    rcases outerLoop_spec o index set.length set (Nat.le_refl _) with
      ⟨set', he, hext, _, _⟩ | ⟨_, hr⟩ | ⟨he, _⟩
    · rw [Res_succ_next o fuel set set' index he] at h
      by_cases hemp : (set'.drop set.length).any Clause.IsEmpty = true
      · obtain ⟨c, hc, hce⟩ := List.any_eq_true.mp hemp
        rw [(IsEmpty_eq_true c).mp hce] at hc
        exact ⟨set', hext, List.mem_of_mem_drop hc⟩
      · rw [if_neg hemp] at h
        by_cases hlen : set.length = set'.length
        · rw [if_pos hlen] at h
          cases h
        · rw [if_neg hlen] at h
          exact (ih set' _ h).of_later hext
    · exact hr
    · rw [Res_succ_panic o fuel set index he] at h
      cases h

/-! ## Saturated clause sets have a model -/

theorem mem_resolvent {a b : Clause} {z : Literal} :
    z ∈ resolvent a b ↔ (z ∈ a ∧ negLit z ∉ b) ∨ (z ∈ b ∧ negLit z ∉ a) := by
  simp only [resolvent, Finset.mem_union, Finset.mem_filter]

theorem litTrue_update {v : Int → Bool} {p : Int} {b : Bool} {l : Int} (h1 : l ≠ p)
    (h2 : l ≠ -p) : litTrue (Function.update v p b) l = litTrue v l := by
  unfold litTrue
  by_cases hp : 0 < l
  · simp [hp, Function.update_noteq h1]
  · have h3 : -l ≠ p := by omega
    simp [hp, Function.update_noteq h3]

theorem litTrue_update_pos {v : Int → Bool} {p : Int} (hp : 0 < p) :
    litTrue (Function.update v p true) p = true := by
  unfold litTrue
  simp [hp]

theorem litTrue_update_neg {v : Int → Bool} {p : Int} (hp : 0 < p) :
    litTrue (Function.update v p false) (-p) = true := by
  unfold litTrue
  have hn : ¬ 0 < -p := by omega
  have h2 : -(-p) = p := Int.neg_neg p
  rw [if_neg hn, h2, Function.update_same]
  rfl

theorem sat_of_no_vars (T : Finset Clause) (hne : (∅ : Clause) ∉ T) (hv : varsOf T = ∅) :
    ∃ v : Int → Bool, ∀ c ∈ T, Clause.Sat v c := by
  refine ⟨fun _ => true, fun c hc => ?_⟩
  exfalso
  apply hne
  have : c = ∅ := by
    apply Finset.eq_empty_of_forall_not_mem
    intro l hl
    have hmem : l.natAbs ∈ varsOf T := by
      simp only [varsOf, Finset.mem_biUnion, Finset.mem_image]
      exact ⟨c, hc, l, hl, rfl⟩
    rw [hv] at hmem
    exact Finset.not_mem_empty _ hmem
  exact this ▸ hc

/-- Eliminating one variable: a model of the clauses free of the variable `p` extends to
a model of the whole saturated set. -/
theorem extend_model (T : Finset Clause) (hvalid : ∀ c ∈ T, Clause.Valid c)
    (hsat : Saturated T) (p : Int) (hp : 0 < p) (v₀ : Int → Bool)
    (hv₀ : ∀ c ∈ T, p ∉ c → -p ∉ c → Clause.Sat v₀ c) :
    ∃ v : Int → Bool, ∀ c ∈ T, Clause.Sat v c := by
  by_contra hcon
  push_neg at hcon
  obtain ⟨C, hC, hCn⟩ := hcon (Function.update v₀ p true)
  obtain ⟨D, hD, hDn⟩ := hcon (Function.update v₀ p false)
  have hlift : ∀ (b : Bool) (c : Clause), c ∈ T → p ∉ c → -p ∉ c →
      Clause.Sat (Function.update v₀ p b) c := by
    intro b c hc h1 h2
    obtain ⟨l, hl, hlt⟩ := hv₀ c hc h1 h2
    refine ⟨l, hl, ?_⟩
    rw [litTrue_update (fun (h : l = p) => h1 (h ▸ hl)) (fun (h : l = -p) => h2 (h ▸ hl))]
    exact hlt
  have hpC : p ∉ C := fun h => hCn ⟨p, h, litTrue_update_pos hp⟩
  have hnC : -p ∈ C := by
    by_contra h
    exact hCn (hlift true C hC hpC h)
  have hnD : -p ∉ D := fun h => hDn ⟨-p, h, litTrue_update_neg hp⟩
  have hpD : p ∈ D := by
    by_contra h
    exact hDn (hlift false D hD h hnD)
  have hnegp : negLit p = -p := (hvalid D hD p hpD).1.negLit_eq
  have huniq : ∀ z : Int, z ∈ D → negLit z ∈ C → z = p := by
    intro z hz hzn
    by_contra hne
    have hz0 : z ≠ 0 := (hvalid D hD z hz).1.1
    rw [(hvalid D hD z hz).1.negLit_eq] at hzn
    have hz2 : z ≠ -p := fun h => hnD (h ▸ hz)
    have h3 : -z ≠ p := by omega
    have h4 : -z ≠ -p := by omega
    cases hzt : litTrue v₀ z with
    | true =>
      apply hDn
      refine ⟨z, hz, ?_⟩
      rw [litTrue_update hne hz2]
      exact hzt
    | false =>
      apply hCn
      refine ⟨-z, hzn, ?_⟩
      rw [litTrue_update h3 h4, litTrue_neg v₀ hz0, hzt]
      rfl
  have hcompl : complLits D C = {p} := by
    ext z
    simp only [complLits, Finset.mem_filter, Finset.mem_singleton]
    constructor
    · rintro ⟨hz, hzn⟩
      exact huniq z hz hzn
    · rintro rfl
      exact ⟨hpD, hnegp ▸ hnC⟩
  have hR : resolvent D C ∈ T := hsat D hD C hC (by rw [hcompl]; rfl)
  have hpR : p ∉ resolvent D C := by
    rw [mem_resolvent]
    rintro (⟨_, h⟩ | ⟨h, _⟩)
    · exact h (hnegp ▸ hnC)
    · exact hpC h
  have hnR : -p ∉ resolvent D C := by
    rw [mem_resolvent]
    rintro (⟨h, _⟩ | ⟨h, h'⟩)
    · exact hnD h
    · apply h'
      rw [(hvalid C hC (-p) h).1.negLit_eq, neg_neg]
      exact hpD
  obtain ⟨l, hl, hlt⟩ := hv₀ _ hR hpR hnR
  have hl1 : l ≠ p := fun h => hpR (h ▸ hl)
  have hl2 : l ≠ -p := fun h => hnR (h ▸ hl)
  rcases mem_resolvent.mp hl with ⟨hlD, _⟩ | ⟨hlC, _⟩
  · apply hDn
    refine ⟨l, hlD, ?_⟩
    rw [litTrue_update hl1 hl2]
    exact hlt
  · apply hCn
    refine ⟨l, hlC, ?_⟩
    rw [litTrue_update hl1 hl2]
    exact hlt

/-- A saturated set of valid clauses without the empty clause has a model. -/
theorem saturated_sat (n : Nat) : ∀ T : Finset Clause, (varsOf T).card ≤ n →
    (∀ c ∈ T, Clause.Valid c) → (∅ : Clause) ∉ T → Saturated T →
    ∃ v : Int → Bool, ∀ c ∈ T, Clause.Sat v c := by
  induction n with
  | zero =>
    intro T hcard _ hne _
    exact sat_of_no_vars T hne (Finset.card_eq_zero.mp (Nat.le_zero.mp hcard))
  | succ n ih =>
    intro T hcard hvalid hne hsat
    by_cases hv : varsOf T = ∅
    · exact sat_of_no_vars T hne hv
    · obtain ⟨x, hx⟩ := Finset.nonempty_iff_ne_empty.mpr hv
      have hx0 : x ≠ 0 := by
        simp only [varsOf, Finset.mem_biUnion, Finset.mem_image] at hx
        obtain ⟨c, hc, l, hl, rfl⟩ := hx
        exact Int.natAbs_ne_zero.mpr (hvalid c hc l hl).1.1
      have hp : (0 : Int) < (x : Int) := by omega
      have hsub : T.filter (fun c => (x : Int) ∉ c ∧ -(x : Int) ∉ c) ⊆ T :=
        Finset.filter_subset _ _
      have hcard₀ : (varsOf (T.filter (fun c => (x : Int) ∉ c ∧ -(x : Int) ∉ c))).card
          ≤ n := by
        have hs : varsOf (T.filter (fun c => (x : Int) ∉ c ∧ -(x : Int) ∉ c)) ⊆
            (varsOf T).erase x := by
          intro y hy
          simp only [varsOf, Finset.mem_biUnion, Finset.mem_image, Finset.mem_filter] at hy
          obtain ⟨c, ⟨hc, h1, h2⟩, l, hl, rfl⟩ := hy
          rw [Finset.mem_erase]
          refine ⟨?_, ?_⟩
          · intro he
            rcases Int.natAbs_eq l with h | h
            · rw [he] at h
              exact h1 (h ▸ hl)
            · rw [he] at h
              exact h2 (h ▸ hl)
          · simp only [varsOf, Finset.mem_biUnion, Finset.mem_image]
            exact ⟨c, hc, l, hl, rfl⟩
        have h1 := Finset.card_le_card hs
        rw [Finset.card_erase_of_mem hx] at h1
        omega
      obtain ⟨v₀, hv₀⟩ := ih _ hcard₀ (fun c hc => hvalid c (hsub hc))
        (fun h => hne (hsub h)) (by
          intro a ha b hb hcard1
          rw [Finset.mem_filter] at ha hb ⊢
          refine ⟨hsat a ha.1 b hb.1 hcard1, ?_, ?_⟩
          · rw [mem_resolvent]
            rintro (⟨h, _⟩ | ⟨h, _⟩)
            · exact ha.2.1 h
            · exact hb.2.1 h
          · rw [mem_resolvent]
            rintro (⟨h, _⟩ | ⟨h, _⟩)
            · exact ha.2.2 h
            · exact hb.2.2 h)
      exact extend_model T hvalid hsat x hp v₀ (fun c hc h1 h2 =>
        hv₀ c (Finset.mem_filter.mpr ⟨hc, h1, h2⟩))

/-! ## Soundness and completeness of the driver -/

theorem Handled.of_none_left {o : KeyOrder} {set : List Clause} {i k : Nat}
    (h : set.length ≤ i) : Handled o set i k := by
  intro a b c ha _ _
  rw [List.getElem?_eq_none h] at ha
  cases ha

theorem Handled.of_none_right {o : KeyOrder} {set : List Clause} {i k : Nat}
    (h : set.length ≤ k) : Handled o set i k := by
  intro a b c _ hb _
  rw [List.getElem?_eq_none h] at hb
  cases hb

theorem Handled.symm_valid {o : KeyOrder} {set : List Clause} {i k : Nat}
    (hv : ∀ c ∈ set, Clause.Valid c) (h : Handled o set k i) : Handled o set i k := by
  intro a b c ha hb hr
  apply h b a c hb ha
  rw [← Resolve_comm_valid o (hv a (List.getElem?_mem ha)) (hv b (List.getElem?_mem hb))]
  exact hr

/-- After a pass, every pair of indices below the old length is dealt with. -/
theorem pass_handled {o : KeyOrder} {set set' : List Clause} {index : Int}
    (hext : Ext o set set') (hv : ∀ c ∈ set', Clause.Valid c)
    (hJ : ∀ i k : Nat, (i : Int) < index → (k : Int) < index → i ≠ k → Handled o set i k)
    (hh : ∀ i k : Nat, i < set.length → index ≤ k → k < set.length → k ≠ i →
      Handled o set' i k) :
    ∀ i k : Nat, i < set.length → k < set.length → i ≠ k → Handled o set' i k := by
  intro i k hi hk hik
  by_cases h1 : index ≤ (k : Int)
  · exact hh i k hi h1 hk (Ne.symm hik)
  · by_cases h2 : index ≤ (i : Int)
    · exact (hh k i hk h2 hi hik).symm_valid hv
    · exact (hJ i k (by omega) (by omega) hik).mono hext hi hk

/-- A verdict false of the driver comes with a saturated extension of the sequence that
has no empty clause. -/
theorem Res_false_saturated (o : KeyOrder) (fuel : Nat) :
    ∀ (set : List Clause) (index : Int), 0 ≤ index → index ≤ set.length →
      (∀ c ∈ set, Clause.Valid c) →
      (∀ i k : Nat, (i : Int) < index → (k : Int) < index → i ≠ k → Handled o set i k) →
      Res o fuel set index = some (Outcome.verdict false) →
      ∃ set', Ext o set set' ∧ (∅ : Clause) ∉ set' ∧
        ∀ i k : Nat, i ≠ k → Handled o set' i k := by
  induction fuel with
  | zero =>
    intro set index _ _ _ _ h
    simp [Res] at h
  | succ fuel ih =>
    intro set index hidx hle hv hJ h
    rcases outerLoop_spec o index set.length set (Nat.le_refl _) with
      ⟨set', he, hext, hh, hne⟩ | ⟨he, _⟩ | ⟨he, _⟩
    · rw [Res_succ_next o fuel set set' index he] at h
      have hv' := hext.valid hv
      have hpass := pass_handled hext hv' hJ hh
      by_cases hemp : (set'.drop set.length).any Clause.IsEmpty = true
      · rw [if_pos hemp] at h
        cases h
      · rw [if_neg hemp] at h
        by_cases hlen : set.length = set'.length
        · have hset : set' = set := hext.eq_of_length hlen
          subst hset
          refine ⟨set', Ext.refl _, ?_, ?_⟩
          · intro hmem
            obtain ⟨i, hi, hget⟩ := List.getElem_of_mem hmem
            exact hne i hi (by rw [List.getElem?_eq_getElem hi, hget])
          · intro i k hik
            by_cases hi : i < set'.length
            · by_cases hk : k < set'.length
              · exact hpass i k hi hk hik
              · exact Handled.of_none_right (Nat.le_of_not_lt hk)
            · exact Handled.of_none_left (Nat.le_of_not_lt hi)
        · rw [if_neg hlen] at h
          obtain ⟨set'', hext', hne', hall⟩ := ih set' set.length (Int.ofNat_nonneg _)
            (Int.ofNat_le.mpr hext.length_le) hv'
            (fun i k hi hk hik => hpass i k (Int.ofNat_lt.mp hi) (Int.ofNat_lt.mp hk) hik) h
          exact ⟨set'', hext.trans hext', hne', hall⟩
    · rw [Res_succ_ret o fuel set index true he] at h
      cases h
    · rw [Res_succ_panic o fuel set index he] at h
      cases h

theorem saturated_of_handled {o : KeyOrder} {set : List Clause}
    (hv : ∀ c ∈ set, Clause.Valid c) (hall : ∀ i k : Nat, i ≠ k → Handled o set i k) :
    Saturated set.toFinset := by
  intro a ha b hb hcard
  rw [List.mem_toFinset] at ha hb ⊢
  obtain ⟨i, hi, hgi⟩ := List.getElem_of_mem ha
  obtain ⟨k, hk, hgk⟩ := List.getElem_of_mem hb
  by_cases hik : i = k
  · subst hik
    have hab : a = b := hgi.symm.trans hgk
    subst hab
    rw [complLits_self (hv a ha)] at hcard
    cases hcard
  · apply hall i k hik a b (resolvent a b)
    · rw [List.getElem?_eq_getElem hi, hgi]
    · rw [List.getElem?_eq_getElem hk, hgk]
    · exact (Resolve_valid o (hv a ha) (hv b hb)).mpr ⟨hcard, rfl⟩

/-- On valid clauses the verdict of the driver is true exactly on the unsatisfiable
sequences. -/
theorem Res_verdict (o : KeyOrder) (S : List Clause) (hS : ∀ c ∈ S, Clause.Valid c)
    (fuel : Nat) (b : Bool) (h : Res o fuel S 0 = some (Outcome.verdict b)) :
    b = true ↔ ¬ Satisfiable S := by
  cases b with
  | true =>
    exact ⟨fun _ => (Res_true_refuted o fuel S 0 h).not_satisfiable hS, fun _ => rfl⟩
  | false =>
    constructor
    · intro hb
      cases hb
    · intro hunsat
      exfalso
      apply hunsat
      obtain ⟨S', hext, hne, hall⟩ := Res_false_saturated o fuel S 0 (Int.le_refl 0)
        (Int.ofNat_nonneg _) hS (fun i k hi => by omega) h
      have hv' := hext.valid hS
      obtain ⟨v, hv⟩ := saturated_sat (varsOf S'.toFinset).card S'.toFinset (Nat.le_refl _)
        (fun c hc => hv' c (List.mem_toFinset.mp hc))
        (fun hc => hne (List.mem_toFinset.mp hc)) (saturated_of_handled hv' hall)
      exact ⟨v, fun c hc => hv c (List.mem_toFinset.mpr (hext.mem hc))⟩

/-- C1, for the codes whose complement is a Go `int` (soundness of the driver): for every
sequence of clauses whose members are non-zero literal codes other than -2^63, with no
complementary pair, a verdict true of `Res(S, 0)` means that no truth assignment satisfies
every clause of `S`; and on a satisfiable `S` the call returns false. -/
theorem Res_sound (o : KeyOrder) (S : List Clause) (hS : ∀ c ∈ S, Clause.Valid c) :
    (∀ fuel, Res o fuel S 0 = some (Outcome.verdict true) → ¬ Satisfiable S) ∧
    (Satisfiable S → ∀ fuel, 2 ^ (lits S).card < fuel →
      Res o fuel S 0 = some (Outcome.verdict false)) := by
  constructor
  · intro fuel h
    exact (Res_true_refuted o fuel S 0 h).not_satisfiable hS
  · intro hsat fuel hfuel
    obtain ⟨b, hb⟩ := Res_total o S 0 (Int.le_refl 0)
    have h := hb fuel hfuel
    cases b with
    | false => exact h
    | true => exact absurd hsat ((Res_verdict o S hS fuel true h).mp rfl)

/-- Witness for C1 on the clauses {A}, {-A}. -/
theorem Res_sound_witness : ¬ Satisfiable [{1}, {-1}] :=
  (Res_sound sortedOrder [{1}, {-1}] (by decide)).1 5 (by decide)

/-- C1 as stated fails when the code -2^63, which Go's unary minus maps to itself, is a
member: the clauses {-B}, {-2^63, B} have non-zero members and no complementary pair and
are satisfied by the assignment that makes every variable false, yet `Res` returns true on
them, under ascending and under descending enumeration of the maps. -/
theorem Res_sound_counterexample :
    (∀ c ∈ [({-2} : Clause), {-9223372036854775808, 2}],
      Clause.NoComplPair c ∧ ∀ l ∈ c, IsInt64 l ∧ l ≠ 0 ∧ -l ∉ c) ∧
    Satisfiable [{-2}, {-9223372036854775808, 2}] ∧
    Res sortedOrder 2 [{-2}, {-9223372036854775808, 2}] 0 = some (Outcome.verdict true) ∧
    Res reverseOrder 2 [{-2}, {-9223372036854775808, 2}] 0 =
      some (Outcome.verdict true) := by
  refine ⟨by decide, ⟨fun _ => false, ?_⟩, by decide, by decide⟩
  intro c hc
  simp only [List.mem_cons, List.mem_singleton, List.not_mem_nil, or_false] at hc
  rcases hc with rfl | rfl
  · exact ⟨-2, by decide, by decide⟩
  · exact ⟨-9223372036854775808, by decide, by decide⟩

/-- C2 (refutation completeness of the driver): for every sequence of clauses whose
members are non-zero literal codes with no complementary pair, if no truth assignment
satisfies every clause of `S` then `Res(S, 0)` returns true. -/
theorem Res_complete (o : KeyOrder) (S : List Clause) (hS : ∀ c ∈ S, Clause.Valid c)
    (hunsat : ¬ Satisfiable S) :
    ∀ fuel, 2 ^ (lits S).card < fuel → Res o fuel S 0 = some (Outcome.verdict true) := by
  intro fuel hfuel
  obtain ⟨b, hb⟩ := Res_total o S 0 (Int.le_refl 0)
  have h := hb fuel hfuel
  cases b with
  | true => exact h
  | false =>
    have := (Res_verdict o S hS fuel false h).mpr hunsat
    cases this

/-- Witness for C2 on the clauses {A}, {-A, B}, {-B}. -/
theorem Res_complete_witness :
    ¬ Satisfiable [{1}, {-1, 2}, {-2}] ∧
      Res sortedOrder 17 [{1}, {-1, 2}, {-2}] 0 = some (Outcome.verdict true) :=
  have hunsat : ¬ Satisfiable [{1}, {-1, 2}, {-2}] := by
    rintro ⟨v, hv⟩
    obtain ⟨l₁, h₁, t₁⟩ := hv {1} (by simp)
    obtain ⟨l₂, h₂, t₂⟩ := hv {-1, 2} (by simp)
    obtain ⟨l₃, h₃, t₃⟩ := hv {-2} (by simp)
    simp only [Finset.mem_singleton, Finset.mem_insert] at h₁ h₂ h₃
    subst h₁ h₃
    rcases h₂ with rfl | rfl <;> simp_all [litTrue]
  ⟨hunsat, Res_complete sortedOrder [{1}, {-1, 2}, {-2}] (by decide) hunsat 17 (by decide)⟩

/-! ## The sentinel, complementary collapse, `Equals` and `Copy` -/

theorem Copy_subset (o : KeyOrder) (c : Clause) : Clause.Copy o c ⊆ c := by
  intro z hz
  have := insertKeys_subset (o.keys c) New hz
  simpa [New, o.mem_keys] using this

theorem Built.sentinel_not_mem {o : KeyOrder} {c : Clause}
    (h : Built o (fun l => l ≠ ErrorLiteral) c) : ErrorLiteral ∉ c := by
  induction h with
  | new => simp [New]
  | insert c l _ _ hl ih =>
    intro hmem
    rcases Finset.mem_insert.mp (Insert_subset c l hmem) with h | h
    · exact hl h.symm
    · exact ih h
  | copy c _ ih => exact fun hmem => ih (Copy_subset o c hmem)
  | resolve a b c flag _ _ hr iha ihb =>
    intro hmem
    rcases Finset.mem_union.mp (Resolve_subset o a b c flag hr hmem) with h | h
    · exact iha h
    · exact ihb h

/-- C11, as the code has it: a clause obtained from `New()` by `Insert` with arguments
other than the error sentinel, by `Copy` and by `Resolve` never has the sentinel as a
member, `Contains(ErrorLiteral)` returns false; `Insert` itself does not reject the
sentinel. -/
theorem sentinel_never_member (o : KeyOrder) (c : Clause)
    (h : Built o (fun l => l ≠ ErrorLiteral) c) :
    Clause.Contains c ErrorLiteral = false := by
  rw [Contains_eq_false]
  exact h.sentinel_not_mem

/-- Witness for C11 on the clause built by inserting A and then -B. -/
theorem sentinel_never_member_witness :
    Clause.Contains (Clause.Insert (Clause.Insert New 1).1 (-2)).1 ErrorLiteral = false :=
  sentinel_never_member sortedOrder _
    (Built.insert _ (-2) (Built.insert _ 1 Built.new (by decide) (by decide)) (by decide)
      (by decide))

/-- C11 as stated fails: `Insert(ErrorLiteral)` on the empty clause makes the sentinel a
member. -/
theorem sentinel_member_counterexample :
    ¬ ∀ c : Clause, Built sortedOrder (fun _ => True) c →
      Clause.Contains c ErrorLiteral = false := by
  intro h
  have h1 := h (Clause.Insert New ErrorLiteral).1
    (Built.insert New ErrorLiteral Built.new (by decide) trivial)
  revert h1
  decide

/-- C12 (complementary collapse): from the empty clause, `Insert(l)` returns true and
`Insert(-l)` then returns false and leaves the clause empty: size 0, `IsEmpty` true,
neither `l` nor `-l` a member. -/
theorem Insert_complement_collapses (l : Literal) (hl : IsInt64 l) :
    Clause.Insert New l = ({l}, true) ∧
    Clause.Insert (Clause.Insert New l).1 (negLit l) = (∅, false) ∧
    Clause.Size (Clause.Insert (Clause.Insert New l).1 (negLit l)).1 = 0 ∧
    Clause.IsEmpty (Clause.Insert (Clause.Insert New l).1 (negLit l)).1 = true ∧
    Clause.Contains (Clause.Insert (Clause.Insert New l).1 (negLit l)).1 l = false ∧
    Clause.Contains (Clause.Insert (Clause.Insert New l).1 (negLit l)).1 (negLit l)
      = false := by
  have h1 : Clause.Insert New l = ({l}, true) := by
    rw [Insert_of_not_mem (by simp [New]) (by simp [New])]
    rfl
  have h2 : Clause.Insert ({l} : Clause) (negLit l) = (∅, false) := by
    rw [Insert_of_neg_mem (by rw [negLit_negLit hl]; exact Finset.mem_singleton_self l),
      negLit_negLit hl]
    simp
  rw [h1]
  simp only [h2]
  exact ⟨trivial, trivial, rfl, rfl, by simp [Clause.Contains], by simp [Clause.Contains]⟩

/-- Witness for C12 on the literal -C. -/
theorem Insert_complement_collapses_witness :
    Clause.Insert (Clause.Insert New (-3)).1 (negLit (-3)) = (∅, false) :=
  (Insert_complement_collapses (-3) (by decide)).2.1

/-- C13: `Equals` is set equality: it returns true exactly when the two clauses have the
same members; so it is reflexive, symmetric and transitive, does not depend on the order
in which the maps are enumerated, and holds between clauses built by inserting in
different orders whenever the resulting members agree. -/
theorem Equals_is_set_equality (o o' : KeyOrder) (a b c : Clause) :
    (Clause.Equals o a b = true ↔ ∀ l, Clause.Contains a l = Clause.Contains b l) ∧
    Clause.Equals o a a = true ∧
    Clause.Equals o a b = Clause.Equals o b a ∧
    (Clause.Equals o a b = true → Clause.Equals o b c = true →
      Clause.Equals o a c = true) ∧
    Clause.Equals o a b = Clause.Equals o' a b ∧
    ∀ ls ls' : List Literal,
      (∀ l, Clause.Contains (insertKeys ls New) l = Clause.Contains (insertKeys ls' New) l) →
      Clause.Equals o (insertKeys ls New) (insertKeys ls' New) = true := by
  have hmem : ∀ x y : Clause, (∀ l, Clause.Contains x l = Clause.Contains y l) ↔ x = y := by
    intro x y
    constructor
    · intro h
      ext l
      have := h l
      simp only [Clause.Contains, decide_eq_decide] at this
      exact this
    · rintro rfl l
      rfl
  refine ⟨?_, ?_, ?_, ?_, ?_, ?_⟩
  · rw [Equals_eq_true, hmem]
  · exact (Equals_eq_true o a a).mpr rfl
  · rw [Bool.eq_iff_iff, Equals_eq_true, Equals_eq_true]
    exact eq_comm
  · intro h1 h2
    rw [Equals_eq_true] at h1 h2 ⊢
    exact h1.trans h2
  · rw [Bool.eq_iff_iff, Equals_eq_true, Equals_eq_true]
  · intro ls ls' h
    rw [Equals_eq_true]
    exact (hmem _ _).mp h

theorem Store_fold_insert (keys : List Literal) (h : Store) (t : Clause) :
    keys.foldl
      (fun h' key =>
        match Store.Insert h' h.length key with
        | some r => r.1
        | none => h')
      (h ++ [t]) = h ++ [insertKeys keys t] := by
  induction keys generalizing t with
  | nil => rfl
  | cons key rest ih =>
    rw [List.foldl_cons, insertKeys_cons, ← ih]
    congr 1
    simp [Store.Insert]

/-- C14: `Copy` is a faithful, independent copy: for a clause `c` built by `Insert` calls
and held at pointer `p`, `c.Copy()` returns a pointer `q` to another map with exactly the
members of `c` (`Equals` true, same size), `c` itself is untouched, and a later `Insert`
through `q` changes the map at `q` only. -/
theorem Copy_faithful_independent (o : KeyOrder) (ls : List Literal)
    (hls : ∀ l ∈ ls, IsInt64 l) (h : Store) (p : Nat)
    (hp : h[p]? = some (insertKeys ls New)) :
    ∃ h' q c', Store.Copy o h p = some (h', q) ∧ q ≠ p ∧
      h'[p]? = some (insertKeys ls New) ∧ h'[q]? = some c' ∧
      c' = Clause.Copy o (insertKeys ls New) ∧
      Clause.Equals o c' (insertKeys ls New) = true ∧
      Clause.Size c' = Clause.Size (insertKeys ls New) ∧
      (∀ x, Clause.Contains c' x = Clause.Contains (insertKeys ls New) x) ∧
      ∀ l, ∃ h'', Store.Insert h' q l = some (h'', (Clause.Insert c' l).2) ∧
        h''[p]? = some (insertKeys ls New) ∧ h''[q]? = some (Clause.Insert c' l).1 := by
  have hinv := insertKeys_invariant ls New hls (fun k hk => by simp [New] at hk)
    (fun k hk => by simp [New] at hk)
  have hcopy : Clause.Copy o (insertKeys ls New) = insertKeys ls New :=
    Copy_eq o hinv.1 hinv.2
  have hplt : p < h.length := by
    by_contra hge
    rw [List.getElem?_eq_none (Nat.le_of_not_lt hge)] at hp
    cases hp
  have hne : h.length ≠ p := Nat.ne_of_gt hplt
  have hq : (h ++ [Clause.Copy o (insertKeys ls New)])[h.length]? =
      some (Clause.Copy o (insertKeys ls New)) := List.getElem?_concat_length _ _
  have hp' : (h ++ [Clause.Copy o (insertKeys ls New)])[p]? = some (insertKeys ls New) := by
    rw [List.getElem?_append_left hplt]
    exact hp
  refine ⟨h ++ [Clause.Copy o (insertKeys ls New)], h.length,
    Clause.Copy o (insertKeys ls New), ?_, hne, hp', hq, rfl, ?_, ?_, ?_, ?_⟩
  · simp only [Store.Copy, hp, Option.map_some']
    rw [Store_fold_insert]
    rfl
  · rw [hcopy]
    exact (Equals_eq_true o _ _).mpr rfl
  · rw [hcopy]
  · rw [hcopy]
    exact fun _ => rfl
  · intro l
    refine ⟨(h ++ [Clause.Copy o (insertKeys ls New)]).set h.length
      (Clause.Insert (Clause.Copy o (insertKeys ls New)) l).1, ?_, ?_, ?_⟩
    · simp only [Store.Insert, hq, Option.map_some']
    · rw [List.getElem?_set_ne hne]
      exact hp'
    · rw [List.getElem?_set_eq_of_lt]
      simp

/-- Witness for C14 on the clause built by inserting A and -B, held at pointer 0. -/
theorem Copy_faithful_independent_witness :
    ∃ h' q c', Store.Copy sortedOrder [insertKeys [1, -2] New] 0 = some (h', q) ∧ q ≠ 0 ∧
      h'[0]? = some (insertKeys [1, -2] New) ∧ h'[q]? = some c' ∧
      c' = Clause.Copy sortedOrder (insertKeys [1, -2] New) ∧
      Clause.Equals sortedOrder c' (insertKeys [1, -2] New) = true ∧
      Clause.Size c' = Clause.Size (insertKeys [1, -2] New) ∧
      (∀ x, Clause.Contains c' x = Clause.Contains (insertKeys [1, -2] New) x) ∧
      ∀ l, ∃ h'', Store.Insert h' q l = some (h'', (Clause.Insert c' l).2) ∧
        h''[0]? = some (insertKeys [1, -2] New) ∧ h''[q]? = some (Clause.Insert c' l).1 :=
  Copy_faithful_independent sortedOrder [1, -2] (by decide) [insertKeys [1, -2] New] 0 rfl

/-! ## The literal codec -/

theorem negLit_small (n : Int) (h1 : 1 ≤ n) (h2 : n ≤ 26) : negLit n = -n :=
  wrap64_neg_of_ne_min n (by omega) (by omega)

theorem negLit_small_neg (n : Int) (h1 : -26 ≤ n) (h2 : n ≤ -1) : negLit n = -n :=
  wrap64_neg_of_ne_min n (by omega) (by omega)

theorem Str2Lit_letter (c : Nat) (hc : IsLetter c) :
    Str2Lit [c] = (letterIndex c : Int) + 1 := by
  unfold IsLetter at hc
  have hcases : (65 ≤ c ∧ c ≤ 90) ∨ (97 ≤ c ∧ c ≤ 122) := hc
  rcases hcases with ⟨h1, h2⟩ | ⟨h1, h2⟩
  · interval_cases c <;> rfl
  · interval_cases c <;> rfl

theorem Str2Lit_minus_letter (c : Nat) (hc : IsLetter c) :
    Str2Lit [45, c] = -((letterIndex c : Int) + 1) := by
  unfold IsLetter at hc
  have hcases : (65 ≤ c ∧ c ≤ 90) ∨ (97 ≤ c ∧ c ≤ 122) := hc
  rcases hcases with ⟨h1, h2⟩ | ⟨h1, h2⟩
  · interval_cases c <;> decide
  · interval_cases c <;> decide

/-- C15 (round trip on literals): for every code `l` with `1 ≤ l ≤ 26` or
`-26 ≤ l ≤ -1`, `Str2Lit(Lit2Str(l)) = l`. -/
theorem Str2Lit_Lit2Str (l : Int) (hl : (1 ≤ l ∧ l ≤ 26) ∨ (-26 ≤ l ∧ l ≤ -1)) :
    Str2Lit (Lit2Str l) = l := by
  rcases hl with ⟨h1, h2⟩ | ⟨h1, h2⟩
  · interval_cases l <;> decide
  · interval_cases l <;> decide

/-- Witness for C15 on the literal -Z. -/
theorem Str2Lit_Lit2Str_witness : Str2Lit (Lit2Str (-26)) = -26 :=
  Str2Lit_Lit2Str (-26) (Or.inr ⟨by decide, by decide⟩)

/-- C16 (round trip on names): for every valid external name `n`, one ASCII letter or `-`
followed by one, `Lit2Str(Str2Lit(n))` is `n` with its letter in upper case, the sign
kept. -/
theorem Lit2Str_Str2Lit (n : Str) (hn : IsName n) :
    Lit2Str (Str2Lit n) = n.map asciiUpper := by
  obtain ⟨c, hc, hn⟩ := hn
  have hcases : (65 ≤ c ∧ c ≤ 90) ∨ (97 ≤ c ∧ c ≤ 122) := hc
  rcases hn with rfl | rfl
  · rcases hcases with ⟨h1, h2⟩ | ⟨h1, h2⟩
    · interval_cases c <;> decide
    · interval_cases c <;> decide
  · rcases hcases with ⟨h1, h2⟩ | ⟨h1, h2⟩
    · interval_cases c <;> decide
    · interval_cases c <;> decide

/-- Witness for C16 on the name `-q`. -/
theorem Lit2Str_Str2Lit_witness : Lit2Str (Str2Lit [45, 113]) = [45, 113].map asciiUpper :=
  Lit2Str_Str2Lit [45, 113] ⟨113, by decide, Or.inr rfl⟩

theorem Str2Lit_single_other (a : Nat) (ha : ¬ IsLetter a) : Str2Lit [a] = ErrorLiteral := by
  unfold IsLetter at ha
  unfold Str2Lit toUpperOneByte ErrorLiteral
  simp only [List.length_singleton, Nat.one_ne_zero, gt_iff_lt, Nat.not_ofNat_lt_one, or_self,
    if_false, OfNat.one_ne_ofNat, false_and]
  split_ifs <;> simp only [List.headD_cons] at * <;> omega

theorem Str2Lit_pair_other (a b : Nat) (h : ¬ (a = 45 ∧ IsLetter b)) :
    Str2Lit [a, b] = ErrorLiteral := by
  unfold IsLetter at h
  unfold Str2Lit toUpperOneByte ErrorLiteral
  by_cases ha : a = 45
  · subst ha
    simp only [true_and] at h
    simp only [List.length_cons, List.length_nil, Nat.zero_add, Nat.reduceAdd,
      OfNat.ofNat_ne_zero, gt_iff_lt, Nat.lt_irrefl, or_self, if_false, List.getElem?_cons_zero,
      ne_eq, not_true_eq_false, and_false, if_true, List.drop_succ_cons, List.drop_zero,
      decide_True]
    split_ifs <;> simp only [List.headD_cons] at * <;> omega
  · simp [ha]

theorem Str2Lit_of_not_name (s : Str) (hs : ¬ IsName s) : Str2Lit s = ErrorLiteral := by
  match s, hs with
  | [], _ => rfl
  | [a], hs =>
    apply Str2Lit_single_other
    intro ha
    exact hs ⟨a, ha, Or.inl rfl⟩
  | [a, b], hs =>
    apply Str2Lit_pair_other
    rintro ⟨rfl, hb⟩
    exact hs ⟨b, hb, Or.inr rfl⟩
  | _ :: _ :: _ :: _, _ =>
    unfold Str2Lit
    simp

theorem letterIndex_lt (c : Nat) (hc : IsLetter c) : letterIndex c < 26 := by
  unfold IsLetter at hc
  unfold letterIndex
  split_ifs <;> omega

/-- C17: `Str2Lit` is the reference encoding: a single ASCII letter gives its index plus
one, `-` followed by a letter gives the negation of that, and every other string gives
`ErrorLiteral`; so the result is `ErrorLiteral` exactly on the strings that are not valid
names. -/
theorem Str2Lit_reference (s : Str) :
    (∀ c, IsLetter c → s = [c] → Str2Lit s = (letterIndex c : Int) + 1) ∧
    (∀ c, IsLetter c → s = [45, c] → Str2Lit s = -((letterIndex c : Int) + 1)) ∧
    (¬ IsName s → Str2Lit s = ErrorLiteral) ∧
    (Str2Lit s = ErrorLiteral ↔ ¬ IsName s) := by
  refine ⟨fun c hc hs => hs ▸ Str2Lit_letter c hc,
    fun c hc hs => hs ▸ Str2Lit_minus_letter c hc, Str2Lit_of_not_name s, ?_⟩
  constructor
  · rintro h ⟨c, hc, rfl | rfl⟩
    · rw [Str2Lit_letter c hc] at h
      have : (letterIndex c : Int) + 1 = 0 := h
      omega
    · rw [Str2Lit_minus_letter c hc] at h
      have : -((letterIndex c : Int) + 1) = 0 := h
      omega
  · exact Str2Lit_of_not_name s

/-- Witness for C17 on the name `-c`. -/
theorem Str2Lit_reference_witness : Str2Lit [45, 99] = -((letterIndex 99 : Int) + 1) :=
  (Str2Lit_reference [45, 99]).2.1 99 (by decide) rfl

/-- C18: `Lit2Str` is the reference decoding: a code `1 ≤ l ≤ 26` gives the upper-case
letter of index `l - 1`, a code `-26 ≤ l ≤ -1` gives `-` and the letter of index
`-l - 1`, and every other code, 0, 27 and -27 among them, gives `"?"`. -/
theorem Lit2Str_reference (l : Int) (hl : IsInt64 l) :
    (1 ≤ l ∧ l ≤ 26 → Lit2Str l = [65 + (l - 1).toNat]) ∧
    (-26 ≤ l ∧ l ≤ -1 → Lit2Str l = [45, 65 + (-l - 1).toNat]) ∧
    (¬ (1 ≤ l ∧ l ≤ 26) → ¬ (-26 ≤ l ∧ l ≤ -1) → Lit2Str l = [63]) ∧
    Lit2Str 0 = [63] ∧ Lit2Str 27 = [63] ∧ Lit2Str (-27) = [63] := by
  refine ⟨?_, ?_, ?_, by decide, by decide, by decide⟩
  · rintro ⟨h1, h2⟩
    interval_cases l <;> decide
  · rintro ⟨h1, h2⟩
    interval_cases l <;> decide
  · intro h1 h2
    unfold IsInt64 at hl
    unfold Lit2Str ErrorLiteral
    by_cases h0 : l = 0
    · simp [h0]
    · simp only [h0, if_false]
      by_cases hneg : l < 0
      · have hn : wrap64 (-l) < 1 ∨ wrap64 (-l) > 26 := by
          unfold wrap64
          omega
        simp only [hneg, if_true]
        rw [if_pos]
        exact hn
      · have hn : l < 1 ∨ l > 26 := by omega
        simp only [hneg, if_false]
        rw [if_pos]
        exact hn

/-- Witness for C18 on the least Go `int`. -/
theorem Lit2Str_reference_witness : Lit2Str (-9223372036854775808) = [63] :=
  (Lit2Str_reference (-9223372036854775808) (by decide)).2.2.1 (by decide) (by decide)

/-! ## `Parse` -/

theorem Str2Lit_letter_ne (ch : Nat) (hl : IsLetter ch) : Str2Lit [ch] ≠ ErrorLiteral := by
  rw [Str2Lit_letter ch hl]
  intro h
  have : (letterIndex ch : Int) + 1 = 0 := h
  omega

theorem Str2Lit_minus_eq_negLit (ch : Nat) (hl : IsLetter ch) :
    Str2Lit [45, ch] = negLit (Str2Lit [ch]) := by
  rw [Str2Lit_minus_letter ch hl, Str2Lit_letter ch hl]
  have := letterIndex_lt ch hl
  rw [negLit_small _ (by omega) (by omega)]

theorem parseItem_of_name (c : Clause) (item : Str) (h : IsName (TrimSpace item)) :
    parseItem c item = Except.ok (Clause.Insert c (Str2Lit (TrimSpace item))).1 := by
  obtain ⟨ch, hl, hv | hv⟩ := h
  · unfold parseItem
    simp only [hv]
    simp [Str2Lit_letter_ne ch hl]
  · unfold parseItem
    simp only [hv]
    simp [Str2Lit_letter_ne ch hl, Str2Lit_minus_eq_negLit ch hl]

theorem parseItem_of_not_name (c : Clause) (item : Str) (h : ¬ IsName (TrimSpace item)) :
    ∃ e, parseItem c item = Except.error e := by
  unfold parseItem
  generalize TrimSpace item = v at h
  match v, h with
  | [], _ => exact ⟨ParseError.wrongFormat [], by simp⟩
  | [a], h =>
    have ha : ¬ IsLetter a := fun ha => h ⟨a, ha, Or.inl rfl⟩
    exact ⟨ParseError.unknownSymbol [a], by simp [Str2Lit_single_other a ha]⟩
  | [a, b], h =>
    by_cases ha : a = 45
    · subst ha
      have hb : ¬ IsLetter b := fun hb => h ⟨b, hb, Or.inr rfl⟩
      exact ⟨ParseError.unknownSymbol [b], by simp [Str2Lit_single_other b hb]⟩
    · exact ⟨ParseError.wrongFormat [a, b], by simp [ha]⟩
  | a :: b :: d :: rest, _ => exact ⟨ParseError.wrongFormat (a :: b :: d :: rest), by simp⟩

theorem parseLoop_ok (items : List Str) (c : Clause)
    (h : ∀ it ∈ items, IsName (TrimSpace it)) :
    parseLoop items c =
      Except.ok (insertKeys (items.map (fun it => Str2Lit (TrimSpace it))) c) := by
  induction items generalizing c with
  | nil => rfl
  | cons item rest ih =>
    unfold parseLoop
    rw [parseItem_of_name c item (h item (List.mem_cons_self _ _))]
    simp only [List.map_cons, insertKeys_cons]
    exact ih _ (fun it hit => h it (List.mem_cons_of_mem _ hit))

theorem parseLoop_error (items : List Str) (c : Clause)
    (h : ¬ ∀ it ∈ items, IsName (TrimSpace it)) : ∃ e, parseLoop items c = Except.error e := by
  induction items generalizing c with
  | nil => exact absurd (fun it hit => absurd hit (List.not_mem_nil it)) h
  | cons item rest ih =>
    unfold parseLoop
    by_cases hi : IsName (TrimSpace item)
    · rw [parseItem_of_name c item hi]
      apply ih
      intro hall
      apply h
      intro it hit
      rcases List.mem_cons.mp hit with rfl | hit
      · exact hi
      · exact hall it hit
    · obtain ⟨e, he⟩ := parseItem_of_not_name c item hi
      rw [he]
      exact ⟨e, rfl⟩

/-- The result of `Parse` on every input. -/
theorem Parse_eq (s : Str) :
    (s ≠ [] ∧ (∀ it ∈ Split 44 s, IsName (TrimSpace it)) ∧
      Parse s = Except.ok
        (insertKeys ((Split 44 s).map (fun it => Str2Lit (TrimSpace it))) New)) ∨
    ((s = [] ∨ ¬ ∀ it ∈ Split 44 s, IsName (TrimSpace it)) ∧
      ∃ e, Parse s = Except.error e) := by
  unfold Parse
  by_cases hs : s = []
  · exact Or.inr ⟨Or.inl hs, ParseError.emptyInput, by simp [hs]⟩
  · have hlen : ¬ s.length = 0 := fun h => hs (List.length_eq_zero.mp h)
    rw [if_neg hlen]
    by_cases hall : ∀ it ∈ Split 44 s, IsName (TrimSpace it)
    · exact Or.inl ⟨hs, hall, parseLoop_ok _ _ hall⟩
    · exact Or.inr ⟨Or.inr hall, parseLoop_error _ _ hall⟩

/-- C19: `Parse` builds the clause by inserting in input order: when `Parse` succeeds the
clause returned is the one obtained from `New()` by `Insert(Str2Lit(n))` for the
whitespace-trimmed comma-separated items `n` in their order; so `"A,-A,B"` yields {B} and
`"A,A,B,B"` yields {A, B}. -/
theorem Parse_inserts_in_order (s : Str) (c : Clause) (h : Parse s = Except.ok c) :
    c = insertKeys ((Split 44 s).map (fun it => Str2Lit (TrimSpace it))) New ∧
    Parse [65, 44, 45, 65, 44, 66] = Except.ok {2} ∧
    Parse [65, 44, 65, 44, 66, 44, 66] = Except.ok {1, 2} := by
  refine ⟨?_, by decide, by decide⟩
  rcases Parse_eq s with ⟨_, _, hok⟩ | ⟨_, e, he⟩
  · rw [hok] at h
    exact (Except.ok.inj h).symm
  · rw [he] at h
    cases h

/-- Witness for C19 on the input `" a , -B"`. -/
theorem Parse_inserts_in_order_witness :
    ({1, -2} : Clause) = insertKeys ((Split 44 [32, 97, 32, 44, 32, 45, 66]).map
      (fun it => Str2Lit (TrimSpace it))) New :=
  (Parse_inserts_in_order [32, 97, 32, 44, 32, 45, 66] {1, -2} (by decide)).1

/-! ## The grammar accepted by `Parse` -/

theorem Split_ne_nil (sep : Nat) (s : Str) : Split sep s ≠ [] := by
  cases s with
  | nil => simp [Split]
  | cons b rest =>
    unfold Split
    split_ifs
    · simp
    · split <;> simp

theorem Join_cons_cons (sep b : Nat) (piece : Str) (pieces : List Str) :
    Join sep ((b :: piece) :: pieces) = b :: Join sep (piece :: pieces) := by
  cases pieces with
  | nil => rfl
  | cons y ys => rfl

theorem Join_Split (sep : Nat) (s : Str) : Join sep (Split sep s) = s := by
  induction s with
  | nil => rfl
  | cons b rest ih =>
    unfold Split
    by_cases hb : b = sep
    · rw [if_pos hb]
      obtain ⟨y, ys, hy⟩ := List.exists_cons_of_ne_nil (Split_ne_nil sep rest)
      rw [hy] at ih ⊢
      show [] ++ sep :: Join sep (y :: ys) = b :: rest
      rw [ih, hb]
      rfl
    · rw [if_neg hb]
      obtain ⟨y, ys, hy⟩ := List.exists_cons_of_ne_nil (Split_ne_nil sep rest)
      rw [hy] at ih ⊢
      simp only []
      rw [Join_cons_cons, ih]

theorem Split_cons_ne (sep b : Nat) (rest piece : Str) (pieces : List Str) (hb : b ≠ sep)
    (h : Split sep rest = piece :: pieces) :
    Split sep (b :: rest) = (b :: piece) :: pieces := by
  simp only [Split, hb, if_false, h]

theorem Split_append_sep (sep : Nat) (x t : Str) (hx : sep ∉ x) :
    Split sep (x ++ sep :: t) = x :: Split sep t := by
  induction x with
  | nil => simp [Split]
  | cons b rest ih =>
    have hb : b ≠ sep := fun h => hx (h ▸ List.mem_cons_self _ _)
    have hr : sep ∉ rest := fun h => hx (List.mem_cons_of_mem _ h)
    exact Split_cons_ne sep b _ rest _ hb (ih hr)

theorem Split_of_not_mem (sep : Nat) (x : Str) (hx : sep ∉ x) : Split sep x = [x] := by
  induction x with
  | nil => rfl
  | cons b rest ih =>
    have hb : b ≠ sep := fun h => hx (h ▸ List.mem_cons_self _ _)
    have hr : sep ∉ rest := fun h => hx (List.mem_cons_of_mem _ h)
    exact Split_cons_ne sep b rest rest [] hb (ih hr)

theorem Split_Join (sep : Nat) (items : List Str) (hne : items ≠ [])
    (h : ∀ it ∈ items, sep ∉ it) : Split sep (Join sep items) = items := by
  induction items with
  | nil => exact absurd rfl hne
  | cons x rest ih =>
    cases rest with
    | nil => exact Split_of_not_mem sep x (h x (List.mem_cons_self _ _))
    | cons y ys =>
      show Split sep (x ++ sep :: Join sep (y :: ys)) = _
      rw [Split_append_sep sep x _ (h x (List.mem_cons_self _ _)),
        ih (List.cons_ne_nil _ _) (fun it hit => h it (List.mem_cons_of_mem _ hit))]

theorem mem_Join (sep : Nat) (items : List Str) (b : Nat) (hb : b ∈ Join sep items) :
    b = sep ∨ ∃ it ∈ items, b ∈ it := by
  induction items with
  | nil => simp [Join] at hb
  | cons x rest ih =>
    cases rest with
    | nil => exact Or.inr ⟨x, List.mem_cons_self _ _, hb⟩
    | cons y ys =>
      have hb' : b ∈ x ++ sep :: Join sep (y :: ys) := hb
      rcases List.mem_append.mp hb' with h | h
      · exact Or.inr ⟨x, List.mem_cons_self _ _, h⟩
      · rcases List.mem_cons.mp h with h | h
        · exact Or.inl h
        · rcases ih h with h | ⟨it, hit, hbit⟩
          · exact Or.inl h
          · exact Or.inr ⟨it, List.mem_cons_of_mem _ hit, hbit⟩

theorem mem_Join_of_mem (sep : Nat) (items : List Str) (it : Str) (hit : it ∈ items)
    (b : Nat) (hb : b ∈ it) : b ∈ Join sep items := by
  induction items with
  | nil => exact absurd hit (List.not_mem_nil it)
  | cons x rest ih =>
    cases rest with
    | nil =>
      rcases List.mem_cons.mp hit with rfl | h
      · exact hb
      · exact absurd h (List.not_mem_nil it)
    | cons y ys =>
      show b ∈ x ++ sep :: Join sep (y :: ys)
      rcases List.mem_cons.mp hit with rfl | h
      · exact List.mem_append_left _ hb
      · exact List.mem_append_right _ (List.mem_cons_of_mem _ (ih h))

theorem mem_of_mem_Split (sep : Nat) (s it : Str) (hit : it ∈ Split sep s) (b : Nat)
    (hb : b ∈ it) : b ∈ s := by
  have := mem_Join_of_mem sep (Split sep s) it hit b hb
  rwa [Join_Split] at this

theorem dropWhile_append_of_all (p : Nat → Bool) (l₁ l₂ : Str) (h : ∀ b ∈ l₁, p b = true) :
    (l₁ ++ l₂).dropWhile p = l₂.dropWhile p := by
  induction l₁ with
  | nil => rfl
  | cons b rest ih =>
    rw [List.cons_append, List.dropWhile_cons, if_pos (h b (List.mem_cons_self _ _))]
    exact ih (fun x hx => h x (List.mem_cons_of_mem _ hx))

theorem trimSpaceStopRev_ascii (r : Str) (h : ∀ b ∈ r, b < 128) :
    trimSpaceStopRev r = (r.dropWhile asciiSpace).reverse := by
  induction r with
  | nil => rfl
  | cons c t ih =>
    have hc : ¬ c ≥ 128 := Nat.not_le.mpr (h c (List.mem_cons_self _ _))
    unfold trimSpaceStopRev
    rw [if_neg hc]
    by_cases hs : asciiSpace c = true
    · rw [if_pos hs, List.dropWhile_cons, if_pos hs]
      exact ih (fun x hx => h x (List.mem_cons_of_mem _ hx))
    · rw [if_neg hs, List.dropWhile_cons, if_neg hs]

theorem TrimSpace_ascii (s : Str) (h : ∀ b ∈ s, b < 128) :
    TrimSpace s = ((s.dropWhile asciiSpace).reverse.dropWhile asciiSpace).reverse := by
  unfold TrimSpace
  induction s with
  | nil => rfl
  | cons c t ih =>
    have hc : ¬ c ≥ 128 := Nat.not_le.mpr (h c (List.mem_cons_self _ _))
    unfold trimSpaceStart
    rw [if_neg hc]
    by_cases hs : asciiSpace c = true
    · rw [if_pos hs, List.dropWhile_cons, if_pos hs]
      exact ih (fun x hx => h x (List.mem_cons_of_mem _ hx))
    · rw [if_neg hs, List.dropWhile_cons, if_neg hs]
      apply trimSpaceStopRev_ascii
      intro b hb
      exact h b (List.mem_reverse.mp hb)

theorem asciiSpace_lt (b : Nat) (h : asciiSpace b = true) : b < 128 := by
  simp only [asciiSpace, decide_eq_true_eq] at h
  omega

theorem IsLetter.not_space {c : Nat} (h : IsLetter c) : asciiSpace c = false := by
  unfold IsLetter at h
  simp only [asciiSpace, decide_eq_false_iff_not]
  omega

theorem IsName.bytes_ascii {v : Str} (h : IsName v) : ∀ b ∈ v, b < 128 ∧ b ≠ 44 := by
  obtain ⟨c, hc, rfl | rfl⟩ := h
  · intro b hb
    unfold IsLetter at hc
    simp only [List.mem_singleton] at hb
    omega
  · intro b hb
    unfold IsLetter at hc
    simp only [List.mem_cons, List.mem_singleton, List.not_mem_nil, or_false] at hb
    omega

theorem IsItem.bytes_no_comma {it : Str} (h : IsItem it) : ∀ b ∈ it, b < 128 ∧ b ≠ 44 := by
  obtain ⟨ws₁, v, ws₂, rfl, h₁, h₂, hv⟩ := h
  intro b hb
  have hsp : ∀ x, asciiSpace x = true → x < 128 ∧ x ≠ 44 := by
    intro x hx
    simp only [asciiSpace, decide_eq_true_eq] at hx
    omega
  rcases List.mem_append.mp hb with hb | hb
  · rcases List.mem_append.mp hb with hb | hb
    · exact hsp b (h₁ b hb)
    · exact hv.bytes_ascii b hb
  · exact hsp b (h₂ b hb)

theorem IsName.trim_eq {v : Str} (h : IsName v) (ws₁ ws₂ : Str)
    (h₁ : ∀ b ∈ ws₁, asciiSpace b = true) (h₂ : ∀ b ∈ ws₂, asciiSpace b = true) :
    TrimSpace (ws₁ ++ v ++ ws₂) = v := by
  have hit : IsItem (ws₁ ++ v ++ ws₂) := ⟨ws₁, v, ws₂, rfl, h₁, h₂, h⟩
  rw [TrimSpace_ascii _ (fun b hb => (hit.bytes_no_comma b hb).1), List.append_assoc,
    dropWhile_append_of_all _ _ _ h₁]
  obtain ⟨c, hc, rfl | rfl⟩ := h
  · have hcs := hc.not_space
    simp only [List.singleton_append, List.dropWhile_cons, hcs, Bool.false_eq_true, if_false,
      List.reverse_cons]
    rw [dropWhile_append_of_all _ _ _ (fun b hb => h₂ b (List.mem_reverse.mp hb))]
    simp [List.dropWhile_cons, hcs]
  · have hcs := hc.not_space
    have h45 : asciiSpace 45 = false := by decide
    simp only [List.cons_append, List.nil_append, List.dropWhile_cons, h45,
      Bool.false_eq_true, if_false, List.reverse_cons, List.append_assoc]
    rw [dropWhile_append_of_all _ _ _ (fun b hb => h₂ b (List.mem_reverse.mp hb))]
    simp [List.dropWhile_cons, hcs]

theorem IsItem.name_trim {it : Str} (h : IsItem it) : IsName (TrimSpace it) := by
  obtain ⟨ws₁, v, ws₂, rfl, h₁, h₂, hv⟩ := h
  rw [hv.trim_eq ws₁ ws₂ h₁ h₂]
  exact hv

theorem IsItem.of_name_trim {it : Str} (hascii : ∀ b ∈ it, b < 128)
    (h : IsName (TrimSpace it)) : IsItem it := by
  rw [TrimSpace_ascii it hascii] at h
  refine ⟨it.takeWhile asciiSpace,
    ((it.dropWhile asciiSpace).reverse.dropWhile asciiSpace).reverse,
    ((it.dropWhile asciiSpace).reverse.takeWhile asciiSpace).reverse, ?_, ?_, ?_, h⟩
  · rw [List.append_assoc, ← List.reverse_append, List.takeWhile_append_dropWhile,
      List.reverse_reverse, List.takeWhile_append_dropWhile]
  · intro b hb
    exact List.mem_takeWhile_imp hb
  · intro b hb
    exact List.mem_takeWhile_imp (List.mem_reverse.mp hb)

theorem inClauseGrammar_iff (s : Str) :
    InClauseGrammar s ↔ s ≠ [] ∧ ∀ it ∈ Split 44 s, IsItem it := by
  constructor
  · rintro ⟨items, hne, hitems, rfl⟩
    have hsplit : Split 44 (Join 44 items) = items :=
      Split_Join 44 items hne (fun it hit h44 => (hitems it hit).bytes_no_comma 44 h44 |>.2 rfl)
    rw [hsplit]
    refine ⟨?_, hitems⟩
    intro hnil
    rw [hnil] at hsplit
    have h0 : IsItem [] := hitems [] (by rw [← hsplit]; simp [Split])
    obtain ⟨ws₁, v, ws₂, hv, _, _, c, _, hc | hc⟩ := h0
    · rw [hc] at hv
      simp at hv
    · rw [hc] at hv
      simp at hv
  · rintro ⟨_, hitems⟩
    exact ⟨Split 44 s, Split_ne_nil 44 s, hitems, (Join_Split 44 s).symm⟩

theorem InClauseGrammar.bytes_lt {s : Str} (h : InClauseGrammar s) : ∀ b ∈ s, b < 128 := by
  obtain ⟨items, _, hitems, rfl⟩ := h
  intro b hb
  rcases mem_Join 44 items b hb with rfl | ⟨it, hit, hbit⟩
  · decide
  · exact ((hitems it hit).bytes_no_comma b hbit).1

/-- C20, as the code has it: `Parse(s)` returns a clause and no error exactly when `s` is
non-empty and every comma-separated piece, once `strings.TrimSpace` has removed its
leading and trailing white space, is an optional `-` and exactly one letter; every string
of the grammar (items padded with ASCII white space) is accepted, and an accepted string
of ASCII bytes is in the grammar; on every other input `Parse` returns an error and no
clause. -/
theorem Parse_accepts (s : Str) :
    ((∃ c, Parse s = Except.ok c) ↔
      s ≠ [] ∧ ∀ it ∈ Split 44 s, IsName (TrimSpace it)) ∧
    (InClauseGrammar s → ∃ c, Parse s = Except.ok c) ∧
    ((∀ b ∈ s, b < 128) → (∃ c, Parse s = Except.ok c) → InClauseGrammar s) ∧
    ((¬ ∃ c, Parse s = Except.ok c) → ∃ e, Parse s = Except.error e) := by
  have hiff : (∃ c, Parse s = Except.ok c) ↔
      s ≠ [] ∧ ∀ it ∈ Split 44 s, IsName (TrimSpace it) := by
    rcases Parse_eq s with ⟨h1, h2, hok⟩ | ⟨hbad, e, he⟩
    · exact ⟨fun _ => ⟨h1, h2⟩, fun _ => ⟨_, hok⟩⟩
    · constructor
      · rintro ⟨c, hc⟩
        rw [he] at hc
        cases hc
      · rintro ⟨h1, h2⟩
        rcases hbad with h | h
        · exact absurd h h1
        · exact absurd h2 h
  refine ⟨hiff, ?_, ?_, ?_⟩
  · intro hg
    obtain ⟨hne, hitems⟩ := (inClauseGrammar_iff s).mp hg
    exact hiff.mpr ⟨hne, fun it hit => (hitems it hit).name_trim⟩
  · intro hascii hok
    obtain ⟨hne, hnames⟩ := hiff.mp hok
    exact (inClauseGrammar_iff s).mpr ⟨hne, fun it hit =>
      IsItem.of_name_trim (fun b hb => hascii b (mem_of_mem_Split 44 s it hit b hb))
        (hnames it hit)⟩
  · intro hno
    rcases Parse_eq s with ⟨_, _, hok⟩ | ⟨_, e, he⟩
    · exact absurd ⟨_, hok⟩ hno
    · exact ⟨e, he⟩

/-- Witness for C20 on the input `" A , -b "`, a string of the grammar. -/
theorem Parse_accepts_witness : ∃ c, Parse [32, 65, 32, 44, 32, 45, 98, 32] = Except.ok c :=
  (Parse_accepts [32, 65, 32, 44, 32, 45, 98, 32]).2.1
    ⟨[[32, 65, 32], [32, 45, 98, 32]], by decide,
      by
        intro it hit
        simp only [List.mem_cons, List.mem_singleton, List.not_mem_nil, or_false] at hit
        rcases hit with rfl | rfl
        · exact ⟨[32], [65], [32], rfl, by decide, by decide, 65, by decide, Or.inl rfl⟩
        · exact ⟨[32], [45, 98], [32], rfl, by decide, by decide, 98, by decide, Or.inr rfl⟩,
      rfl⟩

/-- C20 as stated fails: `Parse` accepts the letter `A` preceded by a no-break space
(U+00A0, bytes 0xC2 0xA0), which is not ASCII white space, so the input is outside the
grammar. -/
theorem Parse_grammar_counterexample :
    (∃ c, Parse [194, 160, 65] = Except.ok c) ∧ ¬ InClauseGrammar [194, 160, 65] := by
  refine ⟨⟨{1}, by decide⟩, ?_⟩
  intro h
  have := h.bytes_lt 194 (by decide)
  omega

/-! ## `Abs` and `UnsignedSort` -/

theorem Abs_of_nonneg {x : Int} (h : 0 ≤ x) : Abs x = x := by
  unfold Abs
  rw [if_neg (by omega)]

theorem Abs_of_neg {x : Int} (h : x < 0) (hmin : -9223372036854775808 < x) : Abs x = -x := by
  unfold Abs wrap64
  rw [if_pos h]
  omega

theorem Abs_eq_natAbs {x : Int} (h1 : -9223372036854775808 < x) :
    Abs x = (x.natAbs : Int) := by
  by_cases h : x < 0
  · rw [Abs_of_neg h h1]
    omega
  · rw [Abs_of_nonneg (by omega)]
    omega

/-- On the integers that have an absolute value among the Go `int`s `Abs` returns it: for
every Go `int` `x` other than the least one, `Abs(x) >= 0`, `Abs(x) = x` when `x >= 0` and
`Abs(x) = -x` when `x < 0`. -/
theorem Abs_returns_absolute_value (x : Int) (hx : IsInt64 x)
    (hmin : x ≠ -9223372036854775808) :
    0 ≤ Abs x ∧ (0 ≤ x → Abs x = x) ∧ (x < 0 → Abs x = -x) := by
  have h1 : -9223372036854775808 < x := by
    have := hx.1
    omega
  refine ⟨?_, fun h => Abs_of_nonneg h, fun h => Abs_of_neg h h1⟩
  rw [Abs_eq_natAbs h1]
  omega

/-- The value of `Abs` at `x = -5`. -/
theorem Abs_returns_absolute_value_witness :
    0 ≤ Abs (-5) ∧ (0 ≤ (-5 : Int) → Abs (-5) = -5) ∧ ((-5 : Int) < 0 → Abs (-5) = - -5) :=
  Abs_returns_absolute_value (-5) (by decide) (by decide)

/-- C28 (a defect of `Abs`): at the least Go `int` the negation in `Abs` wraps, so that
`Abs(-2^63)` is `-2^63`: a negative number, and not the absolute value `2^63` that the claim
and the documentation of `Abs` call for. -/
theorem Abs_least_int_negative :
    IsInt64 (-9223372036854775808) ∧ Abs (-9223372036854775808) = -9223372036854775808 ∧
      ¬ (0 ≤ Abs (-9223372036854775808)) ∧
      Abs (-9223372036854775808) ≠ - (-9223372036854775808) := by
  decide

theorem getElem?_reverse_append (acc : List Int) (x : Int) (rest : List Int) :
    (acc.reverse ++ x :: rest)[acc.length]? = some x := by
  rw [List.getElem?_append_right (by simp)]
  simp

theorem sortInner_eq (key : Int) (acc : List Int) :
    ∀ (g : Int) (rest : List Int),
      sortInner key acc.length (acc.reverse ++ g :: rest) =
        some ((insertDesc key acc).reverse ++ rest) := by
  induction acc with
  | nil =>
    intro g rest
    simp [sortInner, insertDesc]
  | cons a acc ih =>
    intro g rest
    have hget : (((a :: acc).reverse ++ g :: rest)[acc.length]?) = some a := by
      have := getElem?_reverse_append acc a (g :: rest)
      simpa using this
    have hlen : acc.length + 1 < ((a :: acc).reverse ++ g :: rest).length := by
      simp
    have hset : ∀ y : Int, ((a :: acc).reverse ++ g :: rest).set (acc.length + 1) y =
        acc.reverse ++ a :: y :: rest := by
      intro y
      have : (a :: acc).reverse ++ g :: rest = (acc.reverse ++ [a]) ++ g :: rest := by simp
      rw [this, List.set_append_right _ _ (by simp)]
      simp
    simp only [List.length_cons, sortInner, hget]
    by_cases h : Abs a > Abs key
    · rw [if_pos h, if_pos hlen, hset a, ih a (a :: rest)]
      simp [insertDesc, h]
    · rw [if_neg h, if_pos hlen, hset key]
      simp [insertDesc, h]

theorem length_insertDesc (key : Int) (acc : List Int) :
    (insertDesc key acc).length = acc.length + 1 := by
  induction acc with
  | nil => rfl
  | cons a acc ih =>
    unfold insertDesc
    split
    · simp [ih]
    · simp

theorem sortOuter_eq (rest : List Int) :
    ∀ acc : List Int, sortOuter rest.length acc.length (acc.reverse ++ rest) =
      some ((rest.foldl (fun acc key => insertDesc key acc) acc).reverse) := by
  induction rest with
  | nil =>
    intro acc
    simp [sortOuter]
  | cons key rest ih =>
    intro acc
    have hget : ((acc.reverse ++ key :: rest)[acc.length]?) = some key :=
      getElem?_reverse_append acc key rest
    simp only [List.length_cons, sortOuter, hget, sortInner_eq key acc key rest,
      List.foldl_cons]
    have := ih (insertDesc key acc)
    rw [length_insertDesc] at this
    exact this

theorem UnsignedSort_eq (values : List Int) : UnsignedSort values = some (sortByAbs values) := by
  unfold UnsignedSort sortByAbs
  cases values with
  | nil => rfl
  | cons x rest =>
    have := sortOuter_eq rest [x]
    simpa [insertDesc] using this

theorem perm_insertDesc (key : Int) (acc : List Int) :
    (insertDesc key acc).Perm (key :: acc) := by
  induction acc with
  | nil => exact List.Perm.refl _
  | cons a acc ih =>
    unfold insertDesc
    split
    · exact (List.Perm.cons a ih).trans (List.Perm.swap key a acc)
    · exact List.Perm.refl _

theorem perm_foldl_insertDesc (values : List Int) :
    ∀ acc : List Int,
      (values.foldl (fun acc key => insertDesc key acc) acc).Perm (values.reverse ++ acc) := by
  induction values with
  | nil =>
    intro acc
    exact List.Perm.refl _
  | cons x values ih =>
    intro acc
    rw [List.foldl_cons, List.reverse_cons, List.append_assoc]
    exact (ih _).trans (List.Perm.append_left _ (perm_insertDesc x acc))

theorem sortByAbs_perm (values : List Int) : (sortByAbs values).Perm values := by
  unfold sortByAbs
  refine (List.reverse_perm _).trans ?_
  have := perm_foldl_insertDesc values []
  rw [List.append_nil] at this
  exact this.trans (List.reverse_perm _)

theorem pairwise_insertDesc (key : Int) (acc : List Int)
    (h : acc.Pairwise (fun a b => Abs b ≤ Abs a)) :
    (insertDesc key acc).Pairwise (fun a b => Abs b ≤ Abs a) := by
  induction acc with
  | nil => simp [insertDesc]
  | cons a acc ih =>
    rw [List.pairwise_cons] at h
    unfold insertDesc
    split
    · rename_i hgt
      rw [List.pairwise_cons]
      refine ⟨?_, ih h.2⟩
      intro b hb
      rcases List.mem_cons.mp ((perm_insertDesc key acc).mem_iff.mp hb) with rfl | hb
      · exact le_of_lt hgt
      · exact h.1 b hb
    · rename_i hgt
      rw [List.pairwise_cons]
      refine ⟨?_, List.pairwise_cons.mpr h⟩
      intro b hb
      rcases List.mem_cons.mp hb with rfl | hb
      · exact not_lt.mp hgt
      · exact le_trans (h.1 b hb) (not_lt.mp hgt)

theorem pairwise_foldl_insertDesc (values : List Int) :
    ∀ acc : List Int, acc.Pairwise (fun a b => Abs b ≤ Abs a) →
      (values.foldl (fun acc key => insertDesc key acc) acc).Pairwise
        (fun a b => Abs b ≤ Abs a) := by
  induction values with
  | nil =>
    intro acc h
    exact h
  | cons x values ih =>
    intro acc h
    exact ih _ (pairwise_insertDesc x acc h)

theorem sortByAbs_sorted (values : List Int) :
    (sortByAbs values).Pairwise (fun a b => Abs a ≤ Abs b) := by
  unfold sortByAbs
  rw [List.pairwise_reverse]
  exact pairwise_foldl_insertDesc values [] List.Pairwise.nil

theorem filter_insertDesc (v key : Int) (acc : List Int) :
    (insertDesc key acc).filter (fun x => decide (Abs x = v)) =
      (key :: acc).filter (fun x => decide (Abs x = v)) := by
  induction acc with
  | nil => rfl
  | cons a acc ih =>
    unfold insertDesc
    split
    · rename_i hgt
      rw [List.filter_cons, ih]
      by_cases ha : Abs a = v
      · have hk : ¬ Abs key = v := by
          intro hk
          rw [ha, hk] at hgt
          exact lt_irrefl _ hgt
        simp [List.filter_cons, ha, hk]
      · simp [List.filter_cons, ha]
    · rfl

theorem filter_foldl_insertDesc (v : Int) (values : List Int) :
    ∀ acc : List Int,
      (values.foldl (fun acc key => insertDesc key acc) acc).filter
          (fun x => decide (Abs x = v)) =
        (values.reverse ++ acc).filter (fun x => decide (Abs x = v)) := by
  induction values with
  | nil =>
    intro acc
    rfl
  | cons x values ih =>
    intro acc
    rw [List.foldl_cons, ih, List.reverse_cons, List.append_assoc, List.filter_append,
      List.filter_append, filter_insertDesc]
    rfl

theorem sortByAbs_stable (v : Int) (values : List Int) :
    (sortByAbs values).filter (fun x => decide (Abs x = v)) =
      values.filter (fun x => decide (Abs x = v)) := by
  unfold sortByAbs
  rw [List.filter_reverse, filter_foldl_insertDesc, List.append_nil,
    List.filter_reverse, List.reverse_reverse]

/-- C24: `UnsignedSort` is the stable sort by absolute value: on every slice of integers
of magnitude below 2^63 it runs without index error, and the slice after the call is a
permutation of the input, has its absolute values in non-decreasing order, and lists the
elements of each absolute value in their input order. -/
theorem UnsignedSort_stable_by_abs (values : List Int)
    (h : ∀ x ∈ values, -9223372036854775808 < x ∧ x < 9223372036854775808) :
    ∃ r, UnsignedSort values = some r ∧ r.Perm values ∧
      r.Pairwise (fun a b => a.natAbs ≤ b.natAbs) ∧
      ∀ n : Nat, r.filter (fun x => decide (x.natAbs = n)) =
        values.filter (fun x => decide (x.natAbs = n)) := by
  refine ⟨sortByAbs values, UnsignedSort_eq values, sortByAbs_perm values, ?_, ?_⟩
  · refine (sortByAbs_sorted values).imp_of_mem ?_
    intro a b ha hb hab
    have h1 := (h a ((sortByAbs_perm values).mem_iff.mp ha)).1
    have h2 := (h b ((sortByAbs_perm values).mem_iff.mp hb)).1
    rw [Abs_eq_natAbs h1, Abs_eq_natAbs h2] at hab
    exact_mod_cast hab
  · intro n
    have hcongr : ∀ l : List Int, (∀ x ∈ l, -9223372036854775808 < x) →
        l.filter (fun x => decide (x.natAbs = n)) =
          l.filter (fun x => decide (Abs x = (n : Int))) := by
      intro l hl
      apply List.filter_congr
      intro x hx
      rw [Abs_eq_natAbs (hl x hx)]
      exact decide_eq_decide.mpr (by omega)
    rw [hcongr _ (fun x hx => (h x ((sortByAbs_perm values).mem_iff.mp hx)).1),
      hcongr _ (fun x hx => (h x hx).1)]
    exact sortByAbs_stable n values

/-- Witness for C24 on the slice `[0, -3, 2, -1, 0, 4]` of the tests. -/
theorem UnsignedSort_stable_by_abs_witness :
    ∃ r, UnsignedSort [0, -3, 2, -1, 0, 4] = some r ∧ r.Perm [0, -3, 2, -1, 0, 4] ∧
      r.Pairwise (fun a b => a.natAbs ≤ b.natAbs) ∧
      ∀ n : Nat, r.filter (fun x => decide (x.natAbs = n)) =
        [0, -3, 2, -1, 0, 4].filter (fun x => decide (x.natAbs = n)) :=
  UnsignedSort_stable_by_abs [0, -3, 2, -1, 0, 4] (by decide)

/-! ## The printer -/

theorem intercalate_cons_cons (sep x y : Str) (ys : List Str) :
    sep.intercalate (x :: y :: ys) = x ++ sep ++ sep.intercalate (y :: ys) := by
  simp [List.intercalate, List.intersperse]

theorem stringLoop_eq (rest : List Int) :
    ∀ (i : Nat) (s : Str), stringLoop (i + rest.length) i rest s =
      s ++ [44, 32].intercalate (rest.map Lit2Str) := by
  induction rest with
  | nil =>
    intro i s
    simp [stringLoop, List.intercalate]
  | cons l rest ih =>
    intro i s
    cases rest with
    | nil => simp [stringLoop, List.intercalate]
    | cons r rest =>
      have hlt : i + 1 < i + (l :: r :: rest).length := by
        simp only [List.length_cons]
        omega
      have hn : i + (l :: r :: rest).length = (i + 1) + (r :: rest).length := by
        simp only [List.length_cons]
        omega
      rw [stringLoop, if_pos hlt, hn, ih (i + 1)]
      simp only [List.map_cons, intercalate_cons_cons, List.append_assoc]

theorem String_eq (o : KeyOrder) (c : Clause) :
    Clause.String o c =
      some ([123] ++ [44, 32].intercalate ((sortByAbs (o.keys c)).map Lit2Str) ++ [125]) := by
  unfold Clause.String
  rw [UnsignedSort_eq]
  have := stringLoop_eq (sortByAbs (o.keys c)) 0 [123]
  rw [Nat.zero_add] at this
  simp only [this]

theorem Abs_inj {a b : Int} (ha : IsInt64 a) (hb : IsInt64 b) (h : Abs a = Abs b) :
    a = b ∨ wrap64 (-a) = b := by
  unfold IsInt64 at ha hb
  unfold Abs wrap64 at h
  unfold wrap64
  split_ifs at h <;> omega

theorem Abs_ne_of_mem {c : Clause} (ht : Clause.Typed c) (hc : Clause.NoComplPair c)
    {a b : Int} (ha : a ∈ c) (hb : b ∈ c) (hab : a ≠ b) : Abs a ≠ Abs b := by
  intro h
  rcases Abs_inj (ht a ha) (ht b hb) h with h1 | h1
  · exact hab h1
  · have hne : negLit a ≠ a := by
      intro h2
      apply hab
      rw [← h1]
      exact h2.symm
    apply hc a ha hne
    show wrap64 (-a) ∈ c
    rw [h1]
    exact hb

theorem mem_sortByAbs (values : List Int) (x : Int) : x ∈ sortByAbs values ↔ x ∈ values :=
  (sortByAbs_perm values).mem_iff

theorem sortByAbs_keys_strict (o : KeyOrder) {c : Clause} (ht : Clause.Typed c)
    (hc : Clause.NoComplPair c) :
    (sortByAbs (o.keys c)).Pairwise (fun a b => Abs a < Abs b) := by
  have hnd : (sortByAbs (o.keys c)).Nodup :=
    (sortByAbs_perm (o.keys c)).nodup_iff.mpr (o.nodup c)
  refine ((sortByAbs_sorted (o.keys c)).and hnd).imp_of_mem ?_
  intro a b ha hb hab
  have ha' := (o.mem_keys c a).mp ((mem_sortByAbs _ a).mp ha)
  have hb' := (o.mem_keys c b).mp ((mem_sortByAbs _ b).mp hb)
  exact lt_of_le_of_ne hab.1 (Abs_ne_of_mem ht hc ha' hb' hab.2)

theorem sortByAbs_keys_eq (o o' : KeyOrder) {c : Clause} (ht : Clause.Typed c)
    (hc : Clause.NoComplPair c) : sortByAbs (o.keys c) = sortByAbs (o'.keys c) := by
  have hperm : (sortByAbs (o.keys c)).Perm (sortByAbs (o'.keys c)) := by
    refine (sortByAbs_perm _).trans (List.Perm.trans ?_ (sortByAbs_perm _).symm)
    rw [List.perm_ext_iff_of_nodup (o.nodup c) (o'.nodup c)]
    intro x
    rw [o.mem_keys, o'.mem_keys]
  haveI : IsAntisymm Int (fun a b => Abs a < Abs b) :=
    ⟨fun a b h1 h2 => absurd h1 (not_lt.mpr (le_of_lt h2))⟩
  exact List.eq_of_perm_of_sorted hperm (sortByAbs_keys_strict o ht hc)
    (sortByAbs_keys_strict o' ht hc)

/-- C22: the printer's format and order: for every clause whose members are codes in
[-26,-1] ∪ [1,26] with no complementary pair, `String()` is `"{"`, then `Lit2Str` of each
member separated by `", "`, the members listed in strictly ascending order of the absolute
value of the code, then `"}"`; the empty clause prints as `"{}"`. -/
theorem String_format_and_order (o : KeyOrder) (c : Clause)
    (hr : ∀ l : Int, l ∈ c → (1 ≤ l ∧ l ≤ 26) ∨ (-26 ≤ l ∧ l ≤ -1))
    (hc : Clause.NoComplPair c) :
    (∃ L : List Int, (∀ l, l ∈ L ↔ l ∈ c) ∧
      L.Pairwise (fun a b => a.natAbs < b.natAbs) ∧
      Clause.String o c =
        some ([123] ++ [44, 32].intercalate (L.map Lit2Str) ++ [125])) ∧
    Clause.String o ∅ = some [123, 125] := by
  have ht : Clause.Typed c := by
    intro k hk
    have := hr k hk
    unfold IsInt64
    omega
  constructor
  · refine ⟨sortByAbs (o.keys c), ?_, ?_, String_eq o c⟩
    · intro l
      rw [mem_sortByAbs, o.mem_keys]
    · refine (sortByAbs_keys_strict o ht hc).imp_of_mem ?_
      intro a b ha hb hab
      have ha' := hr a ((o.mem_keys c a).mp ((mem_sortByAbs _ a).mp ha))
      have hb' := hr b ((o.mem_keys c b).mp ((mem_sortByAbs _ b).mp hb))
      rw [Abs_eq_natAbs (by omega), Abs_eq_natAbs (by omega)] at hab
      exact_mod_cast hab
  · rw [String_eq]
    have : o.keys ∅ = [] := by
      apply List.eq_nil_iff_forall_not_mem.mpr
      intro a ha
      exact absurd ((o.mem_keys ∅ a).mp ha) (Finset.not_mem_empty a)
    rw [this]
    rfl

/-- Witness for C22 on the clause {B, -A, C}, printed as `"{-A, B, C}"`. -/
theorem String_format_and_order_witness :
    (∃ L : List Int, (∀ l, l ∈ L ↔ l ∈ ({2, -1, 3} : Clause)) ∧
      L.Pairwise (fun a b => a.natAbs < b.natAbs) ∧
      Clause.String reverseOrder {2, -1, 3} =
        some ([123] ++ [44, 32].intercalate (L.map Lit2Str) ++ [125])) ∧
    Clause.String reverseOrder ∅ = some [123, 125] :=
  String_format_and_order reverseOrder {2, -1, 3} (by decide) (by decide)

/-- C23: printer stability: two clauses with the same members, Go `int`s with no
complementary pair, print as the same string, whatever the order in which their literals
were inserted and whatever the order in which `range` enumerates each map. -/
theorem String_stable (o o' : KeyOrder) (a b : Clause) (ht : Clause.Typed a)
    (hc : Clause.NoComplPair a) (hab : ∀ l, l ∈ a ↔ l ∈ b) :
    Clause.String o a = Clause.String o' b ∧ ∃ s, Clause.String o a = some s := by
  have : a = b := Finset.ext hab
  subst this
  rw [String_eq, String_eq, sortByAbs_keys_eq o o' ht hc]
  exact ⟨rfl, _, rfl⟩

/-- Witness for C23: the literals A, -B, C inserted in two orders and enumerated in two
orders. -/
theorem String_stable_witness :
    Clause.String sortedOrder (insertKeys [1, -2, 3] New) =
        Clause.String reverseOrder (insertKeys [3, 1, -2] New) ∧
      ∃ s, Clause.String sortedOrder (insertKeys [1, -2, 3] New) = some s :=
  String_stable sortedOrder reverseOrder (insertKeys [1, -2, 3] New)
    (insertKeys [3, 1, -2] New) (by decide) (by decide)
    (fun l => by rw [show insertKeys [1, -2, 3] New = insertKeys [3, 1, -2] New by decide])

/-! ## Empty clauses, index errors and duplicates in the driver -/

/-- C25: an empty clause in the input means unsatisfiable: for every sequence with the
empty clause among its members and every frontier index `f ≥ 0`, `Res(S, f)` returns true
(in its first pass, without a recursive call). -/
theorem Res_empty_member (o : KeyOrder) (S : List Clause) (f : Int) (fuel : Nat)
    (hf : 0 ≤ f) (h : ∃ c ∈ S, Clause.IsEmpty c = true) :
    Res o (fuel + 1) S f = some (Outcome.verdict true) := by
  obtain ⟨c, hc, hemp⟩ := h
  rw [(IsEmpty_eq_true c).mp hemp] at hc
  rcases outerLoop_spec o f S.length S (Nat.le_refl _) with
    ⟨set', _, _, _, hne⟩ | ⟨he, _⟩ | ⟨_, hneg⟩
  · obtain ⟨i, hi, hget⟩ := List.getElem_of_mem hc
    exact absurd (by rw [List.getElem?_eq_getElem hi, hget]) (hne i hi)
  · exact Res_succ_ret o fuel S f true he
  · omega

/-- Witness for C25 on the sequence {A}, {}, {B} with frontier 0. -/
theorem Res_empty_member_witness :
    Res sortedOrder 1 [{1}, ∅, {2}] 0 = some (Outcome.verdict true) :=
  Res_empty_member sortedOrder [{1}, ∅, {2}] 0 0 (by decide) ⟨∅, by decide, by decide⟩

theorem Res_ne_panic (o : KeyOrder) (fuel : Nat) :
    ∀ (set : List Clause) (index : Int), 0 ≤ index →
      Res o fuel set index ≠ some Outcome.panic := by
  induction fuel with
  | zero =>
    intro set index _ h
    simp [Res] at h
  | succ fuel ih =>
    intro set index hidx
    rcases outerLoop_spec o index set.length set (Nat.le_refl _) with
      ⟨set', he, _, _, _⟩ | ⟨he, _⟩ | ⟨_, hneg⟩
    · rw [Res_succ_next o fuel set set' index he]
      split_ifs
      · simp
      · simp
      · exact ih set' set.length (Int.ofNat_nonneg _)
    · rw [Res_succ_ret o fuel set index true he]
      simp
    · omega

/-- C26, for the frontier indices the driver is called with: for every sequence of
clauses and every frontier index `f ≥ 0`, no element access `set[i]` or `set[k]` made by
`Res` is out of range, at any depth of the recursion, and the call returns a verdict. -/
theorem Res_never_panics (o : KeyOrder) (S : List Clause) (f : Int) (hf : 0 ≤ f) :
    (∀ fuel, Res o fuel S f ≠ some Outcome.panic) ∧
    ∃ b, ∀ fuel, 2 ^ (lits S).card < fuel → Res o fuel S f = some (Outcome.verdict b) :=
  ⟨fun fuel => Res_ne_panic o fuel S f hf, Res_total o S f hf⟩

/-- Witness for C26 on the sequence {A}, {-A, B} with frontier 0. -/
theorem Res_never_panics_witness :
    Res sortedOrder 3 [{1}, {-1, 2}] 0 ≠ some Outcome.panic :=
  (Res_never_panics sortedOrder [{1}, {-1, 2}] 0 (by decide)).1 3

/-- C26 as stated fails for a negative frontier index: on the one-clause sequence {A}
with index -1 the inner loop reaches `k = -1` and reads `set[-1]`. -/
theorem Res_negative_index_counterexample :
    Res sortedOrder 1 [{1}] (-1) = some Outcome.panic := by
  decide

theorem pairwise_concat_of_not_mem (o : KeyOrder) (set : List Clause) (c : Clause)
    (hc : ∀ s ∈ set, Clause.Equals o c s = false)
    (h : set.Pairwise (fun a b => Clause.Equals o a b = false)) :
    (set ++ [c]).Pairwise (fun a b => Clause.Equals o a b = false) := by
  rw [List.pairwise_append]
  refine ⟨h, List.pairwise_singleton _ _, ?_⟩
  intro a ha b hb
  rw [List.mem_singleton] at hb
  subst hb
  have h1 := hc a ha
  cases h2 : Clause.Equals o a b with
  | false => rfl
  | true =>
    have e : a = b := (Equals_eq_true o a b).mp h2
    rw [e, (Equals_eq_true o b b).mpr rfl] at h1
    cases h1

theorem resBody_appends (o : KeyOrder) (set : List Clause) (i k : Nat) (set' : List Clause)
    (h : resBody o set i k = Step.next set') :
    set' = set ∨ ∃ c, set' = set ++ [c] ∧ ∀ s ∈ set, Clause.Equals o c s = false := by
  unfold resBody at h
  cases hi : set[i]? with
  | none => simp [hi] at h
  | some a =>
    cases hk : set[k]? with
    | none => simp [hi, hk] at h
    | some b =>
      simp only [hi, hk] at h
      rcases hres : Clause.Resolve o a b with ⟨_ | c, _ | _⟩
      · rw [hres] at h
        cases h
        exact Or.inl rfl
      · rw [hres] at h
        cases h
        exact Or.inl rfl
      · rw [hres] at h
        cases h
        exact Or.inl rfl
      · rw [hres] at h
        simp only [] at h
        by_cases hex : set.any (fun s => Clause.Equals o c s) = true
        · rw [if_pos hex] at h
          cases h
          exact Or.inl rfl
        · rw [if_neg hex] at h
          by_cases hemp : Clause.IsEmpty c = true
          · rw [if_pos hemp] at h
            cases h
          · rw [if_neg hemp] at h
            cases h
            refine Or.inr ⟨c, rfl, ?_⟩
            intro s hs
            cases hcs : Clause.Equals o c s with
            | false => rfl
            | true => exact absurd (List.any_eq_true.mpr ⟨s, hs, hcs⟩) hex

theorem resBody_grows (o : KeyOrder) (set : List Clause) (i k : Nat) (set' : List Clause)
    (h : resBody o set i k = Step.next set') :
    (∃ t, set' = set ++ t) ∧
      (set.Pairwise (fun a b => Clause.Equals o a b = false) →
        set'.Pairwise (fun a b => Clause.Equals o a b = false)) := by
  rcases resBody_appends o set i k set' h with rfl | ⟨c, rfl, hc⟩
  · exact ⟨⟨[], (List.append_nil _).symm⟩, fun hp => hp⟩
  · exact ⟨⟨[c], rfl⟩, pairwise_concat_of_not_mem o set c hc⟩

theorem innerLoop_grows (o : KeyOrder) (index : Int) (i n : Nat) :
    ∀ set set' : List Clause, innerLoop o index i n set = Step.next set' →
      (∃ t, set' = set ++ t) ∧
        (set.Pairwise (fun a b => Clause.Equals o a b = false) →
          set'.Pairwise (fun a b => Clause.Equals o a b = false)) := by
  induction n with
  | zero =>
    intro set set' h
    unfold innerLoop at h
    split_ifs at h
    cases h
    exact ⟨⟨[], (List.append_nil _).symm⟩, fun hp => hp⟩
  | succ n ih =>
    intro set set' h
    unfold innerLoop at h
    split_ifs at h with h1 h2
    · cases h
      exact ⟨⟨[], (List.append_nil _).symm⟩, fun hp => hp⟩
    · exact ih set set' h
    · cases hb : resBody o set i n with
      | ret b =>
        rw [hb] at h
        cases h
      | panic =>
        rw [hb] at h
        cases h
      | next set₁ =>
        rw [hb] at h
        obtain ⟨⟨t₁, ht₁⟩, hp₁⟩ := resBody_grows o set i n set₁ hb
        obtain ⟨⟨t₂, ht₂⟩, hp₂⟩ := ih set₁ set' h
        refine ⟨⟨t₁ ++ t₂, ?_⟩, fun hp => hp₂ (hp₁ hp)⟩
        rw [ht₂, ht₁, List.append_assoc]

theorem outerLoop_grows (o : KeyOrder) (index : Int) (n : Nat) :
    ∀ set set' : List Clause, outerLoop o index n set = Step.next set' →
      (∃ t, set' = set ++ t) ∧
        (set.Pairwise (fun a b => Clause.Equals o a b = false) →
          set'.Pairwise (fun a b => Clause.Equals o a b = false)) := by
  induction n with
  | zero =>
    intro set set' h
    unfold outerLoop at h
    cases h
    exact ⟨⟨[], (List.append_nil _).symm⟩, fun hp => hp⟩
  | succ n ih =>
    intro set set' h
    unfold outerLoop at h
    cases ha : set[n]? with
    | none => simp [ha] at h
    | some a =>
      simp only [ha] at h
      split_ifs at h
      cases hb : innerLoop o index n set.length set with
      | ret b =>
        rw [hb] at h
        cases h
      | panic =>
        rw [hb] at h
        cases h
      | next set₁ =>
        rw [hb] at h
        obtain ⟨⟨t₁, ht₁⟩, hp₁⟩ := innerLoop_grows o index n set.length set set₁ hb
        obtain ⟨⟨t₂, ht₂⟩, hp₂⟩ := ih set₁ set' h
        refine ⟨⟨t₁ ++ t₂, ?_⟩, fun hp => hp₂ (hp₁ hp)⟩
        rw [ht₂, ht₁, List.append_assoc]

/-- C29 (deduplication): an execution of the body of the inner loop of `Res` leaves the
sequence as it is or appends one clause, and then a clause that `Equals` reports different
from every clause of the sequence at that moment; hence after any part of a pass (any run
of the inner or of the outer loop) the sequence is the earlier one followed by further
clauses, and its clauses are pairwise non-equal when those of the earlier one were; the
recursive call of `Res` is made on the sequence the pass leaves. -/
theorem Res_deduplicates (o : KeyOrder) (index : Int) (set set' : List Clause) :
    (∀ i k, resBody o set i k = Step.next set' →
      set' = set ∨ ∃ c, set' = set ++ [c] ∧ ∀ s ∈ set, Clause.Equals o c s = false) ∧
    (∀ i n, innerLoop o index i n set = Step.next set' ∨
        outerLoop o index n set = Step.next set' →
      (∃ t, set' = set ++ t) ∧
        (set.Pairwise (fun a b => Clause.Equals o a b = false) →
          set'.Pairwise (fun a b => Clause.Equals o a b = false))) ∧
    (outerLoop o index set.length set = Step.next set' →
      ∀ fuel, Res o (fuel + 1) set index =
        if (set'.drop set.length).any Clause.IsEmpty then some (Outcome.verdict true)
        else if set.length = set'.length then some (Outcome.verdict false)
        else Res o fuel set' set.length) := by
  refine ⟨fun i k h => resBody_appends o set i k set' h, ?_, ?_⟩
  · intro i n h
    rcases h with h | h
    · exact innerLoop_grows o index i n set set' h
    · exact outerLoop_grows o index n set set' h
  · intro h fuel
    exact Res_succ_next o fuel set set' index h

/-- Witness for C29: the pass over {A}, {-A, B}, {-B, C} with frontier 0 under ascending
enumeration appends clauses to the three given ones and leaves them pairwise non-equal. -/
theorem Res_deduplicates_witness :
    ∃ set', outerLoop sortedOrder 0 3 [{1}, {-1, 2}, {-2, 3}] = Step.next set' ∧
      (∃ t, set' = [{1}, {-1, 2}, {-2, 3}] ++ t) ∧
      set'.Pairwise (fun a b => Clause.Equals sortedOrder a b = false) :=
  have h : outerLoop sortedOrder 0 3 [{1}, {-1, 2}, {-2, 3}] =
      Step.next [{1}, {-1, 2}, {-2, 3}, {-1, 3}, {2}, {3}] := by decide
  ⟨_, h,
    ((Res_deduplicates sortedOrder 0 [{1}, {-1, 2}, {-2, 3}] _).2.1 0 3 (Or.inr h)).1,
    ((Res_deduplicates sortedOrder 0 [{1}, {-1, 2}, {-2, 3}] _).2.1 0 3 (Or.inr h)).2
      (by decide)⟩

/-! ## The driver without the frontier -/

theorem ResNaive_succ_next (o : KeyOrder) (fuel : Nat) (set set' : List Clause)
    (h : outerLoop o 0 set.length set = Step.next set') :
    ResNaive o (fuel + 1) set =
      if (set'.drop set.length).any Clause.IsEmpty then some (Outcome.verdict true)
      else if set.length = set'.length then some (Outcome.verdict false)
      else ResNaive o fuel set' := by
  simp only [ResNaive, h]

theorem ResNaive_succ_ret (o : KeyOrder) (fuel : Nat) (set : List Clause) (b : Bool)
    (h : outerLoop o 0 set.length set = Step.ret b) :
    ResNaive o (fuel + 1) set = some (Outcome.verdict b) := by
  simp only [ResNaive, h]

theorem ResNaive_total_aux (o : KeyOrder) (U : Finset Literal) (m : Nat) :
    ∀ set : List Clause, (∀ c ∈ set, c ⊆ U) → 2 ^ U.card - set.toFinset.card ≤ m →
      ∃ b, ∀ fuel, m < fuel → ResNaive o fuel set = some (Outcome.verdict b) := by
  induction m with
  | zero =>
    intro set hU hm
    rcases outerLoop_spec o 0 set.length set (Nat.le_refl _) with
      ⟨set', he, hext, _, _⟩ | ⟨he, _⟩ | ⟨_, hneg⟩
    · by_cases hemp : (set'.drop set.length).any Clause.IsEmpty = true
      · refine ⟨true, fun fuel hf => ?_⟩
        obtain ⟨f, rfl⟩ : ∃ f, fuel = f + 1 := ⟨fuel - 1, by omega⟩
        rw [ResNaive_succ_next o f set set' he, if_pos hemp]
      · have hlen : set.length = set'.length := by
          have h1 := hext.card_toFinset
          have h2 := card_toFinset_le_pow set' U (hext.subset_of_subset hU)
          have h3 := hext.length_le
          omega
        refine ⟨false, fun fuel hf => ?_⟩
        obtain ⟨f, rfl⟩ : ∃ f, fuel = f + 1 := ⟨fuel - 1, by omega⟩
        rw [ResNaive_succ_next o f set set' he, if_neg hemp, if_pos hlen]
    · refine ⟨true, fun fuel hf => ?_⟩
      obtain ⟨f, rfl⟩ : ∃ f, fuel = f + 1 := ⟨fuel - 1, by omega⟩
      exact ResNaive_succ_ret o f set true he
    · omega
  | succ m ih =>
    intro set hU hm
    rcases outerLoop_spec o 0 set.length set (Nat.le_refl _) with
      ⟨set', he, hext, _, _⟩ | ⟨he, _⟩ | ⟨_, hneg⟩
    · by_cases hemp : (set'.drop set.length).any Clause.IsEmpty = true
      · refine ⟨true, fun fuel hf => ?_⟩
        obtain ⟨f, rfl⟩ : ∃ f, fuel = f + 1 := ⟨fuel - 1, by omega⟩
        rw [ResNaive_succ_next o f set set' he, if_pos hemp]
      · by_cases hlen : set.length = set'.length
        · refine ⟨false, fun fuel hf => ?_⟩
          obtain ⟨f, rfl⟩ : ∃ f, fuel = f + 1 := ⟨fuel - 1, by omega⟩
          rw [ResNaive_succ_next o f set set' he, if_neg hemp, if_pos hlen]
        · have h1 := hext.card_toFinset
          have h2 := card_toFinset_le_pow set' U (hext.subset_of_subset hU)
          have h3 := hext.length_le
          obtain ⟨b, hb⟩ := ih set' (hext.subset_of_subset hU) (by omega)
          refine ⟨b, fun fuel hf => ?_⟩
          obtain ⟨f, rfl⟩ : ∃ f, fuel = f + 1 := ⟨fuel - 1, by omega⟩
          rw [ResNaive_succ_next o f set set' he, if_neg hemp, if_neg hlen]
          exact hb f (by omega)
    · refine ⟨true, fun fuel hf => ?_⟩
      obtain ⟨f, rfl⟩ : ∃ f, fuel = f + 1 := ⟨fuel - 1, by omega⟩
      exact ResNaive_succ_ret o f set true he
    · omega

theorem ResNaive_total (o : KeyOrder) (set : List Clause) :
    ∃ b, ∀ fuel, 2 ^ (lits set).card < fuel →
      ResNaive o fuel set = some (Outcome.verdict b) := by
  obtain ⟨b, hb⟩ := ResNaive_total_aux o (lits set) (2 ^ (lits set).card) set
    (fun c hc => subset_lits hc) (Nat.sub_le _ _)
  exact ⟨b, hb⟩

/-- A verdict true of the naive driver comes with a derivation of the empty clause. -/
theorem ResNaive_true_refuted (o : KeyOrder) (fuel : Nat) :
    ∀ set : List Clause, ResNaive o fuel set = some (Outcome.verdict true) →
      Refuted o set := by
  induction fuel with
  | zero =>
    intro set h
    simp [ResNaive] at h
  | succ fuel ih =>
    intro set h
    rcases outerLoop_spec o 0 set.length set (Nat.le_refl _) with
      ⟨set', he, hext, _, _⟩ | ⟨_, hr⟩ | ⟨_, hneg⟩
    · rw [ResNaive_succ_next o fuel set set' he] at h
      by_cases hemp : (set'.drop set.length).any Clause.IsEmpty = true
      · obtain ⟨c, hc, hce⟩ := List.any_eq_true.mp hemp
        rw [(IsEmpty_eq_true c).mp hce] at hc
        exact ⟨set', hext, List.mem_of_mem_drop hc⟩
      · rw [if_neg hemp] at h
        by_cases hlen : set.length = set'.length
        · rw [if_pos hlen] at h
          cases h
        · rw [if_neg hlen] at h
          exact (ih set' h).of_later hext
    · exact hr
    · omega

/-- A verdict false of the naive driver comes with a saturated extension of the sequence
that has no empty clause. -/
theorem ResNaive_false_saturated (o : KeyOrder) (fuel : Nat) :
    ∀ set : List Clause, (∀ c ∈ set, Clause.Valid c) →
      ResNaive o fuel set = some (Outcome.verdict false) →
      ∃ set', Ext o set set' ∧ (∅ : Clause) ∉ set' ∧
        ∀ i k : Nat, i ≠ k → Handled o set' i k := by
  induction fuel with
  | zero =>
    intro set _ h
    simp [ResNaive] at h
  | succ fuel ih =>
    intro set hv h
    rcases outerLoop_spec o 0 set.length set (Nat.le_refl _) with
      ⟨set', he, hext, hh, hne⟩ | ⟨he, _⟩ | ⟨_, hneg⟩
    · rw [ResNaive_succ_next o fuel set set' he] at h
      have hv' := hext.valid hv
      by_cases hemp : (set'.drop set.length).any Clause.IsEmpty = true
      · rw [if_pos hemp] at h
        cases h
      · rw [if_neg hemp] at h
        by_cases hlen : set.length = set'.length
        · have hset : set' = set := hext.eq_of_length hlen
          subst hset
          refine ⟨set', Ext.refl _, ?_, ?_⟩
          · intro hmem
            obtain ⟨i, hi, hget⟩ := List.getElem_of_mem hmem
            exact hne i hi (by rw [List.getElem?_eq_getElem hi, hget])
          · intro i k hik
            by_cases hi : i < set'.length
            · by_cases hk : k < set'.length
              · exact hh i k hi (Int.ofNat_nonneg k) hk (Ne.symm hik)
              · exact Handled.of_none_right (Nat.le_of_not_lt hk)
            · exact Handled.of_none_left (Nat.le_of_not_lt hi)
        · rw [if_neg hlen] at h
          obtain ⟨set'', hext', hne', hall⟩ := ih set' hv' h
          exact ⟨set'', hext.trans hext', hne', hall⟩
    · rw [ResNaive_succ_ret o fuel set true he] at h
      cases h
    · omega

/-- On valid clauses the verdict of the naive driver is true exactly on the unsatisfiable
sequences. -/
theorem ResNaive_verdict (o : KeyOrder) (S : List Clause) (hS : ∀ c ∈ S, Clause.Valid c)
    (fuel : Nat) (b : Bool) (h : ResNaive o fuel S = some (Outcome.verdict b)) :
    b = true ↔ ¬ Satisfiable S := by
  cases b with
  | true =>
    exact ⟨fun _ => (ResNaive_true_refuted o fuel S h).not_satisfiable hS, fun _ => rfl⟩
  | false =>
    constructor
    · intro hb
      cases hb
    · intro hunsat
      exfalso
      apply hunsat
      obtain ⟨S', hext, hne, hall⟩ := ResNaive_false_saturated o fuel S hS h
      have hv' := hext.valid hS
      obtain ⟨v, hv⟩ := saturated_sat (varsOf S'.toFinset).card S'.toFinset (Nat.le_refl _)
        (fun c hc => hv' c (List.mem_toFinset.mp hc))
        (fun hc => hne (List.mem_toFinset.mp hc)) (saturated_of_handled hv' hall)
      exact ⟨v, fun c hc => hv c (List.mem_toFinset.mpr (hext.mem hc))⟩

/-- C30: the frontier restriction preserves the verdict: for every sequence of clauses
whose members are non-zero literal codes with no complementary pair, `Res(S, 0)` and the
naive driver, which resolves all ordered pairs `(i, k)`, `i ≠ k`, in every pass, both
return, and return the same boolean. -/
theorem Res_frontier_preserves_verdict (o : KeyOrder) (S : List Clause)
    (hS : ∀ c ∈ S, Clause.Valid c) :
    ∃ b, ∀ fuel, 2 ^ (lits S).card < fuel →
      Res o fuel S 0 = some (Outcome.verdict b) ∧
      ResNaive o fuel S = some (Outcome.verdict b) := by
  obtain ⟨b, hb⟩ := Res_total o S 0 (Int.le_refl 0)
  obtain ⟨b', hb'⟩ := ResNaive_total o S
  have h1 := hb (2 ^ (lits S).card + 1) (Nat.lt_succ_self _)
  have h2 := hb' (2 ^ (lits S).card + 1) (Nat.lt_succ_self _)
  have e : b = b' := by
    have i1 := Res_verdict o S hS _ b h1
    have i2 := ResNaive_verdict o S hS _ b' h2
    cases b <;> cases b' <;> simp_all
  subst e
  exact ⟨b, fun fuel hf => ⟨hb fuel hf, hb' fuel hf⟩⟩

/-- Witness for C30 on the clauses {A}, {-A, B}, {-B}. -/
theorem Res_frontier_preserves_verdict_witness :
    ∃ b, ∀ fuel, 2 ^ (lits [{1}, {-1, 2}, {-2}]).card < fuel →
      Res sortedOrder fuel [{1}, {-1, 2}, {-2}] 0 = some (Outcome.verdict b) ∧
      ResNaive sortedOrder fuel [{1}, {-1, 2}, {-2}] = some (Outcome.verdict b) :=
  Res_frontier_preserves_verdict sortedOrder [{1}, {-1, 2}, {-2}] (by decide)

/-! ## The errors of `Parse` -/

theorem parseItem_error (c : Clause) (item : Str) (h : ¬ IsName (TrimSpace item)) :
    (((TrimSpace item).length = 0 ∨ (TrimSpace item).length > 2 ∨
        ((TrimSpace item).length = 2 ∧ (TrimSpace item)[0]? ≠ some 45)) ∧
      parseItem c item = Except.error (ParseError.wrongFormat (TrimSpace item))) ∨
    ((TrimSpace item).length = 1 ∧
      parseItem c item = Except.error (ParseError.unknownSymbol (TrimSpace item))) ∨
    (∃ b, TrimSpace item = [45, b] ∧
      parseItem c item = Except.error (ParseError.unknownSymbol [b])) := by
  unfold parseItem
  generalize TrimSpace item = v at h
  match v, h with
  | [], _ => exact Or.inl ⟨Or.inl rfl, by simp⟩
  | [a], h =>
    have ha : ¬ IsLetter a := fun ha => h ⟨a, ha, Or.inl rfl⟩
    exact Or.inr (Or.inl ⟨rfl, by simp [Str2Lit_single_other a ha]⟩)
  | [a, b], h =>
    by_cases ha : a = 45
    · subst ha
      have hb : ¬ IsLetter b := fun hb => h ⟨b, hb, Or.inr rfl⟩
      exact Or.inr (Or.inr ⟨b, rfl, by simp [Str2Lit_single_other b hb]⟩)
    · exact Or.inl ⟨Or.inr (Or.inr ⟨rfl, by simp [ha]⟩), by simp [ha]⟩
  | a :: b :: d :: rest, _ =>
    exact Or.inl ⟨Or.inr (Or.inl (by simp)), by simp⟩

theorem parseLoop_first_error (items : List Str) :
    ∀ (c : Clause) (e : ParseError), parseLoop items c = Except.error e →
      ∃ (pre : List Str) (it : Str) (post : List Str) (c₁ : Clause),
        items = pre ++ it :: post ∧ (∀ x ∈ pre, IsName (TrimSpace x)) ∧
        ¬ IsName (TrimSpace it) ∧ parseItem c₁ it = Except.error e := by
  induction items with
  | nil =>
    intro c e h
    simp [parseLoop] at h
  | cons item rest ih =>
    intro c e h
    unfold parseLoop at h
    by_cases hi : IsName (TrimSpace item)
    · rw [parseItem_of_name c item hi] at h
      obtain ⟨pre, it, post, c₁, hsplit, hpre, hit, he⟩ := ih _ e h
      refine ⟨item :: pre, it, post, c₁, by rw [hsplit]; rfl, ?_, hit, he⟩
      intro x hx
      rcases List.mem_cons.mp hx with rfl | hx
      · exact hi
      · exact hpre x hx
    · obtain ⟨e', he'⟩ := parseItem_of_not_name c item hi
      rw [he'] at h
      have : e' = e := Except.error.inj h
      subst this
      exact ⟨[], item, rest, c, rfl, fun x hx => absurd hx (List.not_mem_nil x), hi, he'⟩

theorem appendEscapedRune_printable (printable : Nat → Bool) (b : Nat)
    (h : 32 ≤ b ∧ b ≤ 126 ∧ b ≠ 34 ∧ b ≠ 92) : appendEscapedRune printable b = [b] := by
  obtain ⟨h1, h2, h3, h4⟩ := h
  have hq : ¬ (b = 34 ∨ b = 92) := by omega
  have hp : IsPrint printable b = true := by
    unfold IsPrint
    rw [if_pos (by omega), if_pos ⟨h1, h2⟩]
  have ha : AppendRune b = [b] := by
    unfold AppendRune
    rw [if_pos (by omega)]
  unfold appendEscapedRune
  rw [if_neg hq, hp, if_pos rfl, ha]

theorem quoteLoop_printable (printable : Nat → Bool) (p : Str) :
    ∀ n, p.length ≤ n → (∀ b ∈ p, 32 ≤ b ∧ b ≤ 126 ∧ b ≠ 34 ∧ b ≠ 92) →
      quoteLoop printable n p = p := by
  induction p with
  | nil =>
    intro n _ _
    cases n <;> rfl
  | cons b t ih =>
    intro n hn h
    have hb := h b (List.mem_cons_self _ _)
    have hn' : t.length + 1 ≤ n := hn
    obtain ⟨m, rfl⟩ : ∃ m, n = m + 1 := ⟨n - 1, by omega⟩
    have hlt : ¬ 128 ≤ b := by omega
    have hr : b ≠ RuneError := by
      unfold RuneError
      omega
    simp only [quoteLoop, if_neg hlt, appendEscapedRune_printable printable b hb,
      List.drop_succ_cons, List.drop_zero]
    rw [ih m (by omega) (fun x hx => h x (List.mem_cons_of_mem _ hx))]
    simp [hr]

theorem Quote_of_printable (printable : Nat → Bool) (p : Str)
    (h : ∀ b ∈ p, 32 ≤ b ∧ b ≤ 126 ∧ b ≠ 34 ∧ b ≠ 92) :
    Quote printable p = [34] ++ p ++ [34] := by
  unfold Quote
  rw [quoteLoop_printable printable p p.length (Nat.le_refl _) h]

/-- The text of the error of `Parse` on the letter e-acute (bytes 0xC3 0xA9): the item has
two bytes and the first is not `-`, and the letter is printable. -/
theorem Parse_error_text_latin1 (printable : Nat → Bool) :
    Parse [195, 169] = Except.error (ParseError.wrongFormat [195, 169]) ∧
      ParseError.Error printable (ParseError.wrongFormat [195, 169]) =
        wrongFormatText ++ [34, 195, 169, 34] :=
  ⟨by decide, rfl⟩

/-- C21, as the code has it: when `Parse` fails on a non-empty input, it fails on the first
comma-separated item whose whitespace-trimmed text `v` is not a literal name.  If `v` is
empty, longer than two bytes, or of two bytes the first of which is not `-`, the error's
text is `"wrong clause format: "` followed by the `%q` quotation of `v`; if `v` is one
byte, it is `"unknown symbol: "` followed by the quotation of `v`; and if `v` is `-` and
one more byte, it is `"unknown symbol: "` followed by the quotation of that byte alone,
without the `-`.  A quoted text of printable ASCII characters other than `"` and `\`
stands in the error's text as it is, between double quotes. -/
theorem Parse_error_names_item (printable : Nat → Bool) (s : Str) (e : ParseError)
    (hne : s ≠ []) (h : Parse s = Except.error e) :
    ∃ (pre : List Str) (it : Str) (post : List Str) (v : Str),
      Split 44 s = pre ++ it :: post ∧ (∀ x ∈ pre, IsName (TrimSpace x)) ∧
      v = TrimSpace it ∧ ¬ IsName v ∧
      (((v.length = 0 ∨ v.length > 2 ∨ (v.length = 2 ∧ v[0]? ≠ some 45)) ∧
          e = ParseError.wrongFormat v ∧
          ParseError.Error printable e = wrongFormatText ++ Quote printable v ∧
          ((∀ b ∈ v, 32 ≤ b ∧ b ≤ 126 ∧ b ≠ 34 ∧ b ≠ 92) →
            ParseError.Error printable e = wrongFormatText ++ ([34] ++ v ++ [34]))) ∨
        (v.length = 1 ∧ e = ParseError.unknownSymbol v ∧
          ParseError.Error printable e = unknownSymbolText ++ Quote printable v ∧
          ((∀ b ∈ v, 32 ≤ b ∧ b ≤ 126 ∧ b ≠ 34 ∧ b ≠ 92) →
            ParseError.Error printable e = unknownSymbolText ++ ([34] ++ v ++ [34]))) ∨
        (∃ b, v = [45, b] ∧ e = ParseError.unknownSymbol [b] ∧
          ParseError.Error printable e = unknownSymbolText ++ Quote printable [b] ∧
          ((32 ≤ b ∧ b ≤ 126 ∧ b ≠ 34 ∧ b ≠ 92) →
            ParseError.Error printable e = unknownSymbolText ++ [34, b, 34]))) := by
  unfold Parse at h
  rw [if_neg (fun h0 => hne (List.length_eq_zero.mp h0))] at h
  obtain ⟨pre, it, post, c₁, hsplit, hpre, hit, he⟩ := parseLoop_first_error _ _ e h
  refine ⟨pre, it, post, TrimSpace it, hsplit, hpre, rfl, hit, ?_⟩
  rcases parseItem_error c₁ it hit with ⟨hshape, he'⟩ | ⟨hlen, he'⟩ | ⟨b, hb, he'⟩
  · have : e = ParseError.wrongFormat (TrimSpace it) := by
      rw [he'] at he
      exact (Except.error.inj he).symm
    subst this
    refine Or.inl ⟨hshape, rfl, rfl, fun hp => ?_⟩
    show wrongFormatText ++ Quote printable (TrimSpace it) = _
    rw [Quote_of_printable printable _ hp]
  · have : e = ParseError.unknownSymbol (TrimSpace it) := by
      rw [he'] at he
      exact (Except.error.inj he).symm
    subst this
    refine Or.inr (Or.inl ⟨hlen, rfl, rfl, fun hp => ?_⟩)
    show unknownSymbolText ++ Quote printable (TrimSpace it) = _
    rw [Quote_of_printable printable _ hp]
  · have : e = ParseError.unknownSymbol [b] := by
      rw [he'] at he
      exact (Except.error.inj he).symm
    subst this
    refine Or.inr (Or.inr ⟨b, hb, rfl, rfl, fun hp => ?_⟩)
    show unknownSymbolText ++ Quote printable [b] = _
    rw [Quote_of_printable printable [b] (fun x hx => by
      rw [List.mem_singleton] at hx
      rw [hx]
      exact hp)]
    rfl

/-- Witness for C21 on the input `"A, -1"`. -/
theorem Parse_error_names_item_witness :
    ∃ (pre : List Str) (it : Str) (post : List Str) (v : Str),
      Split 44 [65, 44, 32, 45, 49] = pre ++ it :: post ∧
      (∀ x ∈ pre, IsName (TrimSpace x)) ∧ v = TrimSpace it ∧ ¬ IsName v ∧
      (((v.length = 0 ∨ v.length > 2 ∨ (v.length = 2 ∧ v[0]? ≠ some 45)) ∧
          ParseError.unknownSymbol [49] = ParseError.wrongFormat v ∧
          ParseError.Error (fun _ => false) (ParseError.unknownSymbol [49]) =
            wrongFormatText ++ Quote (fun _ => false) v ∧
          ((∀ b ∈ v, 32 ≤ b ∧ b ≤ 126 ∧ b ≠ 34 ∧ b ≠ 92) →
            ParseError.Error (fun _ => false) (ParseError.unknownSymbol [49]) =
              wrongFormatText ++ ([34] ++ v ++ [34]))) ∨
        (v.length = 1 ∧ ParseError.unknownSymbol [49] = ParseError.unknownSymbol v ∧
          ParseError.Error (fun _ => false) (ParseError.unknownSymbol [49]) =
            unknownSymbolText ++ Quote (fun _ => false) v ∧
          ((∀ b ∈ v, 32 ≤ b ∧ b ≤ 126 ∧ b ≠ 34 ∧ b ≠ 92) →
            ParseError.Error (fun _ => false) (ParseError.unknownSymbol [49]) =
              unknownSymbolText ++ ([34] ++ v ++ [34]))) ∨
        (∃ b, v = [45, b] ∧ ParseError.unknownSymbol [49] = ParseError.unknownSymbol [b] ∧
          ParseError.Error (fun _ => false) (ParseError.unknownSymbol [49]) =
            unknownSymbolText ++ Quote (fun _ => false) [b] ∧
          ((32 ≤ b ∧ b ≤ 126 ∧ b ≠ 34 ∧ b ≠ 92) →
            ParseError.Error (fun _ => false) (ParseError.unknownSymbol [49]) =
              unknownSymbolText ++ [34, b, 34]))) :=
  Parse_error_names_item (fun _ => false) [65, 44, 32, 45, 49]
    (ParseError.unknownSymbol [49]) (by decide) (by decide)

/-- C21 as stated fails: on `"-1"` the error's text is `unknown symbol: "1"`, which does
not contain the item `-1`; and on `a"b` it is `wrong clause format: "a\"b"`, which does
not contain the item `a"b`. -/
theorem Parse_error_text_counterexample :
    (Parse [45, 49] = Except.error (ParseError.unknownSymbol [49]) ∧
      TrimSpace [45, 49] = [45, 49] ∧
      (∀ printable, ParseError.Error printable (ParseError.unknownSymbol [49]) =
        [117, 110, 107, 110, 111, 119, 110, 32, 115, 121, 109, 98, 111, 108, 58, 32,
          34, 49, 34]) ∧
      ¬ ∃ t₁ t₂ : Str,
        [117, 110, 107, 110, 111, 119, 110, 32, 115, 121, 109, 98, 111, 108, 58, 32,
          34, 49, 34] = t₁ ++ [45, 49] ++ t₂) ∧
    (Parse [97, 34, 98] = Except.error (ParseError.wrongFormat [97, 34, 98]) ∧
      TrimSpace [97, 34, 98] = [97, 34, 98] ∧
      (∀ printable, ParseError.Error printable (ParseError.wrongFormat [97, 34, 98]) =
        [119, 114, 111, 110, 103, 32, 99, 108, 97, 117, 115, 101, 32, 102, 111, 114,
          109, 97, 116, 58, 32, 34, 97, 92, 34, 98, 34]) ∧
      ¬ ∃ t₁ t₂ : Str,
        [119, 114, 111, 110, 103, 32, 99, 108, 97, 117, 115, 101, 32, 102, 111, 114,
          109, 97, 116, 58, 32, 34, 97, 92, 34, 98, 34] = t₁ ++ [97, 34, 98] ++ t₂) := by
  refine ⟨⟨by decide, by decide, fun _ => rfl, ?_⟩, by decide, by decide, fun _ => rfl, ?_⟩
  · rintro ⟨t₁, t₂, h⟩
    have hin : [45, 49] <:+: [117, 110, 107, 110, 111, 119, 110, 32, 115, 121, 109, 98,
        111, 108, 58, 32, 34, 49, 34] := ⟨t₁, t₂, h.symm⟩
    exact absurd hin (by decide)
  · rintro ⟨t₁, t₂, h⟩
    have hin : [97, 34, 98] <:+: [119, 114, 111, 110, 103, 32, 99, 108, 97, 117, 115, 101,
        32, 102, 111, 114, 109, 97, 116, 58, 32, 34, 97, 92, 34, 98, 34] := ⟨t₁, t₂, h.symm⟩
    exact absurd hin (by decide)

/-! ## Clauses returned by `Parse` -/

theorem Str2Lit_name_range (n : Str) (hn : IsName n) :
    (1 ≤ (Str2Lit n : Int) ∧ (Str2Lit n : Int) ≤ 26) ∨
      (-26 ≤ (Str2Lit n : Int) ∧ (Str2Lit n : Int) ≤ -1) := by
  have key : ∀ x : Int, 0 ≤ x → x < 26 →
      (1 ≤ x + 1 ∧ x + 1 ≤ 26) ∧ (-26 ≤ -(x + 1) ∧ -(x + 1) ≤ -1) := by
    intro x h1 h2
    omega
  obtain ⟨ch, hl, rfl | rfl⟩ := hn
  · have := letterIndex_lt ch hl
    rw [Str2Lit_letter ch hl]
    exact Or.inl (key _ (Int.ofNat_nonneg _) (by exact_mod_cast this)).1
  · have := letterIndex_lt ch hl
    rw [Str2Lit_minus_letter ch hl]
    exact Or.inr (key _ (Int.ofNat_nonneg _) (by exact_mod_cast this)).2

theorem isLitCode_of_range (x : Int) (h : (1 ≤ x ∧ x ≤ 26) ∨ (-26 ≤ x ∧ x ≤ -1)) :
    x ≠ 0 ∧ -9223372036854775808 < x ∧ x < 9223372036854775808 := by
  omega

theorem Parse_ok_eq (s : Str) (c : Clause) (h : Parse s = Except.ok c) :
    (∀ it ∈ Split 44 s, IsName (TrimSpace it)) ∧
      c = insertKeys ((Split 44 s).map (fun it => Str2Lit (TrimSpace it))) New := by
  rcases Parse_eq s with ⟨_, hall, hok⟩ | ⟨_, e, he⟩
  · rw [hok] at h
    exact ⟨hall, (Except.ok.inj h).symm⟩
  · rw [he] at h
    cases h

theorem Parse_range (s : Str) (c : Clause) (h : Parse s = Except.ok c) (l : Int)
    (hl : l ∈ c) : (1 ≤ l ∧ l ≤ 26) ∨ (-26 ≤ l ∧ l ≤ -1) := by
  obtain ⟨hall, rfl⟩ := Parse_ok_eq s c h
  have h1 := insertKeys_subset _ _ hl
  simp only [New, Finset.empty_union, List.mem_toFinset, List.mem_map] at h1
  obtain ⟨it, hit, rfl⟩ := h1
  exact Str2Lit_name_range _ (hall it hit)

theorem Parse_typed_noComplPair (s : Str) (c : Clause) (h : Parse s = Except.ok c) :
    Clause.Typed c ∧ Clause.NoComplPair c := by
  obtain ⟨hall, rfl⟩ := Parse_ok_eq s c h
  apply insertKeys_invariant
  · intro l hl
    obtain ⟨it, hit, rfl⟩ := List.mem_map.mp hl
    have := isLitCode_of_range _ (Str2Lit_name_range _ (hall it hit))
    exact ⟨le_of_lt this.2.1, this.2.2⟩
  · intro k hk
    exact absurd hk (Finset.not_mem_empty k)
  · intro k hk
    exact absurd hk (Finset.not_mem_empty k)

theorem Parse_valid (s : Str) (c : Clause) (h : Parse s = Except.ok c) : Clause.Valid c := by
  obtain ⟨ht, hc⟩ := Parse_typed_noComplPair s c h
  intro l hl
  have hr := isLitCode_of_range l (Parse_range s c h l hl)
  exact ⟨hr, fun hneg => noComplPair_int ht hc l hr.1 ⟨hl, hneg⟩⟩

/-! ## The command line -/

theorem parseArgs_ok (args : List Str) :
    ∀ set : List Clause, (∀ a ∈ args, ∃ c, Parse a = Except.ok c) →
      ∃ cs, parseArgs args set = Except.ok (set ++ cs) ∧
        List.Forall₂ (fun a c => Parse a = Except.ok c) args cs := by
  induction args with
  | nil =>
    intro set _
    exact ⟨[], by simp [parseArgs], List.Forall₂.nil⟩
  | cons a rest ih =>
    intro set h
    obtain ⟨c, hc⟩ := h a (List.mem_cons_self _ _)
    obtain ⟨cs, hcs, hf⟩ := ih (set ++ [c]) (fun x hx => h x (List.mem_cons_of_mem _ hx))
    refine ⟨c :: cs, ?_, List.Forall₂.cons hc hf⟩
    unfold parseArgs
    rw [hc]
    simp only []
    rw [hcs, List.append_assoc]
    rfl

theorem parseArgs_cons (a : Str) (rest : List Str) (set : List Clause) (c : Clause)
    (h : Parse a = Except.ok c) : parseArgs (a :: rest) set = parseArgs rest (set ++ [c]) := by
  rw [parseArgs, h]

theorem forall₂_Parse_valid (args : List Str) (cs : List Clause)
    (h : List.Forall₂ (fun a c => Parse a = Except.ok c) args cs) :
    ∀ c ∈ cs, Clause.Valid c := by
  induction h with
  | nil =>
    intro c hc
    exact absurd hc (List.not_mem_nil c)
  | cons hac _ ih =>
    intro c hc
    rcases List.mem_cons.mp hc with rfl | hc
    · exact Parse_valid _ _ hac
    · exact ih c hc

theorem Res_decides (o : KeyOrder) (S : List Clause) (hS : ∀ c ∈ S, Clause.Valid c) :
    ∃ b, (b = true ↔ ¬ Satisfiable S) ∧
      ∀ fuel, 2 ^ (lits S).card < fuel → Res o fuel S 0 = some (Outcome.verdict b) := by
  obtain ⟨b, hb⟩ := Res_total o S 0 (Int.le_refl 0)
  exact ⟨b, Res_verdict o S hS _ b (hb _ (Nat.lt_succ_self _)), hb⟩

theorem main_of_parsed (o : KeyOrder) (fuel : Nat) (args : List Str) (set : List Clause)
    (b : Bool) (hne : args ≠ []) (hp : parseArgs args [] = Except.ok set)
    (hr : Res o fuel set 0 = some (Outcome.verdict b)) :
    main o fuel args = some (Run.printed (if b then [91, 32, 93] else [91, 120, 93])) := by
  unfold main
  rw [if_neg (fun h => hne (List.length_eq_zero.mp h)), hp]
  simp only [hr]
  cases b <;> rfl

theorem main_unsat (o : KeyOrder) (fuel : Nat) (args : List Str) (set : List Clause)
    (hne : args ≠ []) (hp : parseArgs args [] = Except.ok set)
    (hv : ∀ c ∈ set, Clause.Valid c) (hf : 2 ^ (lits set).card < fuel)
    (hunsat : ¬ Satisfiable set) : main o fuel args = some (Run.printed [91, 32, 93]) := by
  obtain ⟨b, hb, hres⟩ := Res_decides o set hv
  have : b = true := hb.mpr hunsat
  subst this
  exact main_of_parsed o fuel args set true hne hp (hres fuel hf)

theorem main_sat (o : KeyOrder) (fuel : Nat) (args : List Str) (set : List Clause)
    (hne : args ≠ []) (hp : parseArgs args [] = Except.ok set)
    (hv : ∀ c ∈ set, Clause.Valid c) (hf : 2 ^ (lits set).card < fuel)
    (hsat : Satisfiable set) : main o fuel args = some (Run.printed [91, 120, 93]) := by
  obtain ⟨b, hb, hres⟩ := Res_decides o set hv
  have : b = false := by
    cases b with
    | false => rfl
    | true => exact absurd hsat (hb.mp rfl)
  subst this
  exact main_of_parsed o fuel args set false hne hp (hres fuel hf)

/-! ## The end-to-end scenarios -/

theorem unsat_of_empty_clause : ¬ Satisfiable [(∅ : Clause)] := by
  rintro ⟨v, hv⟩
  exact not_sat_empty v (hv ∅ (List.mem_singleton.mpr rfl))

theorem unsat_unit_pair : ¬ Satisfiable [{1}, {-1}] := by
  rintro ⟨v, hv⟩
  have h1 := hv {1} (by simp)
  have h2 := hv {-1} (by simp)
  simp [Clause.Sat, litTrue] at h1 h2
  simp [h1] at h2

theorem unsat_four_binary : ¬ Satisfiable [{1, 2}, {-1, 2}, {1, -2}, {-1, -2}] := by
  rintro ⟨v, hv⟩
  have h1 := hv {1, 2} (by simp)
  have h2 := hv {-1, 2} (by simp)
  have h3 := hv {1, -2} (by simp)
  have h4 := hv {-1, -2} (by simp)
  simp [Clause.Sat, litTrue] at h1 h2 h3 h4
  cases hv1 : v 1 <;> cases hv2 : v 2 <;> simp [hv1, hv2] at h1 h2 h3 h4

theorem sat_three_binary : Satisfiable [{1, 2}, {-1, 3}, {2, -3}] := by
  refine ⟨fun _ => true, ?_⟩
  intro c hc
  simp only [List.mem_cons, List.mem_singleton, List.not_mem_nil, or_false] at hc
  rcases hc with rfl | rfl | rfl
  · exact ⟨1, by decide, rfl⟩
  · exact ⟨3, by decide, rfl⟩
  · exact ⟨2, by decide, rfl⟩

theorem unsat_unit_and_two : ¬ Satisfiable [{1}, {-1, 2}, {-1, -2}] := by
  rintro ⟨v, hv⟩
  have h1 := hv {1} (by simp)
  have h2 := hv {-1, 2} (by simp)
  have h3 := hv {-1, -2} (by simp)
  simp [Clause.Sat, litTrue] at h1 h2 h3
  cases hv2 : v 2 <;> simp [h1, hv2] at h2 h3

theorem sat_ternary_and_three : Satisfiable [{1, 2, 3}, {-1, -2}, {2, -3}, {-2, 3}] := by
  refine ⟨fun x => decide (x = 1), ?_⟩
  intro c hc
  simp only [List.mem_cons, List.mem_singleton, List.not_mem_nil, or_false] at hc
  rcases hc with rfl | rfl | rfl | rfl
  · exact ⟨1, by decide, by decide⟩
  · exact ⟨-2, by decide, by decide⟩
  · exact ⟨-3, by decide, by decide⟩
  · exact ⟨-2, by decide, by decide⟩

/-- C27: the verdict printed by the program: for every non-empty list of positional
arguments that all parse, the clause sequence is the list of the parsed clauses in
argument order, `Res` is called on it with frontier 0 and returns, and the program prints
the line `[ ]` when the result is true, which is when the sequence is unsatisfiable, and
the line `[x]` when it is false, and ends with status 0; on the six end-to-end scenarios
the lines are `[ ]`, `[ ]`, `[ ]`, `[x]`, `[ ]`, `[x]`. -/
theorem main_prints_verdict (o : KeyOrder) (args : List Str) (hne : args ≠ [])
    (hall : ∀ a ∈ args, ∃ c, Parse a = Except.ok c) :
    (∃ (set : List Clause) (b : Bool),
      List.Forall₂ (fun a c => Parse a = Except.ok c) args set ∧
      parseArgs args [] = Except.ok set ∧
      (b = true ↔ ¬ Satisfiable set) ∧
      ∀ fuel, 2 ^ (lits set).card < fuel →
        Res o fuel set 0 = some (Outcome.verdict b) ∧
        ∃ r, main o fuel args = some r ∧
          Run.stdout r = (if b then [91, 32, 93] else [91, 120, 93]) ++ [10] ∧
          Run.exitCode r = 0) ∧
    ∀ fuel, 64 < fuel →
      main o fuel [[65, 44, 45, 65]] = some (Run.printed [91, 32, 93]) ∧
      main o fuel [[65], [45, 65]] = some (Run.printed [91, 32, 93]) ∧
      main o fuel [[65, 44, 66], [45, 65, 44, 66], [65, 44, 45, 66], [45, 65, 44, 45, 66]] =
        some (Run.printed [91, 32, 93]) ∧
      main o fuel [[65, 44, 66], [45, 65, 44, 67], [66, 44, 45, 67]] =
        some (Run.printed [91, 120, 93]) ∧
      main o fuel [[65], [45, 65, 44, 66], [45, 65, 44, 45, 66]] =
        some (Run.printed [91, 32, 93]) ∧
      main o fuel [[65, 44, 66, 44, 67], [45, 65, 44, 45, 66], [66, 44, 45, 67],
          [45, 66, 44, 67]] = some (Run.printed [91, 120, 93]) := by
  constructor
  · obtain ⟨set, hp, hf⟩ := parseArgs_ok args [] hall
    rw [List.nil_append] at hp
    obtain ⟨b, hb, hres⟩ := Res_decides o set (forall₂_Parse_valid args set hf)
    refine ⟨set, b, hf, hp, hb, fun fuel hfuel => ⟨hres fuel hfuel, _,
      main_of_parsed o fuel args set b hne hp (hres fuel hfuel), rfl, rfl⟩⟩
  · intro fuel hfuel
    refine ⟨?_, ?_, ?_, ?_, ?_, ?_⟩
    · refine main_unsat o fuel _ [∅] (by decide) ?_ (by decide)
        (lt_of_le_of_lt (by decide) hfuel) unsat_of_empty_clause
      rw [parseArgs_cons _ _ _ ∅ (by decide)]
      rfl
    · refine main_unsat o fuel _ [{1}, {-1}] (by decide) ?_ (by decide)
        (lt_of_le_of_lt (by decide) hfuel) unsat_unit_pair
      rw [parseArgs_cons _ _ _ {1} (by decide), parseArgs_cons _ _ _ {-1} (by decide)]
      rfl
    · refine main_unsat o fuel _ [{1, 2}, {-1, 2}, {1, -2}, {-1, -2}] (by decide) ?_
        (by decide) (lt_of_le_of_lt (by decide) hfuel) unsat_four_binary
      rw [parseArgs_cons _ _ _ {1, 2} (by decide), parseArgs_cons _ _ _ {-1, 2} (by decide),
        parseArgs_cons _ _ _ {1, -2} (by decide), parseArgs_cons _ _ _ {-1, -2} (by decide)]
      rfl
    · refine main_sat o fuel _ [{1, 2}, {-1, 3}, {2, -3}] (by decide) ?_ (by decide)
        (lt_of_le_of_lt (by decide) hfuel) sat_three_binary
      rw [parseArgs_cons _ _ _ {1, 2} (by decide), parseArgs_cons _ _ _ {-1, 3} (by decide),
        parseArgs_cons _ _ _ {2, -3} (by decide)]
      rfl
    · refine main_unsat o fuel _ [{1}, {-1, 2}, {-1, -2}] (by decide) ?_ (by decide)
        (lt_of_le_of_lt (by decide) hfuel) unsat_unit_and_two
      rw [parseArgs_cons _ _ _ {1} (by decide), parseArgs_cons _ _ _ {-1, 2} (by decide),
        parseArgs_cons _ _ _ {-1, -2} (by decide)]
      rfl
    · refine main_sat o fuel _ [{1, 2, 3}, {-1, -2}, {2, -3}, {-2, 3}] (by decide) ?_
        (by decide) (lt_of_le_of_lt (by decide) hfuel) sat_ternary_and_three
      rw [parseArgs_cons _ _ _ {1, 2, 3} (by decide),
        parseArgs_cons _ _ _ {-1, -2} (by decide), parseArgs_cons _ _ _ {2, -3} (by decide),
        parseArgs_cons _ _ _ {-2, 3} (by decide)]
      rfl

/-- Witness for C27 on the arguments `A,B` `-A` `-B`. -/
theorem main_prints_verdict_witness :
    ∃ (set : List Clause) (b : Bool),
      List.Forall₂ (fun a c => Parse a = Except.ok c) [[65, 44, 66], [45, 65], [45, 66]] set ∧
      parseArgs [[65, 44, 66], [45, 65], [45, 66]] [] = Except.ok set ∧
      (b = true ↔ ¬ Satisfiable set) ∧
      ∀ fuel, 2 ^ (lits set).card < fuel →
        Res sortedOrder fuel set 0 = some (Outcome.verdict b) ∧
        ∃ r, main sortedOrder fuel [[65, 44, 66], [45, 65], [45, 66]] = some r ∧
          Run.stdout r = (if b then [91, 32, 93] else [91, 120, 93]) ++ [10] ∧
          Run.exitCode r = 0 :=
  (main_prints_verdict sortedOrder [[65, 44, 66], [45, 65], [45, 66]] (by decide)
    (by
      intro a ha
      simp only [List.mem_cons, List.mem_singleton, List.not_mem_nil, or_false] at ha
      rcases ha with rfl | rfl | rfl
      · exact ⟨{1, 2}, by decide⟩
      · exact ⟨{-1}, by decide⟩
      · exact ⟨{-2}, by decide⟩)).1

/-! ## A pass over a saturated sequence -/

theorem resBody_fix (o : KeyOrder) (S : List Clause) (i k : Nat) (a b : Clause)
    (hi : S[i]? = some a) (hk : S[k]? = some b)
    (h : ∀ c, Clause.Resolve o a b = (some c, true) → ∃ s ∈ S, Clause.Equals o c s = true) :
    resBody o S i k = Step.next S := by
  unfold resBody
  simp only [hi, hk]
  rcases hres : Clause.Resolve o a b with ⟨_ | c, _ | _⟩
  · rfl
  · rfl
  · rfl
  · obtain ⟨s, hs, he⟩ := h c hres
    have hany : S.any (fun s => Clause.Equals o c s) = true :=
      List.any_eq_true.mpr ⟨s, hs, he⟩
    simp only [hany, if_true]

theorem innerLoop_fix (o : KeyOrder) (f : Int) (hf : 0 ≤ f) (i : Nat) (S : List Clause)
    (n : Nat) (h : ∀ k : Nat, k < n → f ≤ (k : Int) → k ≠ i → resBody o S i k = Step.next S) :
    innerLoop o f i n S = Step.next S := by
  induction n with
  | zero =>
    unfold innerLoop
    rw [if_neg (by omega)]
  | succ n ih =>
    unfold innerLoop
    have ih' := ih (fun k hk => h k (Nat.lt_succ_of_lt hk))
    by_cases h1 : (n : Int) < f
    · rw [if_pos h1]
    · rw [if_neg h1]
      by_cases h2 : i = n
      · rw [if_pos h2]
        exact ih'
      · rw [if_neg h2, h n (Nat.lt_succ_self n) (by omega) (Ne.symm h2)]
        exact ih'

theorem outerLoop_fix (o : KeyOrder) (f : Int) (S : List Clause)
    (hne : ∀ c ∈ S, Clause.IsEmpty c = false) (n : Nat) (hn : n ≤ S.length)
    (h : ∀ i : Nat, i < n → innerLoop o f i S.length S = Step.next S) :
    outerLoop o f n S = Step.next S := by
  induction n with
  | zero => rfl
  | succ n ih =>
    have hnlt : n < S.length := hn
    have ha : S[n]? = some S[n] := List.getElem?_eq_getElem hnlt
    unfold outerLoop
    simp only [ha, hne S[n] (List.getElem_mem _), h n (Nat.lt_succ_self n)]
    exact ih (Nat.le_of_succ_le hn) (fun i hi => h i (Nat.lt_succ_of_lt hi))

theorem pass_of_saturated (o : KeyOrder) (S : List Clause) (f : Int) (hf : 0 ≤ f)
    (hne : ∀ c ∈ S, Clause.IsEmpty c = false)
    (hsat : ∀ (i k : Nat) (a b c : Clause), i ≠ k → f ≤ (k : Int) → S[i]? = some a →
      S[k]? = some b → Clause.Resolve o a b = (some c, true) →
      ∃ s ∈ S, Clause.Equals o c s = true) :
    outerLoop o f S.length S = Step.next S := by
  apply outerLoop_fix o f S hne S.length (Nat.le_refl _)
  intro i hi
  apply innerLoop_fix o f hf i S S.length
  intro k hk hfk hki
  exact resBody_fix o S i k S[i] S[k] (List.getElem?_eq_getElem hi)
    (List.getElem?_eq_getElem hk)
    (fun c hc => hsat i k S[i] S[k] c (Ne.symm hki) hfk (List.getElem?_eq_getElem hi)
      (List.getElem?_eq_getElem hk) hc)

theorem Res_of_pass_fix (o : KeyOrder) (fuel : Nat) (S : List Clause) (f : Int)
    (h : outerLoop o f S.length S = Step.next S) :
    Res o (fuel + 1) S f = some (Outcome.verdict false) := by
  rw [Res_succ_next o fuel S S f h]
  simp

/-- C31: a saturated sequence yields false: for every sequence `S` with no empty clause and
every frontier `f ≥ 0`, if for all indices `i ≠ k` with `k ≥ f` every clause that
`S[i].Resolve(S[k])` returns with flag true is `Equals` to some clause of `S`, then the pass
leaves `S` as it is and `Res(S, f)` returns false without a recursive call; in particular
`Res` returns false on the empty sequence and on a sequence of one non-empty clause. -/
theorem Res_saturated_false (o : KeyOrder) (S : List Clause) (f : Int) (hf : 0 ≤ f)
    (hne : ∀ c ∈ S, Clause.IsEmpty c = false)
    (hsat : ∀ (i k : Nat) (a b c : Clause), i ≠ k → f ≤ (k : Int) → S[i]? = some a →
      S[k]? = some b → Clause.Resolve o a b = (some c, true) →
      ∃ s ∈ S, Clause.Equals o c s = true) :
    outerLoop o f S.length S = Step.next S ∧
    (∀ fuel, Res o (fuel + 1) S f = some (Outcome.verdict false)) ∧
    Res o 1 [] f = some (Outcome.verdict false) ∧
    ∀ c, Clause.IsEmpty c = false → Res o 1 [c] f = some (Outcome.verdict false) := by
  have hpass := pass_of_saturated o S f hf hne hsat
  refine ⟨hpass, fun fuel => Res_of_pass_fix o fuel S f hpass, ?_, ?_⟩
  · exact Res_of_pass_fix o 0 [] f rfl
  · intro c hc
    apply Res_of_pass_fix o 0 [c] f
    apply pass_of_saturated o [c] f hf
    · intro d hd
      rw [List.mem_singleton] at hd
      rw [hd]
      exact hc
    · intro i k a b d hik _ hi hk _
      have h1 : i < [c].length := by
        by_contra hge
        rw [List.getElem?_eq_none (Nat.le_of_not_lt hge)] at hi
        cases hi
      have h2 : k < [c].length := by
        by_contra hge
        rw [List.getElem?_eq_none (Nat.le_of_not_lt hge)] at hk
        cases hk
      simp only [List.length_singleton] at h1 h2
      omega

/-- Witness for C31 on the saturated sequence {A}, {B} with frontier 0. -/
theorem Res_saturated_false_witness :
    Res sortedOrder 1 [{1}, {2}] 0 = some (Outcome.verdict false) :=
  (Res_saturated_false sortedOrder [{1}, {2}] 0 (by decide) (by decide)
    (by
      intro i k a b c hik _ hi hk hr
      have h1 : i < 2 := by
        by_contra hge
        rw [List.getElem?_eq_none (by simpa using hge)] at hi
        cases hi
      have h2 : k < 2 := by
        by_contra hge
        rw [List.getElem?_eq_none (by simpa using hge)] at hk
        cases hk
      interval_cases i <;> interval_cases k <;>
        simp only [List.getElem?_cons_zero, List.getElem?_cons_succ,
          Option.some.injEq] at hi hk <;>
        subst hi <;> subst hk
      · exact absurd rfl hik
      · have h : (Clause.Resolve sortedOrder {1} {2}).2 = true := congrArg Prod.snd hr
        exact absurd h (by decide)
      · have h : (Clause.Resolve sortedOrder {2} {1}).2 = true := congrArg Prod.snd hr
        exact absurd h (by decide)
      · exact absurd rfl hik)).2.1 0

/-! ## Invariants of the clauses that `Resolve` and `Res` produce -/

theorem Resolve_some_valid (o : KeyOrder) {a b c : Clause} {flag : Bool}
    (ha : Clause.Valid a) (hb : Clause.Valid b)
    (h : Clause.Resolve o a b = (some c, flag)) : Clause.Valid c := by
  rw [Resolve_eq o ha.typed ha.noComplPair hb.typed hb.noComplPair] at h
  by_cases h2 : 2 ≤ (complLits a b).card
  · rw [if_pos h2] at h
    cases h
  · rw [if_neg h2] at h
    have hc : resolvent a b = c := Option.some.inj (congrArg Prod.fst h)
    rw [← hc]
    exact resolvent_valid ha hb

theorem resBody_nil (o : KeyOrder) (S : List Clause) (i k : Nat) (a b : Clause)
    (hi : S[i]? = some a) (hk : S[k]? = some b) (h : (Clause.Resolve o a b).1 = none) :
    resBody o S i k = Step.next S := by
  apply resBody_fix o S i k a b hi hk
  intro c hc
  rw [hc] at h
  cases h

/-- C32: `Resolve` and the driver preserve the clause invariants: for clauses `a` and `b`
of non-zero literal codes with no complementary pair, every non-nil clause that
`a.Resolve(b)` returns, with either flag, has only members of `a` or of `b`, no zero code
and no complementary pair, and two complementary pairs between `a` and `b` give the nil
clause, on which the driver appends nothing; hence after a pass of `Res` over a sequence of
such clauses every clause of the sequence is such a clause. -/
theorem Resolve_preserves_invariants (o : KeyOrder) (a b : Clause) (S : List Clause)
    (ha : Clause.Valid a) (hb : Clause.Valid b) (hS : ∀ c ∈ S, Clause.Valid c) :
    (∀ c flag, Clause.Resolve o a b = (some c, flag) →
      (∀ l ∈ c, l ∈ a ∨ l ∈ b) ∧ (0 : Int) ∉ c ∧ (∀ l : Int, l ∈ c → -l ∉ c) ∧
        Clause.Valid c) ∧
    (2 ≤ (complLits a b).card → Clause.Resolve o a b = (none, false)) ∧
    (∀ i k, S[i]? = some a → S[k]? = some b → (Clause.Resolve o a b).1 = none →
      resBody o S i k = Step.next S) ∧
    (∀ (f : Int) (S' : List Clause), outerLoop o f S.length S = Step.next S' →
      ∀ c ∈ S', Clause.Valid c) := by
  refine ⟨?_, ?_, ?_, ?_⟩
  · intro c flag h
    have hv := Resolve_some_valid o ha hb h
    refine ⟨?_, ?_, fun l hl => (hv l hl).2, hv⟩
    · intro l hl
      exact Finset.mem_union.mp (Resolve_subset o a b c flag h hl)
    · intro h0
      exact (hv 0 h0).1.1 rfl
  · intro h2
    rw [Resolve_eq o ha.typed ha.noComplPair hb.typed hb.noComplPair, if_pos h2]
  · intro i k hi hk h
    exact resBody_nil o S i k a b hi hk h
  · intro f S' h
    rcases outerLoop_spec o f S.length S (Nat.le_refl _) with
      ⟨set', he, hext, _, _⟩ | ⟨he, _⟩ | ⟨he, _⟩
    · rw [he] at h
      cases h
      exact hext.valid hS
    · rw [he] at h
      cases h
    · rw [he] at h
      cases h

/-- Witness for C32 on the clauses {A, -B} and {B, C}, whose resolvent is {A, C}. -/
theorem Resolve_preserves_invariants_witness :
    (∀ l ∈ ({1, 3} : Clause), l ∈ ({1, -2} : Clause) ∨ l ∈ ({2, 3} : Clause)) ∧
      (0 : Int) ∉ ({1, 3} : Clause) ∧
      (∀ l : Int, l ∈ ({1, 3} : Clause) → -l ∉ ({1, 3} : Clause)) ∧
      Clause.Valid {1, 3} :=
  (Resolve_preserves_invariants sortedOrder {1, -2} {2, 3} [{1, -2}, {2, 3}] (by decide)
    (by decide) (by decide)).1 {1, 3} true (by decide)

/-- C33, for the codes whose complement is a Go `int`: semantic soundness of one
resolution step: for clauses `a` and `b` of non-zero literal codes other than -2^63, with
no complementary pair, and every truth assignment `v`, if `v` makes some
literal of `a` true and some literal of `b` true and `a.Resolve(b)` returns `(r, true)`,
then `v` makes some literal of `r` true; so `r` is not empty when some assignment satisfies
both `a` and `b`. -/
theorem Resolve_step_sound (o : KeyOrder) (a b r : Clause) (ha : Clause.Valid a)
    (hb : Clause.Valid b) (h : Clause.Resolve o a b = (some r, true)) :
    (∀ v : Int → Bool, Clause.Sat v a → Clause.Sat v b → Clause.Sat v r) ∧
    ((∃ v : Int → Bool, Clause.Sat v a ∧ Clause.Sat v b) →
      r ≠ ∅ ∧ Clause.IsEmpty r = false) := by
  obtain ⟨hcard, hr⟩ := (Resolve_valid o ha hb).mp h
  have hsound : ∀ v : Int → Bool, Clause.Sat v a → Clause.Sat v b → Clause.Sat v r := by
    intro v hva hvb
    rw [hr]
    exact resolvent_sat hb hcard v hva hvb
  refine ⟨hsound, ?_⟩
  rintro ⟨v, hva, hvb⟩
  have hne : r ≠ ∅ := by
    intro he
    have := hsound v hva hvb
    rw [he] at this
    exact not_sat_empty v this
  refine ⟨hne, ?_⟩
  cases hemp : Clause.IsEmpty r with
  | false => rfl
  | true => exact absurd ((IsEmpty_eq_true r).mp hemp) hne

/-- Witness for C33 on the clauses {A, -B} and {B, C}, whose resolvent is {A, C}. -/
theorem Resolve_step_sound_witness :
    (∀ v : Int → Bool, Clause.Sat v {1, -2} → Clause.Sat v {2, 3} → Clause.Sat v {1, 3}) ∧
    ((∃ v : Int → Bool, Clause.Sat v {1, -2} ∧ Clause.Sat v {2, 3}) →
      ({1, 3} : Clause) ≠ ∅ ∧ Clause.IsEmpty {1, 3} = false) :=
  Resolve_step_sound sortedOrder {1, -2} {2, 3} {1, 3} (by decide) (by decide) (by decide)

/-- C33 as stated fails when the code -2^63, which Go's unary minus maps to itself, is a
member: `{-2^63, B}.Resolve({-2^63})` returns `({B}, true)`, and the assignment that makes
every variable false satisfies both clauses and not {B}; and `{-2^63}.Resolve({-2^63})`
returns the empty clause with flag true although the two clauses are satisfiable. -/
theorem Resolve_step_counterexample :
    (∀ c ∈ [({-9223372036854775808, 2} : Clause), {-9223372036854775808}],
      Clause.NoComplPair c ∧ ∀ l ∈ c, IsInt64 l ∧ l ≠ 0 ∧ -l ∉ c) ∧
    Clause.Resolve sortedOrder {-9223372036854775808, 2} {-9223372036854775808} =
      (some {2}, true) ∧
    Clause.Resolve reverseOrder {-9223372036854775808, 2} {-9223372036854775808} =
      (some {2}, true) ∧
    Clause.Sat (fun _ => false) {-9223372036854775808, 2} ∧
    Clause.Sat (fun _ => false) {-9223372036854775808} ∧
    ¬ Clause.Sat (fun _ => false) {2} ∧
    Clause.Resolve sortedOrder {-9223372036854775808} {-9223372036854775808} =
      (some ∅, true) := by
  refine ⟨by decide, by decide, by decide, ⟨-9223372036854775808, by decide, by decide⟩,
    ⟨-9223372036854775808, by decide, by decide⟩, ?_, by decide⟩
  rintro ⟨l, hl, h⟩
  rw [Finset.mem_singleton] at hl
  subst hl
  revert h
  decide

/-! ## Clauses returned by `Parse`, continued -/

theorem natAbs_eq_cases (x y : Int) (h : x.natAbs = y.natAbs) : x = y ∨ y = -x := by
  omega

theorem natAbs_mem_Icc (x : Int) (h : (1 ≤ x ∧ x ≤ 26) ∨ (-26 ≤ x ∧ x ≤ -1)) :
    x.natAbs ∈ Finset.Icc 1 26 := by
  rw [Finset.mem_Icc]
  omega

/-- C34: `Parse` only produces valid clauses: on every input on which `Parse` succeeds,
every member of the returned clause is a code in [-26,-1] ∪ [1,26], the error sentinel 0 is
not a member, the clause has no complementary pair, and its size is at most 26 and at most
the number of comma-separated items. -/
theorem Parse_produces_valid (s : Str) (c : Clause) (h : Parse s = Except.ok c) :
    (∀ l : Int, l ∈ c → (1 ≤ l ∧ l ≤ 26) ∨ (-26 ≤ l ∧ l ≤ -1)) ∧
    Clause.Contains c ErrorLiteral = false ∧
    (∀ l : Int, l ∈ c → -l ∉ c) ∧ Clause.NoComplPair c ∧
    Clause.Size c ≤ 26 ∧ Clause.Size c ≤ (Split 44 s).length := by
  have hrange := Parse_range s c h
  have hvalid := Parse_valid s c h
  refine ⟨hrange, ?_, fun l hl => (hvalid l hl).2, (Parse_typed_noComplPair s c h).2, ?_, ?_⟩
  · cases hcon : Clause.Contains c ErrorLiteral with
    | false => rfl
    | true =>
      have hmem : (0 : Int) ∈ c := by
        unfold Clause.Contains at hcon
        exact of_decide_eq_true hcon
      exact absurd rfl (hvalid 0 hmem).1.1
  · have hle : c.card ≤ (Finset.Icc 1 26).card := by
      apply Finset.card_le_card_of_injOn Int.natAbs
      · intro x hx
        exact natAbs_mem_Icc x (hrange x hx)
      · intro x hx y hy hxy
        rcases natAbs_eq_cases x y hxy with h1 | h1
        · exact h1
        · exfalso
          apply (hvalid x hx).2
          rw [← h1]
          exact hy
    simpa [Clause.Size] using hle
  · obtain ⟨_, hc⟩ := Parse_ok_eq s c h
    have hsub : c ⊆ ((Split 44 s).map (fun it => Str2Lit (TrimSpace it))).toFinset := by
      rw [hc]
      intro z hz
      have := insertKeys_subset _ _ hz
      simpa [New] using this
    calc Clause.Size c = c.card := rfl
      _ ≤ ((Split 44 s).map (fun it => Str2Lit (TrimSpace it))).toFinset.card :=
          Finset.card_le_card hsub
      _ ≤ ((Split 44 s).map (fun it => Str2Lit (TrimSpace it))).length :=
          List.toFinset_card_le _
      _ = (Split 44 s).length := List.length_map _ _

/-- Witness for C34 on the input `"A, -b, A, C"`, which gives the clause {A, -B, C}. -/
theorem Parse_produces_valid_witness :
    (∀ l : Int, l ∈ ({1, -2, 3} : Clause) → (1 ≤ l ∧ l ≤ 26) ∨ (-26 ≤ l ∧ l ≤ -1)) ∧
    Clause.Contains {1, -2, 3} ErrorLiteral = false ∧
    (∀ l : Int, l ∈ ({1, -2, 3} : Clause) → -l ∉ ({1, -2, 3} : Clause)) ∧
    Clause.NoComplPair {1, -2, 3} ∧
    Clause.Size {1, -2, 3} ≤ 26 ∧
    Clause.Size {1, -2, 3} ≤
      (Split 44 [65, 44, 32, 45, 98, 44, 32, 65, 44, 32, 67]).length :=
  Parse_produces_valid [65, 44, 32, 45, 98, 44, 32, 65, 44, 32, 67]
    {1, -2, 3} (by decide)

end clause
